import Mathlib

/-!
# Verification of the event-speaker-scraper extraction core

A shallow embedding, in Lean 4, of the URL filtering, page classification,
identity-key computation, structured-content scrape pass loop, job update and
persistence logic of the event-speaker-scraper repository
(src/lib/firecrawl.ts, src/app/api/extraction/map/route.ts and the
events-repository module), together with theorems settling the testable
properties stated for those components.

Strings of the TypeScript source are embedded as `List Char` (`Str` below) so
that inductive reasoning over characters is available.  JavaScript's `URL`
class is embedded by an explicit parser covering the fragment of the WHATWG
grammar the repository exercises: absolute `scheme://host/path?query#fragment`
references without userinfo, port, percent-encoding or dot-segment
normalization; scheme-relative and non-authority forms are modelled as parse
failures (for the repository's functions both roads lead to the same
rejection).  `String.prototype.normalize("NFKD")` is embedded as the identity
function, which is exact on the ASCII inputs all concrete scenarios use; every
theorem below is insensitive to the choice because both sides of each
equivalence apply the same normalization pipeline.
-/

set_option maxHeartbeats 1000000

namespace EventScraper

/-- Characters of a JavaScript string, in order. -/
abbrev Str := List Char

/-- The ASCII whitespace recognized by the embedding of `trim` and `\s`. -/
def isSpaceChar (c : Char) : Bool :=
  c == ' ' || c == '\t' || c == '\n' || c == '\r'

/-- The `\w` character class of JavaScript regular expressions. -/
def isWordChar (c : Char) : Bool :=
  c.isAlpha || c.isDigit || c == '_'

/-- ASCII lowercasing of one character, written as an explicit table so its
properties are provable by case analysis. -/
def toLowerChar (c : Char) : Char :=
  match c with
  | 'A' => 'a' | 'B' => 'b' | 'C' => 'c' | 'D' => 'd' | 'E' => 'e' | 'F' => 'f'
  | 'G' => 'g' | 'H' => 'h' | 'I' => 'i' | 'J' => 'j' | 'K' => 'k' | 'L' => 'l'
  | 'M' => 'm' | 'N' => 'n' | 'O' => 'o' | 'P' => 'p' | 'Q' => 'q' | 'R' => 'r'
  | 'S' => 's' | 'T' => 't' | 'U' => 'u' | 'V' => 'v' | 'W' => 'w' | 'X' => 'x'
  | 'Y' => 'y' | 'Z' => 'z'
  | other => other

/-- The graph of `toLowerChar` on the characters it moves. -/
def upperLowerPairs : List (Char × Char) :=
  [('A','a'), ('B','b'), ('C','c'), ('D','d'), ('E','e'), ('F','f'),
   ('G','g'), ('H','h'), ('I','i'), ('J','j'), ('K','k'), ('L','l'),
   ('M','m'), ('N','n'), ('O','o'), ('P','p'), ('Q','q'), ('R','r'),
   ('S','s'), ('T','t'), ('U','u'), ('V','v'), ('W','w'), ('X','x'),
   ('Y','y'), ('Z','z')]

/-- Embedding of `String.prototype.toLowerCase` (ASCII fragment). -/
def lowerStr (s : Str) : Str := s.map toLowerChar

/-- Embedding of `String.prototype.trim`. -/
def trimStr (s : Str) : Str :=
  ((s.dropWhile isSpaceChar).reverse.dropWhile isSpaceChar).reverse

/-- Embedding of `String.prototype.normalize("NFKD")`; identity on the ASCII
fragment this development evaluates on (see the module docstring). -/
def nfkdStr (s : Str) : Str := s

/-- Embedding of `.replace(/[^\w\s]/g, " ")`: every character that is neither
a word character nor whitespace becomes a space. -/
def stripNonWord (s : Str) : Str :=
  s.map (fun c => if isWordChar c || isSpaceChar c then c else ' ')

/-- Worker for `collapseWs`; the flag records whether the previous character
already emitted a space for the current whitespace run. -/
def collapseGo : Bool → Str → Str
  | _, [] => []
  | prevSpace, c :: cs =>
    if isSpaceChar c then
      if prevSpace then collapseGo true cs else ' ' :: collapseGo true cs
    else c :: collapseGo false cs

/-- Embedding of `.replace(/\s+/g, " ")`: each maximal whitespace run becomes
a single space. -/
def collapseWs (s : Str) : Str := collapseGo false s

/-- Splits a character list at the first character satisfying `p`: returns the
prefix of characters refuting `p` and the remainder (which, when non-empty,
starts with a character satisfying `p`). -/
def breakAt (p : Char → Bool) : Str → Str × Str
  | [] => ([], [])
  | c :: cs =>
    if p c then ([], c :: cs)
    else
      let r := breakAt p cs
      (c :: r.1, r.2)

/-! ## Identity normalization (route.ts `normalizeIdentityToken`,
events-repository `normalizeIdentityValue`) -/
/-- The shared normalization pipeline:
`trim → toLowerCase → normalize("NFKD") → replace(/[^\w\s]/g, " ") →
replace(/\s+/g, " ") → trim`. -/
def identityNorm (s : Str) : Str :=
  trimStr (collapseWs (stripNonWord (nfkdStr (lowerStr (trimStr s)))))

/-- route.ts `normalizeIdentityToken`: applies the pipeline to `value ?? ""`. -/
def normalizeIdentityToken (v : Option Str) : Str :=
  identityNorm (v.getD [])

/-- events-repository `normalizeTextValue`: trims, and maps whitespace-only or
absent input to `undefined`. -/
def normalizeTextValue (v : Option Str) : Option Str :=
  match v with
  | none => none
  | some s => let t := trimStr s; if t = [] then none else some t

/-- events-repository `normalizeIdentityValue`: the pipeline applied to
`normalizeTextValue(value) ?? ""`. -/
def normalizeIdentityValue (v : Option Str) : Str :=
  identityNorm ((normalizeTextValue v).getD [])

/-! ## JavaScript `Map` model

Association lists with `set` overwriting in place (preserving insertion
order) and `get` returning the stored value, matching `Map.prototype` as the
source uses it.  The source's guarded `if (!m.has(k)) m.set(k, v)` idiom is
`insertIfAbsent`. -/
abbrev JsMap (κ ν : Type) : Type := List (κ × ν)

namespace JsMap

variable {κ ν : Type} [DecidableEq κ]

def get : JsMap κ ν → κ → Option ν
  | [], _ => none
  | (k, v) :: rest, key => if k = key then some v else get rest key

def contains (m : JsMap κ ν) (key : κ) : Bool := (get m key).isSome

def set : JsMap κ ν → κ → ν → JsMap κ ν
  | [], key, val => [(key, val)]
  | (k, v) :: rest, key, val =>
    if k = key then (k, val) :: rest else (k, v) :: set rest key val

def insertIfAbsent (m : JsMap κ ν) (key : κ) (val : ν) : JsMap κ ν :=
  if contains m key then m else set m key val

def values (m : JsMap κ ν) : List ν := m.map Prod.snd

end JsMap

/-! ## The `new URL(...)` model

An explicit parser for absolute `scheme://host/path?query#fragment`
references; see the module docstring for the modelled fragment.  As in the
WHATWG parser, scheme and host are canonicalized to lower case and an absent
path serializes as `/`. -/
def isHostDelimChar (c : Char) : Bool := c == '/' || c == '?' || c == '#'

def isHostBanChar (c : Char) : Bool := c == ':' || c == '@'

def isPathDelimChar (c : Char) : Bool := c == '?' || c == '#'

structure Url where
  scheme : Str
  host : Str
  path : Str
  query : Option Str
  hash : Option Str
deriving DecidableEq

/-- Splits the part after the first path/query/fragment delimiter into query
and fragment. -/
def parseQH : Str → Option Str × Option Str
  | [] => (none, none)
  | d :: rest =>
    if d = '?' then
      match (breakAt (fun c => c == '#') rest).2 with
      | [] => (some (breakAt (fun c => c == '#') rest).1, none)
      | _ :: h => (some (breakAt (fun c => c == '#') rest).1, some h)
    else if d = '#' then (none, some rest)
    else (none, none)

/-- Splits the part after the authority into path, query and fragment. -/
def parsePQH (tail : Str) : Str × Option Str × Option Str :=
  ((if (breakAt isPathDelimChar tail).1 = []
      then ['/'] else (breakAt isPathDelimChar tail).1),
   parseQH (breakAt isPathDelimChar tail).2)

def parseUrl (s : Str) : Option Url :=
  match (breakAt (fun c => c == ':') s).2 with
  | ':' :: '/' :: '/' :: afterScheme =>
    if (breakAt (fun c => c == ':') s).1 = [] then none
    else if (breakAt (fun c => c == ':') s).1.all Char.isAlpha = false then none
    else if (breakAt isHostDelimChar afterScheme).1 = [] then none
    else if (breakAt isHostDelimChar afterScheme).1.any isHostBanChar then none
    else
      some ⟨lowerStr (breakAt (fun c => c == ':') s).1,
            lowerStr (breakAt isHostDelimChar afterScheme).1,
            (parsePQH (breakAt isHostDelimChar afterScheme).2).1,
            (parsePQH (breakAt isHostDelimChar afterScheme).2).2.1,
            (parsePQH (breakAt isHostDelimChar afterScheme).2).2.2⟩
  | _ => none

def serQuery : Option Str → Str
  | none => []
  | some q => '?' :: q

def serHash : Option Str → Str
  | none => []
  | some h => '#' :: h

/-- Serializer (`url.toString()`). -/
def urlToString (u : Url) : Str :=
  u.scheme ++ ':' :: '/' :: '/' :: (u.host ++ u.path ++ serQuery u.query ++ serHash u.hash)

/-- `url.hash = ""`: removes the fragment. -/
def clearHash (u : Url) : Url := { u with hash := none }

/-- The invariants every parser output satisfies; exactly what the
serialize-then-reparse round trip needs. -/
structure WfUrl (u : Url) : Prop where
  scheme_ne : u.scheme ≠ []
  scheme_alpha : u.scheme.all Char.isAlpha = true
  scheme_lower : lowerStr u.scheme = u.scheme
  host_ne : u.host ≠ []
  host_clean : ∀ c ∈ u.host, isHostDelimChar c = false ∧ isHostBanChar c = false
  host_lower : lowerStr u.host = u.host
  path_head : ∃ t, u.path = '/' :: t
  path_clean : ∀ c ∈ u.path, isPathDelimChar c = false
  query_clean : ∀ q, u.query = some q → ∀ c ∈ q, (c == '#') = false

/-! ## firecrawl.ts: URL filtering -/
/-- `ASSET_EXTENSIONS` of src/lib/firecrawl.ts. -/
def assetExtensions : List Str :=
  [".css".toList, ".js".toList, ".mjs".toList, ".map".toList, ".png".toList,
   ".jpg".toList, ".jpeg".toList, ".gif".toList, ".svg".toList, ".webp".toList,
   ".ico".toList, ".pdf".toList, ".zip".toList, ".tar".toList, ".gz".toList,
   ".mp4".toList, ".webm".toList, ".mp3".toList, ".wav".toList, ".xml".toList,
   ".json".toList, ".txt".toList]

/-- `String.prototype.lastIndexOf` for a single character (`-1` if absent). -/
def lastIndexOfChar (c : Char) : Str → Int
  | [] => -1
  | d :: ds =>
    let r := lastIndexOfChar c ds
    if r ≥ 0 then r + 1
    else if d = c then 0 else -1

/-- firecrawl.ts `isHttpProtocol`. -/
def isHttpProtocol (u : Url) : Bool :=
  u.scheme == "http".toList || u.scheme == "https".toList

/-- firecrawl.ts `isHtmlLikePath`: paths without a file extension are
page-like; otherwise the lowercased extension must not be an asset
extension. -/
def isHtmlLikePath (pathname : Str) : Bool :=
  let lastDot := lastIndexOfChar '.' pathname
  if lastDot ≤ lastIndexOfChar '/' pathname then true
  else !(decide (lowerStr (pathname.drop lastDot.toNat) ∈ assetExtensions))

/-- firecrawl.ts `normalizeUrl`: parse, clear the fragment, serialize;
`none` on parse failure. -/
def normalizeUrl (input : Str) : Option Str :=
  match parseUrl input with
  | some parsed => some (urlToString (clearHash parsed))
  | none => none

/-- The loop body of `filterMappedUrls`, with the `Set` of already-accepted
serialized URLs as an insertion-ordered accumulator. -/
def filterMappedUrlsGo (originHost : Str) : List Str → List Str → List Str
  | [], acc => acc
  | rawUrl :: rest, acc =>
    match normalizeUrl rawUrl with
    | none => filterMappedUrlsGo originHost rest acc
    | some normalized =>
      match parseUrl normalized with
      | none => filterMappedUrlsGo originHost rest acc
      | some parsed =>
        if isHttpProtocol parsed = false then
          filterMappedUrlsGo originHost rest acc
        else if lowerStr parsed.host ≠ originHost then
          filterMappedUrlsGo originHost rest acc
        else if isHtmlLikePath parsed.path = false then
          filterMappedUrlsGo originHost rest acc
        else if urlToString parsed ∈ acc then
          filterMappedUrlsGo originHost rest acc
        else
          filterMappedUrlsGo originHost rest (acc ++ [urlToString parsed])

/-- firecrawl.ts `filterMappedUrls`.  `none` models the `new URL(startUrl)`
throw on an unparseable start URL. -/
def filterMappedUrls (startUrl : Str) (mappedUrls : List Str) : Option (List Str) :=
  match parseUrl startUrl with
  | none => none
  | some startParsed =>
    some (filterMappedUrlsGo (lowerStr startParsed.host) mappedUrls [])

/-- One mapped URL string survives the filter against `originHost`, producing
the serialized fragment-stripped form `u`. -/
def keepsUrl (originHost : Str) (raw u : Str) : Prop :=
  ∃ v, parseUrl raw = some v ∧ u = urlToString (clearHash v) ∧
    isHttpProtocol v = true ∧ lowerStr v.host = originHost ∧
    isHtmlLikePath v.path = true

/-! ## route.ts: page classifier and in-run identity keys -/
inductive FirecrawlExtractionMode
  | session
  | speakerDirectory
deriving DecidableEq

/-- `SPEAKER_PATH_KEYWORDS`. -/
def speakerPathKeywords : List Str :=
  ["speaker".toList, "speakers".toList, "presenter".toList,
   "presenters".toList, "faculty".toList]

/-- `SESSION_PATH_KEYWORDS`. -/
def sessionPathKeywords : List Str :=
  ["session".toList, "sessions".toList, "agenda".toList,
   "schedule".toList, "program".toList]

/-- `url.search`: `?`-prefixed query, empty when the query is absent or
empty. -/
def searchOf (u : Url) : Str :=
  match u.query with
  | some q => if q = [] then [] else '?' :: q
  | none => []

/-- `candidate.includes(keyword)`. -/
def strIncludes (candidate keyword : Str) : Bool := decide (keyword <:+: candidate)

def speakerKeywordIn (candidate : Str) : Bool :=
  speakerPathKeywords.any (fun k => strIncludes candidate k)

def sessionKeywordIn (candidate : Str) : Bool :=
  sessionPathKeywords.any (fun k => strIncludes candidate k)

/-- route.ts `pickExtractionMode`: keyword classification of
`pathname + search`, lowercased; unparseable URLs fall through to the
ambiguous session default. -/
def pickExtractionMode (url : Str) : FirecrawlExtractionMode × Bool :=
  match parseUrl url with
  | some parsed =>
    let candidate := lowerStr (parsed.path ++ searchOf parsed)
    if speakerKeywordIn candidate && !sessionKeywordIn candidate then
      (.speakerDirectory, false)
    else if sessionKeywordIn candidate && !speakerKeywordIn candidate then
      (.session, false)
    else (.session, true)
  | none => (.session, true)

/-- firecrawl.ts `SpeakerAppearanceExtractedRow`. -/
structure SpeakerAppearanceExtractedRow where
  name : Str
  organization : Option Str
  title : Option Str
  profileUrl : Option Str
  role : Option Str
  sessionUrl : Str
deriving DecidableEq

/-- The `row.profileUrl?.trim().toLowerCase()` guard of
`speakerAppearanceKey`: `some` exactly when the result is truthy. -/
def profileKeyOf (row : SpeakerAppearanceExtractedRow) : Option Str :=
  match row.profileUrl with
  | none => none
  | some p => if lowerStr (trimStr p) = [] then none else some (lowerStr (trimStr p))

/-- route.ts `speakerAppearanceKey`: `profile::<trimmed lowercased url>` when
a truthy profile URL is present, else
`nameorg::<normalized name>::<normalized organization>`. -/
def speakerAppearanceKey (row : SpeakerAppearanceExtractedRow) : Str :=
  match profileKeyOf row with
  | some profile => "profile::".toList ++ profile
  | none =>
    "nameorg::".toList ++ normalizeIdentityToken (some row.name) ++ "::".toList
      ++ normalizeIdentityToken row.organization

/-! ## route.ts: the Structured-Content Scrape pass loop
(`runFirecrawlFallbackStrategy`) -/
def MAX_SPEAKER_PASSES : Nat := 8

def MAX_SPEAKER_PASS_FAILURES : Nat := 2

def SPEAKER_NO_GROWTH_STOP_PASSES : Nat := 2

def MIN_PASSES_BEFORE_PLATEAU_STOP : Nat := 4

structure SessionExtractedRow where
  title : Str
  url : Str
deriving DecidableEq

/-- The outcome of one `scrapeStructuredSessionPage` call, abstracted as an
oracle: `hasSignals` models `hasSpeakerSignals(debugArtifact)`. -/
structure PassResult where
  sessions : List SessionExtractedRow
  appearances : List SpeakerAppearanceExtractedRow
  hasSignals : Bool
deriving DecidableEq

/-- One audit artifact per executed pass: pass index and success flag. -/
structure StrategyRunOutput where
  sessions : List SessionExtractedRow
  appearances : List SpeakerAppearanceExtractedRow
  artifacts : List (Nat × Bool)
  stopReason : Str
deriving DecidableEq

structure SpeakerLoopState where
  uniqueAppearanceMap : JsMap Str SpeakerAppearanceExtractedRow
  sessionRowsByUrl : JsMap Str SessionExtractedRow
  artifacts : List (Nat × Bool)
  consecutiveNoGrowthPasses : Nat
  failedPasses : Nat
  shouldEnterSpeakerMode : Bool
deriving DecidableEq

/-- `if (!map.has(key)) map.set(key, value)` over a whole pass result. -/
def foldInsertIfAbsent {α : Type} (key : α → Str) (m : JsMap Str α)
    (l : List α) : JsMap Str α :=
  l.foldl (fun acc a => JsMap.insertIfAbsent acc (key a) a) m

def strategyOutputOfState (st : SpeakerLoopState) (stopReason : Str) :
    StrategyRunOutput :=
  { sessions := JsMap.values st.sessionRowsByUrl,
    appearances := JsMap.values st.uniqueAppearanceMap,
    artifacts := st.artifacts,
    stopReason := stopReason }

inductive SpeakerPassStepOut
  | cancelled
  | stop (out : StrategyRunOutput)
  | next (st : SpeakerLoopState)
deriving DecidableEq

/-- The body of one iteration of the speaker pass loop.  The scrape oracle
receives the pass index and the extraction mode used for the pass; a `none`
result models a thrown scrape error. -/
def speakerPassStep (scrape : Nat → FirecrawlExtractionMode → Option PassResult)
    (aborted : Nat → Bool) (passIndex : Nat) (st : SpeakerLoopState) :
    SpeakerPassStepOut :=
  if aborted passIndex then .cancelled
  else
    let passMode : FirecrawlExtractionMode :=
      if st.shouldEnterSpeakerMode ∨ passIndex > 1 then .speakerDirectory else .session
    match scrape passIndex passMode with
    | some res =>
      let artifacts' := st.artifacts ++ [(passIndex, true)]
      if ¬ st.shouldEnterSpeakerMode ∧ passMode = .session ∧
          res.appearances = [] ∧ res.hasSignals = true then
        .next { st with artifacts := artifacts', shouldEnterSpeakerMode := true }
      else
        let sesm := if st.shouldEnterSpeakerMode then true
          else decide (passMode = .speakerDirectory)
        let sessions' := foldInsertIfAbsent (fun r => r.url)
          st.sessionRowsByUrl res.sessions
        let beforeUniqueCount := st.uniqueAppearanceMap.length
        let uniq' := foldInsertIfAbsent speakerAppearanceKey
          st.uniqueAppearanceMap res.appearances
        let newSpeakersThisPass := uniq'.length - beforeUniqueCount
        let consecutive' := if newSpeakersThisPass = 0
          then st.consecutiveNoGrowthPasses + 1 else 0
        let st' : SpeakerLoopState :=
          { uniqueAppearanceMap := uniq', sessionRowsByUrl := sessions',
            artifacts := artifacts', consecutiveNoGrowthPasses := consecutive',
            failedPasses := st.failedPasses, shouldEnterSpeakerMode := sesm }
        if passIndex ≥ MIN_PASSES_BEFORE_PLATEAU_STOP ∧ uniq'.length > 0 ∧
            consecutive' ≥ SPEAKER_NO_GROWTH_STOP_PASSES then
          .stop (strategyOutputOfState st' "plateau_no_growth".toList)
        else .next st'
    | none =>
      let artifacts' := st.artifacts ++ [(passIndex, false)]
      let st' : SpeakerLoopState :=
        { st with failedPasses := st.failedPasses + 1, artifacts := artifacts' }
      if st.failedPasses + 1 ≥ MAX_SPEAKER_PASS_FAILURES then
        .stop (strategyOutputOfState st' "max_pass_failures".toList)
      else .next st'

/-- The speaker pass loop driver; `fuel` is the number of passes remaining
(the loop cap).  A `none` result models the cancellation throw. -/
def speakerPassLoopGo (scrape : Nat → FirecrawlExtractionMode → Option PassResult)
    (aborted : Nat → Bool) :
    Nat → Nat → SpeakerLoopState → Option StrategyRunOutput
  | 0, _, st => some (strategyOutputOfState st "max_passes_reached".toList)
  | fuel + 1, passIndex, st =>
    match speakerPassStep scrape aborted passIndex st with
    | .cancelled => none
    | .stop out => some out
    | .next st' => speakerPassLoopGo scrape aborted fuel (passIndex + 1) st'

def initialSpeakerLoopState (speakerLoopMode : FirecrawlExtractionMode) :
    SpeakerLoopState :=
  { uniqueAppearanceMap := [], sessionRowsByUrl := [], artifacts := [],
    consecutiveNoGrowthPasses := 0, failedPasses := 0,
    shouldEnterSpeakerMode := speakerLoopMode = .speakerDirectory }

/-- route.ts `runFirecrawlFallbackStrategy`, over a scrape oracle.  `none`
models a throw (cancellation, or a failed single session-mode pass). -/
def runFirecrawlFallbackStrategy (modeSelection : FirecrawlExtractionMode × Bool)
    (scrape : Nat → FirecrawlExtractionMode → Option PassResult)
    (aborted : Nat → Bool) : Option StrategyRunOutput :=
  if modeSelection.1 = .speakerDirectory ∨
      (modeSelection.2 = true ∧ modeSelection.1 = .session) then
    let speakerLoopMode : FirecrawlExtractionMode :=
      if modeSelection.1 = .speakerDirectory then .speakerDirectory else .session
    speakerPassLoopGo scrape aborted MAX_SPEAKER_PASSES 1
      (initialSpeakerLoopState speakerLoopMode)
  else
    match scrape 1 .session with
    | some res =>
      some { sessions := res.sessions, appearances := res.appearances,
             artifacts := [(1, true)], stopReason := "single_session_pass".toList }
    | none => none

/-! ## events-repository: job updates (`updateJobByIdInDb`) -/
inductive JobStatus
  | queued
  | crawling
  | extracting
  | saving
  | complete
  | failed
deriving DecidableEq

/-- `Partial<JobCounters>` in the update patch. -/
structure JobCountersPatch where
  totalUrlsMapped : Option Nat
  urlsDiscovered : Option Nat
  pagesProcessed : Option Nat
  sessionsFound : Option Nat
  speakerAppearancesFound : Option Nat
  uniqueSpeakersFound : Option Nat
deriving DecidableEq

/-- `JobUpdatePatch`; `error` distinguishes absent from explicit `null`. -/
structure JobUpdatePatch where
  status : Option JobStatus
  counters : Option JobCountersPatch
  logLines : Option (List Str)
  mappedUrls : Option (List Str)
  filteredUrls : Option (List Str)
  processedUrls : Option (List Str)
  error : Option (Option Str)
deriving DecidableEq

/-- The columns of one `jobs` row touched by `updateJobByIdInDb`. -/
structure DbJobRow where
  status : JobStatus
  totalUrlsMapped : Nat
  urlsDiscovered : Nat
  pagesProcessed : Nat
  sessionsFound : Nat
  speakerAppearancesFound : Nat
  uniqueSpeakersFound : Nat
  log : List Str
  mappedUrls : List Str
  filteredUrls : List Str
  processedUrls : List Str
  error : Option Str
deriving DecidableEq

/-- The `updatePayload` record: a column is `some` exactly when the
corresponding `if (... !== undefined)` added it. -/
structure JobUpdatePayload where
  status : Option JobStatus
  totalUrlsMapped : Option Nat
  urlsDiscovered : Option Nat
  pagesProcessed : Option Nat
  sessionsFound : Option Nat
  speakerAppearancesFound : Option Nat
  uniqueSpeakersFound : Option Nat
  log : Option (List Str)
  mappedUrls : Option (List Str)
  filteredUrls : Option (List Str)
  processedUrls : Option (List Str)
  error : Option (Option Str)
deriving DecidableEq

/-- `Array.prototype.slice(-20)`: the most recent 20 entries. -/
def sliceLast20 (ls : List Str) : List Str := ls.drop (ls.length - 20)

def buildJobUpdatePayload (patch : JobUpdatePatch) : JobUpdatePayload :=
  { status := patch.status,
    totalUrlsMapped := patch.counters.bind (fun c => c.totalUrlsMapped),
    urlsDiscovered := patch.counters.bind (fun c => c.urlsDiscovered),
    pagesProcessed := patch.counters.bind (fun c => c.pagesProcessed),
    sessionsFound := patch.counters.bind (fun c => c.sessionsFound),
    speakerAppearancesFound := patch.counters.bind (fun c => c.speakerAppearancesFound),
    uniqueSpeakersFound := patch.counters.bind (fun c => c.uniqueSpeakersFound),
    log := patch.logLines.map sliceLast20,
    mappedUrls := patch.mappedUrls,
    filteredUrls := patch.filteredUrls,
    processedUrls := patch.processedUrls,
    error := patch.error }

def emptyJobUpdatePayload : JobUpdatePayload :=
  ⟨none, none, none, none, none, none, none, none, none, none, none, none⟩

def applyJobUpdatePayload (p : JobUpdatePayload) (row : DbJobRow) : DbJobRow :=
  { status := p.status.getD row.status,
    totalUrlsMapped := p.totalUrlsMapped.getD row.totalUrlsMapped,
    urlsDiscovered := p.urlsDiscovered.getD row.urlsDiscovered,
    pagesProcessed := p.pagesProcessed.getD row.pagesProcessed,
    sessionsFound := p.sessionsFound.getD row.sessionsFound,
    speakerAppearancesFound := p.speakerAppearancesFound.getD row.speakerAppearancesFound,
    uniqueSpeakersFound := p.uniqueSpeakersFound.getD row.uniqueSpeakersFound,
    log := p.log.getD row.log,
    mappedUrls := p.mappedUrls.getD row.mappedUrls,
    filteredUrls := p.filteredUrls.getD row.filteredUrls,
    processedUrls := p.processedUrls.getD row.processedUrls,
    error := p.error.getD row.error }

/-- events-repository `updateJobByIdInDb` against one job row; the Bool
reports whether a database write was issued (`Object.keys(...).length === 0`
returns early without one). -/
def updateJobByIdInDb (patch : JobUpdatePatch) (row : DbJobRow) : DbJobRow × Bool :=
  let payload := buildJobUpdatePayload patch
  if payload = emptyJobUpdatePayload then (row, false)
  else (applyJobUpdatePayload payload row, true)

def emptyJobUpdatePatch : JobUpdatePatch :=
  ⟨none, none, none, none, none, none, none⟩

/-! ## events-repository: `persistExtractedConferenceDataInDb` -/
structure DbSessionRow where
  id : Nat
  eventId : Str
  title : Str
  url : Str
deriving DecidableEq

structure DbOrganizationRow where
  id : Nat
  name : Str
  normalizedName : Str
deriving DecidableEq

structure DbSpeakerRow where
  id : Nat
  eventId : Str
  canonicalName : Str
  normalizedName : Str
  organizationId : Option Nat
  title : Option Str
  profileUrl : Option Str
deriving DecidableEq

structure DbSessionSpeakerRow where
  sessionId : Nat
  speakerId : Nat
  role : Option Str
deriving DecidableEq

/-- The relational state `persistExtractedConferenceDataInDb` touches.
`nextId` models the id generator of the database. -/
structure Db where
  sessions : List DbSessionRow
  organizations : List DbOrganizationRow
  speakers : List DbSpeakerRow
  sessionSpeakers : List DbSessionSpeakerRow
  nextId : Nat
deriving DecidableEq

structure PersistResult where
  sessionsFound : Nat
  speakerAppearancesFound : Nat
  uniqueSpeakersFound : Nat
deriving DecidableEq

/-- events-repository `normalizeUrlValue`: trim, parse, strip fragment,
serialize; `undefined` on failure. -/
def normalizeUrlValue (v : Option Str) : Option Str :=
  match v with
  | none => none
  | some s =>
    match normalizeTextValue (some s) with
    | none => none
    | some t =>
      match parseUrl t with
      | some parsed => some (urlToString (clearHash parsed))
      | none => none

/-- The `sessions` upsert with `onConflict: "event_id,url"`: conflicting rows
have their title updated and keep their id, new rows get fresh ids; the
returned rows echo the input order. -/
def upsertSessionsGo (eventId : Str) :
    List SessionExtractedRow → Db → Db × List DbSessionRow
  | [], db => (db, [])
  | r :: rest, db =>
    match db.sessions.find? (fun s => decide (s.eventId = eventId ∧ s.url = r.url)) with
    | some found =>
      let db' := { db with sessions := db.sessions.map (fun s =>
        if s.eventId = eventId ∧ s.url = r.url then { s with title := r.title } else s) }
      let next := upsertSessionsGo eventId rest db'
      (next.1, { found with title := r.title } :: next.2)
    | none =>
      let newRow : DbSessionRow := ⟨db.nextId, eventId, r.title, r.url⟩
      let db' := { db with sessions := db.sessions ++ [newRow], nextId := db.nextId + 1 }
      let next := upsertSessionsGo eventId rest db'
      (next.1, newRow :: next.2)

/-- The `organizations` upsert with `onConflict: "normalized_name"`; input
rows are `(name, normalized_name)` pairs. -/
def upsertOrganizationsGo :
    List (Str × Str) → Db → Db × List DbOrganizationRow
  | [], db => (db, [])
  | r :: rest, db =>
    match db.organizations.find? (fun o => decide (o.normalizedName = r.2)) with
    | some found =>
      let db' := { db with organizations := db.organizations.map (fun o =>
        if o.normalizedName = r.2 then { o with name := r.1 } else o) }
      let next := upsertOrganizationsGo rest db'
      (next.1, { found with name := r.1 } :: next.2)
    | none =>
      let newRow : DbOrganizationRow := ⟨db.nextId, r.1, r.2⟩
      let db' := { db with
        organizations := db.organizations ++ [newRow],
        nextId := db.nextId + 1 }
      let next := upsertOrganizationsGo rest db'
      (next.1, newRow :: next.2)

/-- The `session_speakers` upsert with `onConflict: "session_id,speaker_id"`. -/
def upsertSessionSpeakersGo : List DbSessionSpeakerRow → Db → Db
  | [], db => db
  | r :: rest, db =>
    let db' :=
      if db.sessionSpeakers.any (fun l =>
          decide (l.sessionId = r.sessionId ∧ l.speakerId = r.speakerId)) then
        { db with sessionSpeakers := db.sessionSpeakers.map (fun l =>
          if l.sessionId = r.sessionId ∧ l.speakerId = r.speakerId
          then { l with role := r.role } else l) }
      else { db with sessionSpeakers := db.sessionSpeakers ++ [r] }
    upsertSessionSpeakersGo rest db'

/-- The joined `organizations(normalized_name)` column of a speaker select. -/
def joinOrgNormalizedName (orgs : List DbOrganizationRow) (sp : DbSpeakerRow) :
    Option Str :=
  match sp.organizationId with
  | none => none
  | some oid => (orgs.find? (fun o => decide (o.id = oid))).map (fun o => o.normalizedName)

/-- `byProfileUrl`: keyed by the stored `profile_url` when truthy. -/
def buildByProfileUrl (rows : List DbSpeakerRow) : JsMap Str DbSpeakerRow :=
  rows.foldl (fun m sp =>
    match sp.profileUrl with
    | some p => if p = [] then m else JsMap.set m p sp
    | none => m) []

/-- `byNameOrg`: keyed by `(normalized_name, joined org normalized_name ?? "")`.
The source concatenates these with `::` into one string; since normalized
identity tokens never contain a colon (`colon_not_mem_identityNorm`) the pair
key is in bijection with that string key. -/
def buildByNameOrg (orgs : List DbOrganizationRow) (rows : List DbSpeakerRow) :
    JsMap (Str × Str) DbSpeakerRow :=
  rows.foldl (fun m sp =>
    JsMap.set m (sp.normalizedName, (joinOrgNormalizedName orgs sp).getD []) sp) []

/-- The `profile::<url>` / `nameorg::<name>::<org>` lookup key, structured.
As for `buildByNameOrg`, equality of the structured keys coincides with
equality of the source's string keys. -/
inductive SpeakerIdentityKey
  | profile (url : Str)
  | nameorg (name org : Str)
deriving DecidableEq

structure PersistSpeakerState where
  db : Db
  speakerIdByIdentity : JsMap SpeakerIdentityKey Nat
  byProfileUrl : JsMap Str DbSpeakerRow
  byNameOrg : JsMap (Str × Str) DbSpeakerRow
  rowsForSessionLink : List DbSessionSpeakerRow
deriving DecidableEq

/-- The body of the `for (const appearance of speakerAppearances)` loop. -/
def persistAppearanceStep (eventId : Str) (sessionIdByUrl : JsMap Str Nat)
    (organizationsByNormalized : JsMap Str DbOrganizationRow)
    (st : PersistSpeakerState) (appearance : SpeakerAppearanceExtractedRow) :
    PersistSpeakerState :=
  match normalizeUrlValue (some appearance.sessionUrl) with
  | none => st
  | some normalizedSessionUrl =>
    match JsMap.get sessionIdByUrl normalizedSessionUrl with
    | none => st
    | some sessionId =>
      match normalizeTextValue (some appearance.name) with
      | none => st
      | some canonicalName =>
        if normalizeIdentityValue (some appearance.name) = [] then st
        else
          let normalizedName := normalizeIdentityValue (some appearance.name)
          let orgNormalized := normalizeIdentityValue appearance.organization
          let organizationId : Option Nat :=
            if orgNormalized ≠ [] ∧
                JsMap.contains organizationsByNormalized orgNormalized = true then
              (JsMap.get organizationsByNormalized orgNormalized).map (fun o => o.id)
            else none
          let normalizedProfileUrl := normalizeUrlValue appearance.profileUrl
          let lookupKey : SpeakerIdentityKey :=
            match normalizedProfileUrl with
            | some p => .profile p
            | none => .nameorg normalizedName orgNormalized
          let linkRole := normalizeTextValue appearance.role
          match JsMap.get st.speakerIdByIdentity lookupKey with
          | some speakerId =>
            { st with rowsForSessionLink :=
                st.rowsForSessionLink ++ [⟨sessionId, speakerId, linkRole⟩] }
          | none =>
            let matchedExisting : Option DbSpeakerRow :=
              match normalizedProfileUrl with
              | some p => JsMap.get st.byProfileUrl p
              | none => JsMap.get st.byNameOrg (normalizedName, orgNormalized)
            match matchedExisting with
            | some speaker =>
              { st with
                speakerIdByIdentity :=
                  JsMap.set st.speakerIdByIdentity lookupKey speaker.id,
                rowsForSessionLink :=
                  st.rowsForSessionLink ++ [⟨sessionId, speaker.id, linkRole⟩] }
            | none =>
              let newSpeaker : DbSpeakerRow :=
                { id := st.db.nextId, eventId := eventId,
                  canonicalName := canonicalName, normalizedName := normalizedName,
                  organizationId := organizationId,
                  title := normalizeTextValue appearance.title,
                  profileUrl := normalizedProfileUrl }
              let byPro' := match newSpeaker.profileUrl with
                | some p =>
                  if p = [] then st.byProfileUrl else JsMap.set st.byProfileUrl p newSpeaker
                | none => st.byProfileUrl
              { db := { st.db with
                  speakers := st.db.speakers ++ [newSpeaker],
                  nextId := st.db.nextId + 1 },
                speakerIdByIdentity :=
                  JsMap.set st.speakerIdByIdentity lookupKey newSpeaker.id,
                byProfileUrl := byPro',
                byNameOrg := JsMap.set st.byNameOrg
                  (newSpeaker.normalizedName, orgNormalized) newSpeaker,
                rowsForSessionLink :=
                  st.rowsForSessionLink ++ [⟨sessionId, newSpeaker.id, linkRole⟩] }

/-- `normalizedSessionsMap`: first-wins dedup by normalized URL. -/
def normalizedSessionsOf (sessions : List SessionExtractedRow) :
    List SessionExtractedRow :=
  JsMap.values (sessions.foldl (fun m session =>
    match normalizeUrlValue (some session.url), normalizeTextValue (some session.title) with
    | some nu, some nt =>
      if JsMap.contains m nu then m else JsMap.set m nu ⟨nt, nu⟩
    | _, _ => m) [])

/-- `normalizedOrgByName`: first raw spelling per normalized organization. -/
def normalizedOrgPairsOf (apps : List SpeakerAppearanceExtractedRow) : JsMap Str Str :=
  apps.foldl (fun m appearance =>
    match normalizeTextValue appearance.organization with
    | some rawOrg =>
      if normalizeIdentityValue appearance.organization ≠ [] ∧
          ¬ JsMap.contains m (normalizeIdentityValue appearance.organization) = true then
        JsMap.set m (normalizeIdentityValue appearance.organization) rawOrg
      else m
    | none => m) []

/-- `uniqueLinks`: first-wins dedup of link rows by `(sessionId, speakerId)`;
the source keys the map by the string `<sessionId>::<speakerId>`, which is in
bijection with the id pair. -/
def buildUniqueLinks (rows : List DbSessionSpeakerRow) :
    JsMap (Nat × Nat) DbSessionSpeakerRow :=
  rows.foldl (fun m row =>
    if JsMap.contains m (row.sessionId, row.speakerId) then m
    else JsMap.set m (row.sessionId, row.speakerId) row) []

/-- Stage 1: the session upsert and the `sessionIdByUrl` map. -/
def persistStage1 (eventId : Str) (sessions : List SessionExtractedRow) (db0 : Db) :
    Db × List DbSessionRow :=
  let normalizedSessions := normalizedSessionsOf sessions
  if normalizedSessions.length > 0 then upsertSessionsGo eventId normalizedSessions db0
  else (db0, [])

def sessionIdByUrlOf (rows : List DbSessionRow) : JsMap Str Nat :=
  rows.foldl (fun m row => JsMap.set m row.url row.id) []

/-- Stage 2: organization resolution; returns the updated state and
`organizationsByNormalized`. -/
def persistStage2 (apps : List SpeakerAppearanceExtractedRow) (db1 : Db) :
    Db × JsMap Str DbOrganizationRow :=
  let normalizedOrgByName := normalizedOrgPairsOf apps
  let orgKeys := normalizedOrgByName.map Prod.fst
  let existingOrgs := db1.organizations.filter (fun o => decide (o.normalizedName ∈ orgKeys))
  let organizationsByNormalized0 : JsMap Str DbOrganizationRow :=
    existingOrgs.foldl (fun m o => JsMap.set m o.normalizedName o) []
  let missingOrgRows := (orgKeys.filter (fun k =>
      ¬ JsMap.contains organizationsByNormalized0 k = true)).map (fun k =>
    ((JsMap.get normalizedOrgByName k).getD k, k))
  let upserted := if missingOrgRows.length > 0 then upsertOrganizationsGo missingOrgRows db1
    else (db1, [])
  (upserted.1,
   upserted.2.foldl (fun m o => JsMap.set m o.normalizedName o) organizationsByNormalized0)

/-- Stage 3: the speaker resolution loop over all appearances. -/
def persistStage3 (eventId : Str) (sessionIdByUrl : JsMap Str Nat)
    (organizationsByNormalized : JsMap Str DbOrganizationRow)
    (apps : List SpeakerAppearanceExtractedRow) (db2 : Db) : PersistSpeakerState :=
  let existingSpeakers := db2.speakers.filter (fun sp => decide (sp.eventId = eventId))
  apps.foldl (persistAppearanceStep eventId sessionIdByUrl organizationsByNormalized)
    { db := db2, speakerIdByIdentity := [],
      byProfileUrl := buildByProfileUrl existingSpeakers,
      byNameOrg := buildByNameOrg db2.organizations existingSpeakers,
      rowsForSessionLink := [] }

/-- events-repository `persistExtractedConferenceDataInDb` as a state
transformer over the modelled database. -/
def persistExtractedConferenceDataInDb (db0 : Db) (eventId : Str)
    (sessions : List SessionExtractedRow)
    (speakerAppearances : List SpeakerAppearanceExtractedRow) : Db × PersistResult :=
  let stage1 := persistStage1 eventId sessions db0
  let sessionIdByUrl := sessionIdByUrlOf stage1.2
  let stage2 := persistStage2 speakerAppearances stage1.1
  let finalState := persistStage3 eventId sessionIdByUrl stage2.2 speakerAppearances stage2.1
  let uniqueLinks := buildUniqueLinks finalState.rowsForSessionLink
  let db3 := if uniqueLinks.length > 0 then
      upsertSessionSpeakersGo (JsMap.values uniqueLinks) finalState.db
    else finalState.db
  (db3,
   { sessionsFound := (normalizedSessionsOf sessions).length,
     speakerAppearancesFound := finalState.rowsForSessionLink.length,
     uniqueSpeakersFound :=
       (db3.speakers.filter (fun sp => decide (sp.eventId = eventId))).length })

/-! ## route.ts `POST`: the sequential candidate-page loop with cooperative
cancellation.

Page processing is abstracted by two oracles: `aborted i` is the state of
`request.signal.aborted` at the check before page `i`, and `ok i` tells
whether some strategy produced a non-empty result for page `i` (a page whose
strategies all fail is recorded as a scrape error and skipped, not added to
`processedUrls`). -/
structure PageLoopResult where
  processedUrls : List Str
  attemptedUrls : List Str
  cancelled : Bool
deriving DecidableEq

def processCandidatePagesGo (aborted ok : Nat → Bool) :
    List Str → Nat → List Str → List Str → PageLoopResult
  | [], _, processed, attempted => ⟨processed, attempted, false⟩
  | url :: rest, i, processed, attempted =>
    if aborted i then ⟨processed, attempted, true⟩
    else
      processCandidatePagesGo aborted ok rest (i + 1)
        (if ok i then processed ++ [url] else processed) (attempted ++ [url])

def processCandidatePages (urls : List Str) (aborted ok : Nat → Bool) :
    PageLoopResult :=
  processCandidatePagesGo aborted ok urls 0 [] []

/-- The top-level handler: the cancellation throw is caught by `POST`'s
`catch`, which updates the job to `failed`; otherwise the run finishes
`complete`. -/
def jobStatusAfterRun (r : PageLoopResult) : JobStatus :=
  if r.cancelled then .failed else .complete

/-- Rendering of the spec's words "equal after fragment-stripping": drop
everything from the first `#` of the raw URL string.  Used only to compare
the claimed identity-key law with the implemented one. -/
def specStripFragment (s : Str) : Str := (breakAt (fun c => c == '#') s).1

/-- Matches a link row against a `(sessionId, speakerId)` pair. -/
def linkKeyMatch (s p : Nat) (l : DbSessionSpeakerRow) : Bool :=
  decide (l.sessionId = s ∧ l.speakerId = p)

/-- The appearance identity keys yielded by one oracle response. -/
def passAppearanceKeys (r : Option PassResult) : List Str :=
  match r with
  | some res => res.appearances.map speakerAppearanceKey
  | none => []

/-- A concrete scrape oracle: one fixed speaker on every pass except pass 3,
which adds a second one. -/
def plateauScrapeOracle (p : Nat) (_ : FirecrawlExtractionMode) :
    Option PassResult :=
  if p = 3 then
    some ⟨[], [⟨"Carol Chen".toList, none, none, none, none,
      "https://conf.example/sessions/x".toList⟩], true⟩
  else
    some ⟨[], [⟨"Alice Smith".toList, none, none, none, none,
      "https://conf.example/sessions/x".toList⟩], true⟩

/-- The joined normalized organization name reachable from an id. -/
def FindNN (l : List DbOrganizationRow) (oid : Nat) : Option Str :=
  (l.find? (fun x => decide (x.id = oid))).map (fun x => x.normalizedName)

/-- The organization-table wellformedness `persistExtractedConferenceDataInDb`
preserves: distinct ids, all below the id generator. -/
def WfOrgs (db : Db) : Prop :=
  (db.organizations.map (fun o => o.id)).Nodup ∧
  ∀ o ∈ db.organizations, o.id < db.nextId

/-- The speaker identity key the appearance loop computes for one row. -/
def lookupKeyOf (a : SpeakerAppearanceExtractedRow) : SpeakerIdentityKey :=
  match normalizeUrlValue a.profileUrl with
  | some p => .profile p
  | none => .nameorg (normalizeIdentityValue (some a.name))
      (normalizeIdentityValue a.organization)

/-- A speaker row of `speakers` that a later run finds again under `key`. -/
def keyWitness (e : Str) (orgsF : List DbOrganizationRow)
    (speakers : List DbSpeakerRow) : SpeakerIdentityKey → Prop
  | .profile p => ∃ sp ∈ speakers, sp.eventId = e ∧ sp.profileUrl = some p ∧ p ≠ []
  | .nameorg nm og => ∃ sp ∈ speakers, sp.eventId = e ∧ sp.normalizedName = nm ∧
      (joinOrgNormalizedName orgsF sp).getD [] = og

/-- The guards of the appearance loop body all pass. -/
def appearanceEligible (m : JsMap Str Nat)
    (a : SpeakerAppearanceExtractedRow) : Prop :=
  ∃ nsu sid cn, normalizeUrlValue (some a.sessionUrl) = some nsu ∧
    JsMap.get m nsu = some sid ∧
    normalizeTextValue (some a.name) = some cn ∧
    normalizeIdentityValue (some a.name) ≠ []

/-- The loop-state invariant of the appearance fold: every cached speaker of
the three lookup maps is a stored row of this event whose key the map entry
reproduces (organization joins read against the fixed later list `orgsF`). -/
structure StepInv (e : Str) (orgsF : List DbOrganizationRow)
    (st : PersistSpeakerState) : Prop where
  pro : ∀ p sp, JsMap.get st.byProfileUrl p = some sp →
    sp ∈ st.db.speakers ∧ sp.eventId = e ∧ sp.profileUrl = some p ∧ p ≠ []
  nameorg : ∀ nm og sp, JsMap.get st.byNameOrg (nm, og) = some sp →
    sp ∈ st.db.speakers ∧ sp.eventId = e ∧ sp.normalizedName = nm ∧
      (joinOrgNormalizedName orgsF sp).getD [] = og
  idmap : ∀ key i, JsMap.get st.speakerIdByIdentity key = some i →
    keyWitness e orgsF st.db.speakers key

theorem toLowerChar_cases (c : Char) :
    toLowerChar c = c ∨ (c, toLowerChar c) ∈ upperLowerPairs := by
  unfold toLowerChar
  split <;> first | (left; rfl) | (right; decide)

theorem toLowerChar_idem (c : Char) : toLowerChar (toLowerChar c) = toLowerChar c := by
  rcases toLowerChar_cases c with h | h
  · rw [h]; exact h
  · exact (by decide : ∀ p ∈ upperLowerPairs, toLowerChar p.2 = p.2) _ h

theorem toLowerChar_isAlpha (c : Char) : (toLowerChar c).isAlpha = c.isAlpha := by
  rcases toLowerChar_cases c with h | h
  · rw [h]
  · exact (by decide : ∀ p ∈ upperLowerPairs, (p.2).isAlpha = (p.1).isAlpha) _ h

theorem lowerStr_idem (s : Str) : lowerStr (lowerStr s) = lowerStr s := by
  unfold lowerStr
  rw [List.map_map]
  exact List.map_congr_left fun c _ => toLowerChar_idem c

theorem lowerStr_ne_nil (s : Str) (h : s ≠ []) : lowerStr s ≠ [] := by
  unfold lowerStr
  simp [h]

theorem lowerStr_all_isAlpha (s : Str) :
    (lowerStr s).all Char.isAlpha = s.all Char.isAlpha := by
  induction s with
  | nil => rfl
  | cons c cs ih =>
    simp only [lowerStr, List.map_cons, List.all_cons] at *
    rw [toLowerChar_isAlpha, ih]

theorem breakAt_nil (p : Char → Bool) : breakAt p [] = ([], []) := rfl

theorem breakAt_cons (p : Char → Bool) (c : Char) (cs : Str) :
    breakAt p (c :: cs) =
      if p c then ([], c :: cs) else ((c :: (breakAt p cs).1), (breakAt p cs).2) := by
  simp [breakAt]

/-- `breakAt` recombines to the input. -/
theorem breakAt_append_eq (p : Char → Bool) (s : Str) :
    (breakAt p s).1 ++ (breakAt p s).2 = s := by
  induction s with
  | nil => rfl
  | cons c cs ih =>
    rw [breakAt_cons]
    by_cases h : p c <;> simp [h, ih]

/-- Characters in the prefix returned by `breakAt` refute the predicate. -/
theorem breakAt_fst_not (p : Char → Bool) (s : Str) :
    ∀ c ∈ (breakAt p s).1, ¬ p c := by
  induction s with
  | nil => simp [breakAt]
  | cons c cs ih =>
    rw [breakAt_cons]
    by_cases h : p c
    · simp [h]
    · simp only [h, if_neg, Bool.false_eq_true, not_false_eq_true, ite_false]
      intro d hd
      rcases List.mem_cons.mp hd with h' | h'
      · rw [h']; simp [h]
      · exact ih d h'

/-- `breakAt` over a clean prefix followed by a separator. -/
theorem breakAt_of_clean_prefix (p : Char → Bool) (l r : Str)
    (hl : ∀ c ∈ l, ¬ p c) (hr : r = [] ∨ ∃ c cs, r = c :: cs ∧ p c) :
    breakAt p (l ++ r) = (l, r) := by
  induction l with
  | nil =>
    simp only [List.nil_append]
    rcases hr with h | ⟨c, cs, rfl, hc⟩
    · simp [h, breakAt]
    · rw [breakAt_cons]
      simp [hc]
  | cons c cs ih =>
    have hc : ¬ p c := hl c (by simp)
    rw [List.cons_append, breakAt_cons]
    have := ih (fun d hd => hl d (by simp [hd]))
    simp [hc, this]

/-- Membership passes through `collapseGo` up to inserted single spaces. -/
theorem mem_collapseGo (c : Char) (b : Bool) (s : Str)
    (h : c ∈ collapseGo b s) : c ∈ s ∨ c = ' ' := by
  induction s generalizing b with
  | nil => simp [collapseGo] at h
  | cons d ds ih =>
    simp only [collapseGo] at h
    by_cases hd : isSpaceChar d
    · simp only [hd, if_pos] at h
      by_cases hb : b
      · simp only [hb, if_pos] at h
        rcases ih true h with h' | h'
        · exact Or.inl (by simp [h'])
        · exact Or.inr h'
      · simp only [hb, if_neg] at h
        rcases List.mem_cons.mp h with h' | h'
        · exact Or.inr h'
        · rcases ih true h' with h'' | h''
          · exact Or.inl (by simp [h''])
          · exact Or.inr h''
    · simp only [hd, if_neg] at h
      rcases List.mem_cons.mp h with h' | h'
      · exact Or.inl (by simp [h'])
      · rcases ih false h' with h'' | h''
        · exact Or.inl (by simp [h''])
        · exact Or.inr h''

theorem mem_trimStr (c : Char) (s : Str) (h : c ∈ trimStr s) : c ∈ s := by
  unfold trimStr at h
  rw [List.mem_reverse] at h
  have h1 := (List.dropWhile_sublist (l := (s.dropWhile isSpaceChar).reverse)
    (p := isSpaceChar)).mem h
  rw [List.mem_reverse] at h1
  exact (List.dropWhile_sublist (l := s) (p := isSpaceChar)).mem h1

theorem mem_stripNonWord (c : Char) (s : Str) (h : c ∈ stripNonWord s) :
    (isWordChar c || isSpaceChar c) = true ∨ c = ' ' := by
  unfold stripNonWord at h
  rcases List.mem_map.mp h with ⟨d, _, hd⟩
  by_cases hw : (isWordChar d || isSpaceChar d) = true
  · left; rw [← hd]; simp [hw]
  · right; rw [← hd]; simp [hw]

theorem trimStr_nil : trimStr ([] : Str) = [] := rfl

theorem dropWhile_dropWhile (p : Char → Bool) (l : Str) :
    (l.dropWhile p).dropWhile p = l.dropWhile p := by
  induction l with
  | nil => rfl
  | cons c cs ih =>
    by_cases h : p c
    · simp [List.dropWhile_cons, h, ih]
    · simp [List.dropWhile_cons, h]

theorem trimStr_eq_rdrop (s : Str) :
    trimStr s = List.rdropWhile isSpaceChar (s.dropWhile isSpaceChar) := rfl

theorem dropWhile_prefix_self (p : Char → Bool) (m t : Str)
    (hm : m.dropWhile p = m) (ht : t <+: m) : t.dropWhile p = t := by
  rcases ht with ⟨r, hr⟩
  cases t with
  | nil => rfl
  | cons c t' =>
    have hc : ¬ p c := by
      intro hpc
      rw [← hr, List.cons_append, List.dropWhile_cons_of_pos hpc] at hm
      have hlen := congrArg List.length hm
      have hle := (List.dropWhile_sublist (l := t' ++ r) (p := p)).length_le
      rw [List.length_cons] at hlen
      omega
    simp [List.dropWhile_cons, hc]

theorem trimStr_idem (s : Str) : trimStr (trimStr s) = trimStr s := by
  rw [trimStr_eq_rdrop, trimStr_eq_rdrop]
  have h1 : (s.dropWhile isSpaceChar).dropWhile isSpaceChar
      = s.dropWhile isSpaceChar := List.dropWhile_idempotent _ _
  have h2 : (List.rdropWhile isSpaceChar (s.dropWhile isSpaceChar)).dropWhile isSpaceChar
      = List.rdropWhile isSpaceChar (s.dropWhile isSpaceChar) :=
    dropWhile_prefix_self _ _ _ h1 (List.rdropWhile_prefix _ _)
  rw [h2, List.rdropWhile_idempotent]

theorem identityNorm_nil : identityNorm [] = [] := rfl

theorem identityNorm_trimStr (s : Str) : identityNorm (trimStr s) = identityNorm s := by
  unfold identityNorm
  rw [trimStr_idem]

/-- `normalizeIdentityValue` and `normalizeIdentityToken` agree: the pipeline
begins with a trim, so pre-trimming (and mapping whitespace-only input to
`undefined`) is invisible. -/
theorem normalizeIdentityValue_eq_token (v : Option Str) :
    normalizeIdentityValue v = normalizeIdentityToken v := by
  cases v with
  | none => rfl
  | some s =>
    unfold normalizeIdentityValue normalizeIdentityToken normalizeTextValue
    by_cases h : trimStr s = []
    · simp only [h]
      show identityNorm [] = identityNorm s
      rw [← identityNorm_trimStr s, h]
    · simp only [h]
      show identityNorm (trimStr s) = identityNorm s
      exact identityNorm_trimStr s

/-- Every character of a normalized identity token is a word character or a
plain space; in particular no colon survives, which makes the
`nameorg::<name>::<org>` encoding unambiguous. -/
theorem colon_not_mem_identityNorm (s : Str) : ':' ∉ identityNorm s := by
  intro h
  have h1 := mem_trimStr _ _ h
  rcases mem_collapseGo _ _ _ h1 with h2 | h2
  · rcases mem_stripNonWord _ _ h2 with h3 | h3
    · simp [isWordChar, isSpaceChar, Char.isAlpha, Char.isDigit, Char.isUpper,
        Char.isLower] at h3
    · exact absurd h3 (by decide)
  · exact absurd h2 (by decide)

namespace JsMap

variable {κ ν : Type} [DecidableEq κ]

theorem get_nil (key : κ) : get ([] : JsMap κ ν) key = none := rfl

theorem get_cons (k : κ) (v : ν) (rest : JsMap κ ν) (key : κ) :
    get ((k, v) :: rest) key = if k = key then some v else get rest key := rfl

theorem mem_of_get (m : JsMap κ ν) (key : κ) (v : ν)
    (h : get m key = some v) : (key, v) ∈ m := by
  induction m with
  | nil => simp [get] at h
  | cons kv rest ih =>
    obtain ⟨k, w⟩ := kv
    rw [get_cons] at h
    by_cases hk : k = key
    · simp only [hk, if_pos] at h
      simp [hk, ← Option.some_inj.mp h]
    · simp only [hk, if_neg] at h
      exact List.mem_cons_of_mem _ (ih h)

theorem contains_iff_get (m : JsMap κ ν) (key : κ) :
    contains m key = true ↔ ∃ v, get m key = some v := by
  unfold contains
  cases h : get m key <;> simp [h]

theorem get_set_self (m : JsMap κ ν) (key : κ) (val : ν) :
    get (set m key val) key = some val := by
  induction m with
  | nil => simp [set, get]
  | cons kv rest ih =>
    obtain ⟨k, w⟩ := kv
    by_cases hk : k = key <;> simp [set, hk, get_cons, ih]

theorem get_set_ne (m : JsMap κ ν) (key key' : κ) (val : ν) (h : key ≠ key') :
    get (set m key val) key' = get m key' := by
  induction m with
  | nil => simp [set, get, h]
  | cons kv rest ih =>
    obtain ⟨k, w⟩ := kv
    by_cases hk : k = key
    · subst hk
      simp [set, get_cons, h]
    · simp [set, hk, get_cons, ih]

theorem contains_set (m : JsMap κ ν) (key key' : κ) (val : ν) :
    contains (set m key val) key' = true ↔ key' = key ∨ contains m key' = true := by
  by_cases h : key = key'
  · subst h
    simp [contains, get_set_self]
  · rw [contains, get_set_ne m key key' val h, ← contains]
    constructor
    · exact Or.inr
    · exact fun hkk => hkk.elim (fun he => absurd he.symm h) id

theorem contains_insertIfAbsent (m : JsMap κ ν) (key key' : κ) (val : ν) :
    contains (insertIfAbsent m key val) key' = true ↔
      key' = key ∨ contains m key' = true := by
  unfold insertIfAbsent
  by_cases h : contains m key = true
  · simp only [h, if_pos, iff_or_self]
    intro he
    rw [he]; exact h
  · simp [h, contains_set]

theorem insertIfAbsent_of_contains (m : JsMap κ ν) (key : κ) (val : ν)
    (h : contains m key = true) : insertIfAbsent m key val = m := by
  simp [insertIfAbsent, h]

theorem length_set_of_not_contains (m : JsMap κ ν) (key : κ) (val : ν)
    (h : ¬ contains m key = true) : (set m key val).length = m.length + 1 := by
  induction m with
  | nil => simp [set]
  | cons kv rest ih =>
    obtain ⟨k, w⟩ := kv
    by_cases hk : k = key
    · exfalso
      apply h
      simp [contains, get_cons, hk]
    · have hrest : ¬ contains rest key = true := by
        intro hr
        apply h
        simp only [contains, get_cons, hk, if_neg, ite_false]
        exact hr
      simp [set, hk, ih hrest]

theorem length_insertIfAbsent (m : JsMap κ ν) (key : κ) (val : ν) :
    (insertIfAbsent m key val).length =
      if contains m key then m.length else m.length + 1 := by
  unfold insertIfAbsent
  by_cases h : contains m key = true
  · simp [h]
  · simp only [h, if_neg, Bool.false_eq_true, not_false_eq_true, ite_false]
    rw [length_set_of_not_contains m key val h]

theorem length_le_insertIfAbsent (m : JsMap κ ν) (key : κ) (val : ν) :
    m.length ≤ (insertIfAbsent m key val).length := by
  rw [length_insertIfAbsent]
  by_cases h : contains m key = true <;> simp [h]

end JsMap

theorem breakAt_snd_shape (p : Char → Bool) (s : Str) :
    (breakAt p s).2 = [] ∨ ∃ c cs, (breakAt p s).2 = c :: cs ∧ p c = true := by
  induction s with
  | nil => left; rfl
  | cons c cs ih =>
    rw [breakAt_cons]
    by_cases h : p c
    · right; exact ⟨c, cs, by simp [h], h⟩
    · simpa [h] using ih

theorem breakAt_all_clean (p : Char → Bool) (s : Str) (h : ∀ c ∈ s, ¬ p c = true) :
    breakAt p s = (s, []) := by
  have := breakAt_of_clean_prefix p s [] h (Or.inl rfl)
  simpa using this

theorem mem_lowerStr (c : Char) (s : Str) (h : c ∈ lowerStr s) :
    ∃ d ∈ s, c = toLowerChar d := by
  rcases List.mem_map.mp h with ⟨d, hd, hcd⟩
  exact ⟨d, hd, hcd.symm⟩

theorem toLowerChar_host_ok (c : Char)
    (h : isHostDelimChar c = false ∧ isHostBanChar c = false) :
    isHostDelimChar (toLowerChar c) = false ∧ isHostBanChar (toLowerChar c) = false := by
  rcases toLowerChar_cases c with hc | hc
  · rw [hc]; exact h
  · exact (by decide :
      ∀ p ∈ upperLowerPairs,
        isHostDelimChar p.2 = false ∧ isHostBanChar p.2 = false) _ hc

/-- The path produced by `parsePQH` starts with a slash and is free of path
delimiters. -/
theorem parsePQH_path_spec (tail : Str)
    (h : tail = [] ∨ ∃ c cs, tail = c :: cs ∧ isHostDelimChar c = true) :
    (∃ t, (parsePQH tail).1 = '/' :: t) ∧
      (∀ c ∈ (parsePQH tail).1, isPathDelimChar c = false) := by
  unfold parsePQH
  by_cases hp : (breakAt isPathDelimChar tail).1 = []
  · simp only [hp, if_pos]
    exact ⟨⟨[], rfl⟩, by decide⟩
  · simp only [hp, ite_false, if_neg]
    refine ⟨?_, fun c hc => by
      have := breakAt_fst_not isPathDelimChar tail c hc
      simpa using this⟩
    rcases h with rfl | ⟨c, cs, rfl, hc⟩
    · exact absurd rfl hp
    · rw [breakAt_cons] at hp ⊢
      by_cases hpc : isPathDelimChar c
      · simp [hpc] at hp
      · have hslash : c = '/' := by
          simp only [isHostDelimChar, Bool.or_eq_true, beq_iff_eq] at hc
          simp only [isPathDelimChar, Bool.or_eq_true, beq_iff_eq, not_or] at hpc
          rcases hc with (h1 | h1) | h1
          · exact h1
          · exact absurd h1 hpc.1
          · exact absurd h1 hpc.2
        subst hslash
        simp [hpc]

theorem parseQH_query_spec (s : Str) :
    ∀ q, (parseQH s).1 = some q → ∀ c ∈ q, (c == '#') = false := by
  intro q hq c hc
  cases s with
  | nil => simp [parseQH] at hq
  | cons d rest =>
    unfold parseQH at hq
    by_cases hd : d = '?'
    · simp only [hd, if_pos] at hq
      rcases h3 : (breakAt (fun c => c == '#') rest).2 with _ | ⟨f, fs⟩ <;>
        rw [h3] at hq <;>
        simp only [Option.some_inj] at hq <;>
        rw [← hq] at hc <;>
        · have := breakAt_fst_not (fun c => c == '#') rest c hc
          simpa using this
    · by_cases hd2 : d = '#' <;> simp [hd, hd2] at hq

theorem parsePQH_query_spec (tail : Str) :
    ∀ q, (parsePQH tail).2.1 = some q → ∀ c ∈ q, (c == '#') = false := by
  intro q hq
  exact parseQH_query_spec _ q hq

theorem parsePQH_roundtrip (path : Str) (q h : Option Str)
    (hpath : ∃ t, path = '/' :: t)
    (hclean : ∀ c ∈ path, isPathDelimChar c = false)
    (hq : ∀ qs, q = some qs → ∀ c ∈ qs, (c == '#') = false) :
    parsePQH (path ++ serQuery q ++ serHash h) = (path, q, h) := by
  obtain ⟨t, rfl⟩ := hpath
  have hne : ('/' :: t : Str) ≠ [] := by simp
  have hclean' : ∀ c ∈ ('/' :: t : Str), ¬ isPathDelimChar c = true := by
    intro c hc
    rw [hclean c hc]
    simp
  cases q with
  | some qs =>
    have hqs := hq qs rfl
    have hqs' : ∀ c ∈ qs, ¬ (fun c => c == '#') c = true := by
      intro c hc
      show ¬ (c == '#') = true
      simp [hqs c hc]
    cases h with
    | some hs =>
      have harr : ('/' :: t) ++ serQuery (some qs) ++ serHash (some hs)
          = ('/' :: t) ++ ('?' :: (qs ++ '#' :: hs)) := by
        simp [serQuery, serHash]
      have hb1 := breakAt_of_clean_prefix isPathDelimChar ('/' :: t)
        ('?' :: (qs ++ '#' :: hs)) hclean' (Or.inr ⟨'?', _, rfl, by decide⟩)
      have hb2 := breakAt_of_clean_prefix (fun c => c == '#') qs ('#' :: hs)
        hqs' (Or.inr ⟨'#', _, rfl, by decide⟩)
      simp only [List.cons_append, List.append_nil] at hb1 hb2
      rw [harr]
      simp [parsePQH, parseQH, hb1, hb2, hne]
    | none =>
      have harr : ('/' :: t) ++ serQuery (some qs) ++ serHash none
          = ('/' :: t) ++ ('?' :: (qs ++ [])) := by
        simp [serQuery, serHash]
      have hb1 := breakAt_of_clean_prefix isPathDelimChar ('/' :: t)
        ('?' :: (qs ++ [])) hclean' (Or.inr ⟨'?', _, rfl, by decide⟩)
      have hb2 := breakAt_of_clean_prefix (fun c => c == '#') qs [] hqs' (Or.inl rfl)
      simp only [List.cons_append, List.append_nil] at hb1 hb2
      rw [harr]
      simp [parsePQH, parseQH, hb1, hb2, hne]
  | none =>
    cases h with
    | some hs =>
      have harr : ('/' :: t) ++ serQuery none ++ serHash (some hs)
          = ('/' :: t) ++ ('#' :: hs) := by
        simp [serQuery, serHash]
      have hb1 := breakAt_of_clean_prefix isPathDelimChar ('/' :: t)
        ('#' :: hs) hclean' (Or.inr ⟨'#', _, rfl, by decide⟩)
      simp only [List.cons_append, List.append_nil] at hb1
      rw [harr]
      simp [parsePQH, parseQH, hb1, hne]
    | none =>
      have harr : ('/' :: t) ++ serQuery none ++ serHash none = ('/' :: t) ++ [] := by
        simp [serQuery, serHash]
      have hb1 := breakAt_of_clean_prefix isPathDelimChar ('/' :: t) [] hclean' (Or.inl rfl)
      simp only [List.append_nil] at hb1
      rw [harr]
      simp [parsePQH, parseQH, hb1, hne]

theorem parseUrl_wf (s : Str) (u : Url) (h : parseUrl s = some u) : WfUrl u := by
  unfold parseUrl at h
  split at h
  · rename_i afterScheme heq
    split_ifs at h with h1 h2 h3 h4
    rw [Option.some_inj] at h
    subst h
    have h2' : (breakAt (fun c => c == ':') s).1.all Char.isAlpha = true := by
      cases hb : (breakAt (fun c => c == ':') s).1.all Char.isAlpha
      · exact absurd hb h2
      · rfl
    refine ⟨?_, ?_, ?_, ?_, ?_, ?_, ?_, ?_, ?_⟩
    · exact lowerStr_ne_nil _ h1
    · rw [lowerStr_all_isAlpha]
      exact h2'
    · exact lowerStr_idem _
    · exact lowerStr_ne_nil _ h3
    · intro c hc
      rcases mem_lowerStr c _ hc with ⟨d, hd, rfl⟩
      refine toLowerChar_host_ok d ⟨?_, ?_⟩
      · have := breakAt_fst_not isHostDelimChar afterScheme d hd
        simpa using this
      · have h4' := h4
        rw [List.any_eq_true] at h4'
        push_neg at h4'
        cases hb : isHostBanChar d
        · rfl
        · exact absurd hb (h4' d hd)
    · exact lowerStr_idem _
    · exact (parsePQH_path_spec _ (breakAt_snd_shape _ _)).1
    · exact (parsePQH_path_spec _ (breakAt_snd_shape _ _)).2
    · exact parsePQH_query_spec _
  · exact absurd h (by simp)

theorem parseUrl_roundtrip (u : Url) (hu : WfUrl u) :
    parseUrl (urlToString u) = some u := by
  obtain ⟨t, hpath⟩ := hu.path_head
  have hscheme_clean : ∀ c ∈ u.scheme, ¬ (fun c => c == ':') c = true := by
    intro c hc
    show ¬ (c == ':') = true
    have hall := hu.scheme_alpha
    rw [List.all_eq_true] at hall
    have hca := hall c hc
    simp only [beq_iff_eq]
    intro hcc
    subst hcc
    exact absurd hca (by decide)
  have hb0 : breakAt (fun c => c == ':') (urlToString u) =
      (u.scheme,
        ':' :: '/' :: '/' :: (u.host ++ u.path ++ serQuery u.query ++ serHash u.hash)) := by
    unfold urlToString
    exact breakAt_of_clean_prefix _ _ _ hscheme_clean (Or.inr ⟨':', _, rfl, by decide⟩)
  have hassoc : u.host ++ u.path ++ serQuery u.query ++ serHash u.hash
      = u.host ++ (u.path ++ serQuery u.query ++ serHash u.hash) := by
    simp [List.append_assoc]
  have hbhost : breakAt isHostDelimChar
      (u.host ++ u.path ++ serQuery u.query ++ serHash u.hash)
      = (u.host, u.path ++ serQuery u.query ++ serHash u.hash) := by
    rw [hassoc]
    refine breakAt_of_clean_prefix _ _ _ ?_ ?_
    · intro c hc
      simp [(hu.host_clean c hc).1]
    · right
      refine ⟨'/', t ++ serQuery u.query ++ serHash u.hash, ?_, by decide⟩
      rw [hpath]
      simp
  have hroundPQH := parsePQH_roundtrip u.path u.query u.hash ⟨t, hpath⟩
    hu.path_clean hu.query_clean
  simp only [List.append_assoc] at hroundPQH
  have hany : u.host.any isHostBanChar = false := by
    rw [List.any_eq_false]
    intro c hc
    simp [(hu.host_clean c hc).2]
  have halpha : u.scheme.all Char.isAlpha = true := hu.scheme_alpha
  simp only [parseUrl, hb0]
  simp only [hbhost]
  simp [hu.scheme_ne, hu.host_ne, halpha, hany, hroundPQH,
    hu.scheme_lower, hu.host_lower]

theorem urlToString_ne_nil (u : Url) : urlToString u ≠ [] := by
  unfold urlToString
  cases hs : u.scheme <;> simp

theorem clearHash_wf (u : Url) (h : WfUrl u) : WfUrl (clearHash u) :=
  ⟨h.scheme_ne, h.scheme_alpha, h.scheme_lower, h.host_ne, h.host_clean,
   h.host_lower, h.path_head, h.path_clean, h.query_clean⟩

theorem clearHash_scheme (u : Url) : (clearHash u).scheme = u.scheme := rfl

theorem clearHash_host (u : Url) : (clearHash u).host = u.host := rfl

theorem clearHash_path (u : Url) : (clearHash u).path = u.path := rfl

theorem filterMappedUrlsGo_mem (originHost : Str) (l : List Str) :
    ∀ acc u, u ∈ filterMappedUrlsGo originHost l acc ↔
      u ∈ acc ∨ ∃ raw ∈ l, keepsUrl originHost raw u := by
  induction l with
  | nil => intro acc u; simp [filterMappedUrlsGo]
  | cons raw rest ih =>
    intro acc u
    unfold filterMappedUrlsGo
    rcases hv : parseUrl raw with _ | v
    · have hnv : normalizeUrl raw = none := by simp [normalizeUrl, hv]
      rw [hnv]
      rw [ih acc u]
      constructor
      · rintro (h | ⟨r, hr, hk⟩)
        · exact Or.inl h
        · exact Or.inr ⟨r, List.mem_cons_of_mem _ hr, hk⟩
      · rintro (h | ⟨r, hr, hk⟩)
        · exact Or.inl h
        · rcases List.mem_cons.mp hr with rfl | hr'
          · rcases hk with ⟨w, hw, _⟩
            rw [hv] at hw
            cases hw
          · exact Or.inr ⟨r, hr', hk⟩
    · have hnv : normalizeUrl raw = some (urlToString (clearHash v)) := by
        simp [normalizeUrl, hv]
      rw [hnv]
      dsimp only
      have hwf : WfUrl (clearHash v) := clearHash_wf v (parseUrl_wf raw v hv)
      have hrt : parseUrl (urlToString (clearHash v)) = some (clearHash v) :=
        parseUrl_roundtrip _ hwf
      rw [hrt]
      dsimp only
      have huniq : ∀ w, keepsUrl originHost raw w ↔
          (w = urlToString (clearHash v) ∧ isHttpProtocol v = true ∧
            lowerStr v.host = originHost ∧ isHtmlLikePath v.path = true) := by
        intro w
        constructor
        · rintro ⟨v', hv', rfl, hp, hh, hm⟩
          rw [hv] at hv'
          rcases Option.some_inj.mp hv' with rfl
          exact ⟨rfl, hp, hh, hm⟩
        · rintro ⟨rfl, hp, hh, hm⟩
          exact ⟨v, hv, rfl, hp, hh, hm⟩
      by_cases hp : isHttpProtocol v = true
      case neg =>
        have : isHttpProtocol (clearHash v) = false := by
          rw [show isHttpProtocol (clearHash v) = isHttpProtocol v from rfl]
          cases hb : isHttpProtocol v
          · rfl
          · exact absurd hb hp
        rw [this]
        simp only [if_pos]
        rw [ih acc u]
        constructor
        · rintro (h | ⟨r, hr, hk⟩)
          · exact Or.inl h
          · exact Or.inr ⟨r, List.mem_cons_of_mem _ hr, hk⟩
        · rintro (h | ⟨r, hr, hk⟩)
          · exact Or.inl h
          · rcases List.mem_cons.mp hr with rfl | hr'
            · rw [huniq u] at hk
              exact absurd hk.2.1 hp
            · exact Or.inr ⟨r, hr', hk⟩
      case pos =>
        have hp' : isHttpProtocol (clearHash v) = true := hp
        rw [hp']
        simp only [Bool.true_eq_false, if_neg, not_false_eq_true, ite_false]
        by_cases hh : lowerStr v.host = originHost
        case neg =>
          have hne : lowerStr (clearHash v).host ≠ originHost := hh
          rw [if_pos hne, ih acc u]
          constructor
          · rintro (h | ⟨r, hr, hk⟩)
            · exact Or.inl h
            · exact Or.inr ⟨r, List.mem_cons_of_mem _ hr, hk⟩
          · rintro (h | ⟨r, hr, hk⟩)
            · exact Or.inl h
            · rcases List.mem_cons.mp hr with rfl | hr'
              · rw [huniq u] at hk
                exact absurd hk.2.2.1 hh
              · exact Or.inr ⟨r, hr', hk⟩
        case pos =>
          have hh' : ¬ lowerStr (clearHash v).host ≠ originHost := by
            rw [clearHash_host]
            exact fun hc => hc hh
          rw [if_neg hh']
          by_cases hm : isHtmlLikePath v.path = true
          case neg =>
            have : isHtmlLikePath (clearHash v).path = false := by
              rw [clearHash_path]
              cases hb : isHtmlLikePath v.path
              · rfl
              · exact absurd hb hm
            rw [this]
            simp only [if_pos]
            rw [ih acc u]
            constructor
            · rintro (h | ⟨r, hr, hk⟩)
              · exact Or.inl h
              · exact Or.inr ⟨r, List.mem_cons_of_mem _ hr, hk⟩
            · rintro (h | ⟨r, hr, hk⟩)
              · exact Or.inl h
              · rcases List.mem_cons.mp hr with rfl | hr'
                · rw [huniq u] at hk
                  exact absurd hk.2.2.2 hm
                · exact Or.inr ⟨r, hr', hk⟩
          case pos =>
            have hm' : isHtmlLikePath (clearHash v).path = true := by
              rw [clearHash_path]; exact hm
            rw [hm']
            simp only [Bool.true_eq_false, if_neg, not_false_eq_true, ite_false]
            by_cases hacc : urlToString (clearHash v) ∈ acc
            case pos =>
              rw [if_pos hacc, ih acc u]
              constructor
              · rintro (h | ⟨r, hr, hk⟩)
                · exact Or.inl h
                · exact Or.inr ⟨r, List.mem_cons_of_mem _ hr, hk⟩
              · rintro (h | ⟨r, hr, hk⟩)
                · exact Or.inl h
                · rcases List.mem_cons.mp hr with rfl | hr'
                  · rw [huniq u] at hk
                    rw [hk.1]
                    exact Or.inl hacc
                  · exact Or.inr ⟨r, hr', hk⟩
            case neg =>
              rw [if_neg hacc, ih (acc ++ [urlToString (clearHash v)]) u]
              constructor
              · rintro (h | ⟨r, hr, hk⟩)
                · rcases List.mem_append.mp h with h' | h'
                  · exact Or.inl h'
                  · refine Or.inr ⟨raw, List.mem_cons_self _ _, ?_⟩
                    rw [huniq u]
                    exact ⟨List.mem_singleton.mp h', hp, hh, hm⟩
                · exact Or.inr ⟨r, List.mem_cons_of_mem _ hr, hk⟩
              · rintro (h | ⟨r, hr, hk⟩)
                · exact Or.inl (List.mem_append.mpr (Or.inl h))
                · rcases List.mem_cons.mp hr with rfl | hr'
                  · rw [huniq u] at hk
                    exact Or.inl (List.mem_append.mpr (Or.inr (by simp [hk.1])))
                  · exact Or.inr ⟨r, hr', hk⟩

theorem filterMappedUrlsGo_nodup (originHost : Str) (l : List Str) :
    ∀ acc, acc.Nodup → (filterMappedUrlsGo originHost l acc).Nodup := by
  induction l with
  | nil => intro acc h; simpa [filterMappedUrlsGo] using h
  | cons raw rest ih =>
    intro acc hacc
    unfold filterMappedUrlsGo
    rcases hv : parseUrl raw with _ | v
    · have hnv : normalizeUrl raw = none := by simp [normalizeUrl, hv]
      rw [hnv]
      exact ih acc hacc
    · have hnv : normalizeUrl raw = some (urlToString (clearHash v)) := by
        simp [normalizeUrl, hv]
      rw [hnv]
      dsimp only
      have hwf : WfUrl (clearHash v) := clearHash_wf v (parseUrl_wf raw v hv)
      rw [parseUrl_roundtrip _ hwf]
      dsimp only
      cases hp : isHttpProtocol (clearHash v)
      · simp only [if_pos]
        exact ih acc hacc
      · simp only [Bool.true_eq_false, if_neg, not_false_eq_true, ite_false]
        by_cases hh : lowerStr (clearHash v).host ≠ originHost
        · rw [if_pos hh]; exact ih acc hacc
        · rw [if_neg hh]
          cases hm : isHtmlLikePath (clearHash v).path
          · simp only [if_pos]
            exact ih acc hacc
          · simp only [Bool.true_eq_false, if_neg, not_false_eq_true, ite_false]
            by_cases hacc2 : urlToString (clearHash v) ∈ acc
            · rw [if_pos hacc2]; exact ih acc hacc
            · rw [if_neg hacc2]
              refine ih _ ?_
              rw [List.nodup_append]
              exact ⟨hacc, List.nodup_singleton _, by simpa using hacc2⟩

/-! ## Claim C10: `updateJobByIdInDb` frame property -/
/-- C10.  For every job id and every update patch, `updateJobByIdInDb` writes
only the database columns corresponding to fields present in the patch,
leaving every other column of the job row unchanged; an entirely empty patch
performs no database write at all; and any persisted `logLines` are truncated
to the most recent 20 entries. -/
theorem updateJobByIdInDb_frame (patch : JobUpdatePatch) (row : DbJobRow) :
    (patch.status = none →
      (updateJobByIdInDb patch row).1.status = row.status) ∧
    (patch.counters.bind (fun c => c.totalUrlsMapped) = none →
      (updateJobByIdInDb patch row).1.totalUrlsMapped = row.totalUrlsMapped) ∧
    (patch.counters.bind (fun c => c.urlsDiscovered) = none →
      (updateJobByIdInDb patch row).1.urlsDiscovered = row.urlsDiscovered) ∧
    (patch.counters.bind (fun c => c.pagesProcessed) = none →
      (updateJobByIdInDb patch row).1.pagesProcessed = row.pagesProcessed) ∧
    (patch.counters.bind (fun c => c.sessionsFound) = none →
      (updateJobByIdInDb patch row).1.sessionsFound = row.sessionsFound) ∧
    (patch.counters.bind (fun c => c.speakerAppearancesFound) = none →
      (updateJobByIdInDb patch row).1.speakerAppearancesFound
        = row.speakerAppearancesFound) ∧
    (patch.counters.bind (fun c => c.uniqueSpeakersFound) = none →
      (updateJobByIdInDb patch row).1.uniqueSpeakersFound = row.uniqueSpeakersFound) ∧
    (patch.logLines = none → (updateJobByIdInDb patch row).1.log = row.log) ∧
    (patch.mappedUrls = none →
      (updateJobByIdInDb patch row).1.mappedUrls = row.mappedUrls) ∧
    (patch.filteredUrls = none →
      (updateJobByIdInDb patch row).1.filteredUrls = row.filteredUrls) ∧
    (patch.processedUrls = none →
      (updateJobByIdInDb patch row).1.processedUrls = row.processedUrls) ∧
    (patch.error = none → (updateJobByIdInDb patch row).1.error = row.error) ∧
    (patch = emptyJobUpdatePatch → updateJobByIdInDb patch row = (row, false)) ∧
    (∀ ls, patch.logLines = some ls →
      (updateJobByIdInDb patch row).1.log = ls.drop (ls.length - 20)) := by
  have hframe : ∀ (motive : DbJobRow → Prop),
      (¬ buildJobUpdatePayload patch = emptyJobUpdatePayload →
        motive (applyJobUpdatePayload (buildJobUpdatePayload patch) row)) →
      (buildJobUpdatePayload patch = emptyJobUpdatePayload → motive row) →
      motive (updateJobByIdInDb patch row).1 := by
    intro motive hne hrow
    by_cases hp : buildJobUpdatePayload patch = emptyJobUpdatePayload
    · simp only [updateJobByIdInDb]
      rw [if_pos hp]
      exact hrow hp
    · simp only [updateJobByIdInDb]
      rw [if_neg hp]
      exact hne hp
  refine ⟨?_, ?_, ?_, ?_, ?_, ?_, ?_, ?_, ?_, ?_, ?_, ?_, ?_, ?_⟩
  · intro h
    exact hframe (fun r => r.status = row.status)
      (fun _ => by simp [applyJobUpdatePayload, buildJobUpdatePayload, h])
      (fun _ => rfl)
  · intro h
    exact hframe (fun r => r.totalUrlsMapped = row.totalUrlsMapped)
      (fun _ => by simp [applyJobUpdatePayload, buildJobUpdatePayload, h])
      (fun _ => rfl)
  · intro h
    exact hframe (fun r => r.urlsDiscovered = row.urlsDiscovered)
      (fun _ => by simp [applyJobUpdatePayload, buildJobUpdatePayload, h])
      (fun _ => rfl)
  · intro h
    exact hframe (fun r => r.pagesProcessed = row.pagesProcessed)
      (fun _ => by simp [applyJobUpdatePayload, buildJobUpdatePayload, h])
      (fun _ => rfl)
  · intro h
    exact hframe (fun r => r.sessionsFound = row.sessionsFound)
      (fun _ => by simp [applyJobUpdatePayload, buildJobUpdatePayload, h])
      (fun _ => rfl)
  · intro h
    exact hframe (fun r => r.speakerAppearancesFound = row.speakerAppearancesFound)
      (fun _ => by simp [applyJobUpdatePayload, buildJobUpdatePayload, h])
      (fun _ => rfl)
  · intro h
    exact hframe (fun r => r.uniqueSpeakersFound = row.uniqueSpeakersFound)
      (fun _ => by simp [applyJobUpdatePayload, buildJobUpdatePayload, h])
      (fun _ => rfl)
  · intro h
    exact hframe (fun r => r.log = row.log)
      (fun _ => by simp [applyJobUpdatePayload, buildJobUpdatePayload, h])
      (fun _ => rfl)
  · intro h
    exact hframe (fun r => r.mappedUrls = row.mappedUrls)
      (fun _ => by simp [applyJobUpdatePayload, buildJobUpdatePayload, h])
      (fun _ => rfl)
  · intro h
    exact hframe (fun r => r.filteredUrls = row.filteredUrls)
      (fun _ => by simp [applyJobUpdatePayload, buildJobUpdatePayload, h])
      (fun _ => rfl)
  · intro h
    exact hframe (fun r => r.processedUrls = row.processedUrls)
      (fun _ => by simp [applyJobUpdatePayload, buildJobUpdatePayload, h])
      (fun _ => rfl)
  · intro h
    exact hframe (fun r => r.error = row.error)
      (fun _ => by simp [applyJobUpdatePayload, buildJobUpdatePayload, h])
      (fun _ => rfl)
  · intro h
    subst h
    rfl
  · intro ls h
    refine hframe (fun r => r.log = ls.drop (ls.length - 20)) (fun _ => by
      simp [applyJobUpdatePayload, buildJobUpdatePayload, h, sliceLast20]) ?_
    intro hp
    exfalso
    have hlog := congrArg JobUpdatePayload.log hp
    simp [buildJobUpdatePayload, emptyJobUpdatePayload, h] at hlog

/-! ## Claim C9: cooperative cancellation in the page loop -/
theorem processCandidatePagesGo_cancel_spec (aborted ok : Nat → Bool) :
    ∀ (l : List Str) (i : Nat) (processed attempted : List Str) (k : Nat),
      k < l.length → aborted (i + k) = true → (∀ j < k, aborted (i + j) = false) →
      processCandidatePagesGo aborted ok l i processed attempted =
        ⟨processed ++ (List.range k).filterMap
            (fun j => if ok (i + j) then some (l.getD j []) else none),
          attempted ++ l.take k, true⟩ := by
  intro l
  induction l with
  | nil =>
    intro i processed attempted k hk htrip hbefore
    simp at hk
  | cons url rest ih =>
    intro i processed attempted k hk htrip hbefore
    cases k with
    | zero =>
      rw [Nat.add_zero] at htrip
      unfold processCandidatePagesGo
      rw [if_pos htrip]
      simp
    | succ k' =>
      have h0 : aborted i = false := by
        have := hbefore 0 (Nat.succ_pos k')
        simpa using this
      unfold processCandidatePagesGo
      rw [if_neg (by simp [h0])]
      have harith : ∀ j : Nat, i + 1 + j = i + (j + 1) := fun j => by omega
      have ih' := ih (i + 1) (if ok i then processed ++ [url] else processed)
        (attempted ++ [url]) k' (by simpa using hk)
        (by rw [harith k']; exact htrip)
        (fun j hj => by rw [harith j]; exact hbefore (j + 1) (by omega))
      rw [ih']
      refine congrArg₂ (fun a b => PageLoopResult.mk a b true) ?_ ?_
      · rw [List.range_succ_eq_map, List.filterMap_cons]
        simp only [Nat.add_zero, List.getD_cons_zero, List.filterMap_map]
        have hfun : (fun j => if ok (i + j) then some ((url :: rest).getD j []) else none)
              ∘ Nat.succ
            = fun j => if ok (i + 1 + j) then some (rest.getD j []) else none := by
          funext j
          simp only [Function.comp_apply, harith j]
          rfl
        rw [hfun]
        by_cases hok : ok i
        · simp [hok]
        · simp [hok]
      · simp [List.take_succ_cons]

/-- C9.  If the cancellation signal is unset before pages `0..k-1` and set at
the check before page `k` (with `k` inside the candidate list), the run is
cancelled: the job finishes in `failed` status, `processedUrls` holds exactly
the pages fully completed before the tripped check, and no page from index
`k` onward is ever attempted. -/
theorem cancellation_mid_run (urls : List Str) (aborted ok : Nat → Bool) (k : Nat)
    (hk : k < urls.length) (htrip : aborted k = true)
    (hbefore : ∀ j < k, aborted j = false) :
    jobStatusAfterRun (processCandidatePages urls aborted ok) = .failed ∧
    (processCandidatePages urls aborted ok).processedUrls =
      (List.range k).filterMap
        (fun j => if ok j then some (urls.getD j []) else none) ∧
    (processCandidatePages urls aborted ok).attemptedUrls = urls.take k := by
  have hgo := processCandidatePagesGo_cancel_spec aborted ok urls 0 [] [] k hk
    (by simpa using htrip) (fun j hj => by simpa using hbefore j hj)
  unfold processCandidatePages
  rw [hgo]
  refine ⟨rfl, by simp, by simp⟩

/-- Witness for `cancellation_mid_run` at a concrete three-page run whose
signal trips before page 2 and whose page 1 fails. -/
theorem cancellation_mid_run_witness :
    (1 < (["a".toList, "b".toList, "c".toList] : List Str).length ∧
      (fun i => decide (i ≥ 1)) 1 = true ∧ (∀ j < 1, (fun i => decide (i ≥ 1)) j = false)) ∧
    (jobStatusAfterRun (processCandidatePages ["a".toList, "b".toList, "c".toList]
        (fun i => decide (i ≥ 1)) (fun i => decide (i ≠ 1))) = .failed ∧
      (processCandidatePages ["a".toList, "b".toList, "c".toList]
        (fun i => decide (i ≥ 1)) (fun i => decide (i ≠ 1))).processedUrls =
        (List.range 1).filterMap (fun j => if (fun i => decide (i ≠ 1)) j then
          some ((["a".toList, "b".toList, "c".toList] : List Str).getD j []) else none) ∧
      (processCandidatePages ["a".toList, "b".toList, "c".toList]
        (fun i => decide (i ≥ 1)) (fun i => decide (i ≠ 1))).attemptedUrls =
        (["a".toList, "b".toList, "c".toList] : List Str).take 1) :=
  ⟨⟨by decide, by decide, by decide⟩,
    cancellation_mid_run ["a".toList, "b".toList, "c".toList]
      (fun i => decide (i ≥ 1)) (fun i => decide (i ≠ 1)) 1
      (by decide) (by decide) (by decide)⟩

/-! ## Claims C2 and C7: in-run identity keys -/
theorem colon_not_mem_normalizeIdentityToken (v : Option Str) :
    ':' ∉ normalizeIdentityToken v :=
  colon_not_mem_identityNorm _

/-- Joining two colon-free strings with `::` is injective. -/
theorem append_sep2_inj (a b c d : Str) (ha : ':' ∉ a) (hc : ':' ∉ c)
    (h : a ++ ':' :: ':' :: b = c ++ ':' :: ':' :: d) : a = c ∧ b = d := by
  induction a generalizing c with
  | nil =>
    cases c with
    | nil =>
      simp only [List.nil_append, List.cons.injEq] at h
      exact ⟨rfl, h.2.2⟩
    | cons e c2 =>
      simp only [List.nil_append, List.cons_append, List.cons.injEq] at h
      exact absurd (by rw [← h.1]; exact List.mem_cons_self _ _ : ':' ∈ e :: c2) hc
  | cons x a2 ih =>
    cases c with
    | nil =>
      simp only [List.cons_append, List.nil_append, List.cons.injEq] at h
      exact absurd (by rw [h.1]; exact List.mem_cons_self _ _ : ':' ∈ x :: a2) ha
    | cons e c2 =>
      simp only [List.cons_append, List.cons.injEq] at h
      obtain ⟨rfl, h2⟩ := h
      have := ih c2 (fun hm => ha (List.mem_cons_of_mem _ hm))
        (fun hm => hc (List.mem_cons_of_mem _ hm)) h2
      exact ⟨by rw [this.1], this.2⟩

/-- C7.  For appearances lacking a (truthy) profile URL, the in-run identity
key coincides exactly when both the normalized names and the normalized
organizations coincide. -/
theorem speakerAppearanceKey_nameorg_iff (r1 r2 : SpeakerAppearanceExtractedRow)
    (h1 : profileKeyOf r1 = none) (h2 : profileKeyOf r2 = none) :
    speakerAppearanceKey r1 = speakerAppearanceKey r2 ↔
      (normalizeIdentityToken (some r1.name) = normalizeIdentityToken (some r2.name) ∧
        normalizeIdentityToken r1.organization = normalizeIdentityToken r2.organization) := by
  unfold speakerAppearanceKey
  rw [h1, h2]
  constructor
  · intro h
    simp only at h
    have h' := List.append_cancel_left
      ((by simpa [List.append_assoc] using h :
        ("nameorg::".toList : Str) ++
          (normalizeIdentityToken (some r1.name) ++
            (':' :: ':' :: normalizeIdentityToken r1.organization)) =
        ("nameorg::".toList : Str) ++
          (normalizeIdentityToken (some r2.name) ++
            (':' :: ':' :: normalizeIdentityToken r2.organization))))
    exact append_sep2_inj _ _ _ _ (colon_not_mem_normalizeIdentityToken _)
      (colon_not_mem_normalizeIdentityToken _) h'
  · rintro ⟨hn, ho⟩
    simp only [hn, ho]

/-- Witness for `speakerAppearanceKey_nameorg_iff`: the
`{name: "Jane Doe", org: "Acme Inc."}` vs `{name: "jane   doe",
org: "ACME, INC."}` scenario resolves to one identity key. -/
theorem speakerAppearanceKey_nameorg_iff_witness :
    (profileKeyOf ⟨"Jane Doe".toList, some "Acme Inc.".toList, none, none, none, []⟩
        = none ∧
      profileKeyOf ⟨"jane   doe".toList, some "ACME, INC.".toList, none, none, none, []⟩
        = none) ∧
    speakerAppearanceKey
        ⟨"Jane Doe".toList, some "Acme Inc.".toList, none, none, none, []⟩ =
      speakerAppearanceKey
        ⟨"jane   doe".toList, some "ACME, INC.".toList, none, none, none, []⟩ :=
  ⟨⟨by decide, by decide⟩,
    (speakerAppearanceKey_nameorg_iff _ _ (by decide) (by decide)).mpr
      ⟨by decide, by decide⟩⟩

/-- C2 counterexample.  Two appearances whose profile URLs agree after
fragment-stripping and lowercasing but receive different in-run identity
keys: the implemented key does not strip fragments. -/
theorem speakerAppearanceKey_profile_fragment_counterexample :
    ¬ (speakerAppearanceKey
          ⟨"A".toList, none, none, some "https://x.com/p#one".toList, none, []⟩ =
        speakerAppearanceKey
          ⟨"A".toList, none, none, some "https://x.com/p#two".toList, none, []⟩ ↔
      lowerStr (specStripFragment "https://x.com/p#one".toList) =
        lowerStr (specStripFragment "https://x.com/p#two".toList)) := by
  decide

/-- C2 (amended).  For appearances with a truthy profile URL, the in-run
identity key coincides exactly when the profile URLs agree after trimming
and lowercasing (no fragment-stripping is applied). -/
theorem speakerAppearanceKey_profile_iff (r1 r2 : SpeakerAppearanceExtractedRow)
    (u1 u2 : Str) (h1 : r1.profileUrl = some u1) (h1ne : lowerStr (trimStr u1) ≠ [])
    (h2 : r2.profileUrl = some u2) (h2ne : lowerStr (trimStr u2) ≠ []) :
    speakerAppearanceKey r1 = speakerAppearanceKey r2 ↔
      lowerStr (trimStr u1) = lowerStr (trimStr u2) := by
  unfold speakerAppearanceKey profileKeyOf
  rw [h1, h2]
  simp only [h1ne, h2ne, ite_false, if_neg, not_false_eq_true]
  constructor
  · intro h
    exact List.append_cancel_left h
  · intro h
    rw [h]

/-- Witness for `speakerAppearanceKey_profile_iff` at two equal-modulo-case
profile URLs. -/
theorem speakerAppearanceKey_profile_iff_witness :
    ((⟨"A".toList, none, none, some "https://X.com/p".toList, none, []⟩ :
        SpeakerAppearanceExtractedRow).profileUrl = some "https://X.com/p".toList ∧
      lowerStr (trimStr "https://X.com/p".toList) ≠ [] ∧
      (⟨"B".toList, none, none, some " https://x.com/p".toList, none, []⟩ :
        SpeakerAppearanceExtractedRow).profileUrl = some " https://x.com/p".toList ∧
      lowerStr (trimStr " https://x.com/p".toList) ≠ []) ∧
    (speakerAppearanceKey
        ⟨"A".toList, none, none, some "https://X.com/p".toList, none, []⟩ =
      speakerAppearanceKey
        ⟨"B".toList, none, none, some " https://x.com/p".toList, none, []⟩ ↔
      lowerStr (trimStr "https://X.com/p".toList) =
        lowerStr (trimStr " https://x.com/p".toList)) :=
  ⟨⟨by decide, by decide, by decide, by decide⟩,
    speakerAppearanceKey_profile_iff _ _ _ _ (by decide) (by decide)
      (by decide) (by decide)⟩

/-! ## Claim C6: the page classifier -/
/-- C6 counterexample.  The literal candidate string `/speakers/keynotes` is
not an absolute URL, so `new URL` throws and the classifier falls back to the
ambiguous session default instead of the speaker directory the scenario
expects. -/
theorem pickExtractionMode_relative_counterexample :
    pickExtractionMode "/speakers/keynotes".toList = (.session, true) ∧
    pickExtractionMode "/speakers/keynotes".toList ≠ (.speakerDirectory, false) := by
  decide

/-- C6 (amended).  The classifier returns SpeakerDirectory/non-ambiguous
exactly on parseable URLs whose lowercased path+query contains a speaker-ish
keyword and no session-ish keyword, Session/non-ambiguous exactly in the
symmetric case, and Session/ambiguous in every other case (including
unparseable URLs); classifying the absolute forms of the scenario paths
behaves as the scenario describes. -/
theorem pickExtractionMode_spec (url : Str) :
    (pickExtractionMode url = (.speakerDirectory, false) ↔
      ∃ parsed, parseUrl url = some parsed ∧
        speakerKeywordIn (lowerStr (parsed.path ++ searchOf parsed)) = true ∧
        sessionKeywordIn (lowerStr (parsed.path ++ searchOf parsed)) = false) ∧
    (pickExtractionMode url = (.session, false) ↔
      ∃ parsed, parseUrl url = some parsed ∧
        sessionKeywordIn (lowerStr (parsed.path ++ searchOf parsed)) = true ∧
        speakerKeywordIn (lowerStr (parsed.path ++ searchOf parsed)) = false) ∧
    (pickExtractionMode url = (.session, true) ↔
      (¬ ∃ parsed, parseUrl url = some parsed ∧
        speakerKeywordIn (lowerStr (parsed.path ++ searchOf parsed)) = true ∧
        sessionKeywordIn (lowerStr (parsed.path ++ searchOf parsed)) = false) ∧
      (¬ ∃ parsed, parseUrl url = some parsed ∧
        sessionKeywordIn (lowerStr (parsed.path ++ searchOf parsed)) = true ∧
        speakerKeywordIn (lowerStr (parsed.path ++ searchOf parsed)) = false)) ∧
    pickExtractionMode "https://conf.example/speakers/keynotes".toList
      = (.speakerDirectory, false) ∧
    pickExtractionMode "https://conf.example/info".toList = (.session, true) := by
  have hiff1 : pickExtractionMode url = (.speakerDirectory, false) ↔
      ∃ parsed, parseUrl url = some parsed ∧
        speakerKeywordIn (lowerStr (parsed.path ++ searchOf parsed)) = true ∧
        sessionKeywordIn (lowerStr (parsed.path ++ searchOf parsed)) = false := by
    constructor
    · intro h
      cases hp : parseUrl url with
      | none => simp [pickExtractionMode, hp] at h
      | some parsed =>
        refine ⟨parsed, rfl, ?_⟩
        simp only [pickExtractionMode, hp] at h
        by_cases hsp : speakerKeywordIn (lowerStr (parsed.path ++ searchOf parsed)) = true <;>
          by_cases hss : sessionKeywordIn (lowerStr (parsed.path ++ searchOf parsed)) = true <;>
          simp [hsp, hss] at h ⊢
    · rintro ⟨parsed, hp, hsp, hss⟩
      simp [pickExtractionMode, hp, hsp, hss]
  have hiff2 : pickExtractionMode url = (.session, false) ↔
      ∃ parsed, parseUrl url = some parsed ∧
        sessionKeywordIn (lowerStr (parsed.path ++ searchOf parsed)) = true ∧
        speakerKeywordIn (lowerStr (parsed.path ++ searchOf parsed)) = false := by
    constructor
    · intro h
      cases hp : parseUrl url with
      | none => simp [pickExtractionMode, hp] at h
      | some parsed =>
        refine ⟨parsed, rfl, ?_⟩
        simp only [pickExtractionMode, hp] at h
        by_cases hsp : speakerKeywordIn (lowerStr (parsed.path ++ searchOf parsed)) = true <;>
          by_cases hss : sessionKeywordIn (lowerStr (parsed.path ++ searchOf parsed)) = true <;>
          simp [hsp, hss] at h ⊢
    · rintro ⟨parsed, hp, hss, hsp⟩
      simp [pickExtractionMode, hp, hsp, hss]
  have hex : pickExtractionMode url = (.speakerDirectory, false) ∨
      pickExtractionMode url = (.session, false) ∨
      pickExtractionMode url = (.session, true) := by
    cases hp : parseUrl url with
    | none => right; right; simp [pickExtractionMode, hp]
    | some parsed =>
      simp only [pickExtractionMode, hp]
      by_cases hsp : speakerKeywordIn (lowerStr (parsed.path ++ searchOf parsed)) = true <;>
        by_cases hss : sessionKeywordIn (lowerStr (parsed.path ++ searchOf parsed)) = true <;>
        simp [hsp, hss]
  refine ⟨hiff1, hiff2, ⟨?_, ?_⟩, by decide, by decide⟩
  · intro h
    constructor
    · intro hA
      have := hiff1.mpr hA
      rw [h] at this
      simp at this
    · intro hB
      have := hiff2.mpr hB
      rw [h] at this
      simp at this
  · rintro ⟨hnA, hnB⟩
    rcases hex with h | h | h
    · exact absurd (hiff1.mp h) hnA
    · exact absurd (hiff2.mp h) hnB
    · exact h

/-! ## Claim C1: session-speaker link deduplication -/
theorem jsmap_set_eq_append_of_not_contains {κ ν : Type} [DecidableEq κ]
    (m : JsMap κ ν) (key : κ) (val : ν) (h : ¬ JsMap.contains m key = true) :
    JsMap.set m key val = m ++ [(key, val)] := by
  induction m with
  | nil => rfl
  | cons kv rest ih =>
    obtain ⟨k, w⟩ := kv
    by_cases hk : k = key
    · exfalso
      apply h
      simp [JsMap.contains, JsMap.get_cons, hk]
    · have hrest : ¬ JsMap.contains rest key = true := by
        intro hr
        apply h
        simp only [JsMap.contains, JsMap.get_cons, hk, if_neg, ite_false]
        exact hr
      simp [JsMap.set, hk, ih hrest]

theorem buildUniqueLinksGo_filter (s p : Nat) :
    ∀ (rows : List DbSessionSpeakerRow) (m : JsMap (Nat × Nat) DbSessionSpeakerRow),
      (∀ kv ∈ m, (kv.2.sessionId, kv.2.speakerId) = kv.1) →
      (JsMap.values (rows.foldl (fun m row =>
          if JsMap.contains m (row.sessionId, row.speakerId) then m
          else JsMap.set m (row.sessionId, row.speakerId) row) m)).filter
            (linkKeyMatch s p) =
        (JsMap.values m).filter (linkKeyMatch s p) ++
          (if JsMap.contains m (s, p) = true then []
           else match rows.find? (linkKeyMatch s p) with
             | some r0 => [r0]
             | none => []) := by
  intro rows
  induction rows with
  | nil =>
    intro m hcons
    simp only [List.foldl_nil, List.find?_nil]
    by_cases hm : JsMap.contains m (s, p) = true <;> simp [hm]
  | cons r rest ih =>
    intro m hcons
    simp only [List.foldl_cons, List.find?_cons]
    by_cases hkm : linkKeyMatch s p r = true
    · have hkey : (r.sessionId, r.speakerId) = (s, p) := by
        simp only [linkKeyMatch, decide_eq_true_eq] at hkm
        rw [hkm.1, hkm.2]
      by_cases hck : JsMap.contains m (r.sessionId, r.speakerId) = true
      · rw [if_pos hck]
        rw [ih m hcons]
        rw [hkey] at hck
        simp [hck, hkm]
      · rw [if_neg hck]
        have hset := jsmap_set_eq_append_of_not_contains m (r.sessionId, r.speakerId) r hck
        have hcons' : ∀ kv ∈ JsMap.set m (r.sessionId, r.speakerId) r,
            (kv.2.sessionId, kv.2.speakerId) = kv.1 := by
          rw [hset]
          intro kv hkv
          rcases List.mem_append.mp hkv with h' | h'
          · exact hcons kv h'
          · rw [List.mem_singleton.mp h']
        rw [ih _ hcons']
        have hcontains' : JsMap.contains (JsMap.set m (r.sessionId, r.speakerId) r) (s, p)
            = true := by
          rw [JsMap.contains_set]
          left
          rw [hkey]
        rw [hcontains']
        have hvals : JsMap.values (JsMap.set m (r.sessionId, r.speakerId) r)
            = JsMap.values m ++ [r] := by
          rw [hset]
          simp [JsMap.values]
        rw [hvals]
        rw [hkey] at hck
        simp [hck, hkm, List.filter_append]
    · have hkey : (r.sessionId, r.speakerId) ≠ (s, p) := by
        intro heq
        apply hkm
        simp only [Prod.mk.injEq] at heq
        simp [linkKeyMatch, heq.1, heq.2]
      by_cases hck : JsMap.contains m (r.sessionId, r.speakerId) = true
      · rw [if_pos hck, ih m hcons]
        simp [hkm]
      · rw [if_neg hck]
        have hset := jsmap_set_eq_append_of_not_contains m (r.sessionId, r.speakerId) r hck
        have hcons' : ∀ kv ∈ JsMap.set m (r.sessionId, r.speakerId) r,
            (kv.2.sessionId, kv.2.speakerId) = kv.1 := by
          rw [hset]
          intro kv hkv
          rcases List.mem_append.mp hkv with h' | h'
          · exact hcons kv h'
          · rw [List.mem_singleton.mp h']
        rw [ih _ hcons']
        have hvals : JsMap.values (JsMap.set m (r.sessionId, r.speakerId) r)
            = JsMap.values m ++ [r] := by
          rw [hset]
          simp [JsMap.values]
        have hcontains' : JsMap.contains (JsMap.set m (r.sessionId, r.speakerId) r) (s, p)
            = JsMap.contains m (s, p) := by
          by_cases hmp : JsMap.contains m (s, p) = true
          · rw [hmp, JsMap.contains_set]
            simp [hmp]
          · cases hb : JsMap.contains (JsMap.set m (r.sessionId, r.speakerId) r) (s, p)
            · cases hb2 : JsMap.contains m (s, p)
              · rfl
              · exact absurd hb2 hmp
            · rw [JsMap.contains_set] at hb
              rcases hb with h' | h'
              · exact absurd h'.symm hkey
              · exact absurd h' hmp
        rw [hvals, hcontains']
        simp [hkm, List.filter_append]

/-- C1 (amended).  Within one run, `persistExtractedConferenceDataInDb`
writes exactly one session-speaker link row per `(sessionId, speakerId)`
pair, and the `role` stored for it is the role of the FIRST appearance in
the run that mapped to that pair (first-write-wins, not last-write-wins). -/
theorem uniqueLinks_first_write_wins (rows : List DbSessionSpeakerRow) (s p : Nat)
    (h : ∃ r ∈ rows, r.sessionId = s ∧ r.speakerId = p) :
    ∃ r0, rows.find? (linkKeyMatch s p) = some r0 ∧
      (JsMap.values (buildUniqueLinks rows)).filter (linkKeyMatch s p) = [r0] := by
  obtain ⟨r, hr, hks⟩ := h
  have hsome : (rows.find? (linkKeyMatch s p)).isSome := by
    rw [List.find?_isSome]
    exact ⟨r, hr, by simp [linkKeyMatch, hks.1, hks.2]⟩
  obtain ⟨r0, hr0⟩ := Option.isSome_iff_exists.mp hsome
  refine ⟨r0, hr0, ?_⟩
  have hgo := buildUniqueLinksGo_filter s p rows [] (by simp)
  unfold buildUniqueLinks
  rw [hgo, hr0]
  simp [JsMap.values, JsMap.contains, JsMap.get]

/-- Witness for `uniqueLinks_first_write_wins`: two link rows for the same
pair with different roles keep the first one. -/
theorem uniqueLinks_first_write_wins_witness :
    (∃ r ∈ ([⟨0, 1, some "chair".toList⟩, ⟨0, 1, some "panelist".toList⟩] :
        List DbSessionSpeakerRow), r.sessionId = 0 ∧ r.speakerId = 1) ∧
    (∃ r0, ([⟨0, 1, some "chair".toList⟩, ⟨0, 1, some "panelist".toList⟩] :
        List DbSessionSpeakerRow).find? (linkKeyMatch 0 1) = some r0 ∧
      (JsMap.values (buildUniqueLinks
          [⟨0, 1, some "chair".toList⟩, ⟨0, 1, some "panelist".toList⟩])).filter
        (linkKeyMatch 0 1) = [r0]) :=
  ⟨⟨⟨0, 1, some "chair".toList⟩, by decide, by decide⟩,
    uniqueLinks_first_write_wins
      [⟨0, 1, some "chair".toList⟩, ⟨0, 1, some "panelist".toList⟩] 0 1
      ⟨⟨0, 1, some "chair".toList⟩, by decide, by decide⟩⟩

/-- C1 counterexample.  A full run of `persistExtractedConferenceDataInDb`
on an empty database with two appearances of one speaker on one session,
first with role `chair`, then with role `panelist`: the single persisted
link row stores `chair` — the role of the first appearance, not the last. -/
theorem persist_role_not_last_write_wins :
    (persistExtractedConferenceDataInDb ⟨[], [], [], [], 0⟩ "e1".toList
        [⟨"S".toList, "https://a.com/s".toList⟩]
        [⟨"N".toList, none, none, none, some "chair".toList, "https://a.com/s".toList⟩,
         ⟨"N".toList, none, none, none, some "panelist".toList,
           "https://a.com/s".toList⟩]).1.sessionSpeakers
      = [⟨0, 1, some "chair".toList⟩] ∧
    some "chair".toList ≠ some "panelist".toList := by
  constructor
  · decide
  · decide

/-! ## Claims C3 and C4: `filterMappedUrls` -/
/-- C3.  Against a parseable start URL, `filterMappedUrls` returns exactly
the deduplicated, fragment-stripped serializations of those inputs that
parse as absolute URLs with an http(s) scheme, a hostname equal
(case-insensitively) to the start URL's hostname and a page-like path
(`keepsUrl` is that predicate, written from the source); in particular every
returned URL is same-host and never has an asset extension. -/
theorem filterMappedUrls_spec (startUrl : Str) (urls : List Str) (sv : Url)
    (hs : parseUrl startUrl = some sv) :
    ∃ out, filterMappedUrls startUrl urls = some out ∧
      out.Nodup ∧
      (∀ u, u ∈ out ↔ ∃ raw ∈ urls, keepsUrl (lowerStr sv.host) raw u) ∧
      (∀ u ∈ out, ∃ w, parseUrl u = some w ∧ lowerStr w.host = lowerStr sv.host ∧
        isHtmlLikePath w.path = true) := by
  refine ⟨filterMappedUrlsGo (lowerStr sv.host) urls [], ?_, ?_, ?_, ?_⟩
  · simp [filterMappedUrls, hs]
  · exact filterMappedUrlsGo_nodup _ _ [] List.nodup_nil
  · intro u
    rw [filterMappedUrlsGo_mem]
    simp
  · intro u hu
    rw [filterMappedUrlsGo_mem] at hu
    rcases hu with h | ⟨raw, _, v, hv, rfl, _, hh, hm⟩
    · simp at h
    · have hwf := clearHash_wf v (parseUrl_wf raw v hv)
      exact ⟨clearHash v, parseUrl_roundtrip _ hwf, hh, hm⟩

/-- Witness for `filterMappedUrls_spec` at the concrete conference start
URL. -/
theorem filterMappedUrls_spec_witness :
    parseUrl "https://conf.example/".toList =
      some ⟨"https".toList, "conf.example".toList, "/".toList, none, none⟩ ∧
    (∃ out, filterMappedUrls "https://conf.example/".toList
        ["https://conf.example/agenda".toList, "/style.css".toList] = some out ∧
      out.Nodup ∧
      (∀ u, u ∈ out ↔ ∃ raw ∈ ["https://conf.example/agenda".toList,
          "/style.css".toList], keepsUrl
            (lowerStr (⟨"https".toList, "conf.example".toList, "/".toList,
              none, none⟩ : Url).host) raw u) ∧
      (∀ u ∈ out, ∃ w, parseUrl u = some w ∧
        lowerStr w.host = lowerStr (⟨"https".toList, "conf.example".toList,
          "/".toList, none, none⟩ : Url).host ∧
        isHtmlLikePath w.path = true)) :=
  ⟨by decide,
    filterMappedUrls_spec "https://conf.example/".toList
      ["https://conf.example/agenda".toList, "/style.css".toList]
      ⟨"https".toList, "conf.example".toList, "/".toList, none, none⟩ (by decide)⟩

/-- C4 counterexample.  With exactly the scenario's mapped list — the
relative references `/agenda` and `/style.css` and the cross-host
`https://other.com/agenda` — the filter returns the empty set, not
`{"https://conf.example/agenda"}`: relative URLs fail `new URL` and are
rejected rather than resolved against the start URL. -/
theorem filterMappedUrls_relative_scenario_counterexample :
    filterMappedUrls "https://conf.example/".toList
        ["/agenda".toList, "/style.css".toList, "https://other.com/agenda".toList]
      = some [] ∧
    some ([] : List Str) ≠ some ["https://conf.example/agenda".toList] := by
  constructor
  · decide
  · decide

/-- C4 (amended).  When the mapped list carries the absolute same-host form
`https://conf.example/agenda` alongside the scenario's other entries, the
filtered set is exactly `{"https://conf.example/agenda"}`: the asset URL,
the cross-host URL and the unparseable relative path are all rejected. -/
theorem filterMappedUrls_absolute_scenario :
    filterMappedUrls "https://conf.example/".toList
        ["https://conf.example/agenda".toList, "/agenda".toList,
         "/style.css".toList, "https://other.com/agenda".toList]
      = some ["https://conf.example/agenda".toList] := by
  decide

/-! ## Claim C5: plateau detection in the speaker pass loop -/
theorem foldInsert_contains {α : Type} (key : α → Str) (l : List α) :
    ∀ (m : JsMap Str α) (k : Str),
      JsMap.contains (foldInsertIfAbsent key m l) k = true ↔
        JsMap.contains m k = true ∨ k ∈ l.map key := by
  induction l with
  | nil => intro m k; simp [foldInsertIfAbsent]
  | cons a rest ih =>
    intro m k
    unfold foldInsertIfAbsent at ih ⊢
    rw [List.foldl_cons, ih]
    rw [JsMap.contains_insertIfAbsent]
    constructor
    · rintro ((h | h) | h)
      · right; simp [h]
      · exact Or.inl h
      · right; simp [h]
    · rintro (h | h)
      · exact Or.inl (Or.inr h)
      · simp only [List.map_cons, List.mem_cons] at h
        rcases h with h' | h'
        · exact Or.inl (Or.inl h')
        · exact Or.inr h'

theorem foldInsert_eq_of_all_contains {α : Type} (key : α → Str) (l : List α)
    (m : JsMap Str α) (h : ∀ a ∈ l, JsMap.contains m (key a) = true) :
    foldInsertIfAbsent key m l = m := by
  induction l with
  | nil => rfl
  | cons a rest ih =>
    unfold foldInsertIfAbsent at ih ⊢
    rw [List.foldl_cons, JsMap.insertIfAbsent_of_contains _ _ _ (h a (by simp))]
    exact ih (fun a ha => h a (by simp [ha]))

theorem foldInsert_length_le {α : Type} (key : α → Str) (l : List α) :
    ∀ m : JsMap Str α, m.length ≤ (foldInsertIfAbsent key m l).length := by
  induction l with
  | nil => intro m; simp [foldInsertIfAbsent]
  | cons a rest ih =>
    intro m
    unfold foldInsertIfAbsent at ih ⊢
    rw [List.foldl_cons]
    exact Nat.le_trans (JsMap.length_le_insertIfAbsent m (key a) a) (ih _)

theorem foldInsert_length_lt {α : Type} (key : α → Str) (l : List α)
    (m : JsMap Str α) (h : ∃ a ∈ l, ¬ JsMap.contains m (key a) = true) :
    m.length < (foldInsertIfAbsent key m l).length := by
  induction l generalizing m with
  | nil => simp at h
  | cons a rest ih =>
    unfold foldInsertIfAbsent at ih ⊢
    rw [List.foldl_cons]
    by_cases hca : JsMap.contains m (key a) = true
    · rw [JsMap.insertIfAbsent_of_contains _ _ _ hca]
      rcases h with ⟨b, hb, hnb⟩
      rcases List.mem_cons.mp hb with rfl | hb'
      · exact absurd hca hnb
      · exact ih _ ⟨b, hb', hnb⟩
    · have hlen : (JsMap.insertIfAbsent m (key a) a).length = m.length + 1 := by
        rw [JsMap.length_insertIfAbsent]
        simp [hca]
      calc m.length < m.length + 1 := Nat.lt_succ_self _
        _ = (JsMap.insertIfAbsent m (key a) a).length := hlen.symm
        _ ≤ _ := foldInsert_length_le key rest _

/-- One non-switching, non-failing iteration of the speaker pass loop with an
un-tripped signal and speaker mode already entered. -/
theorem speakerPassStep_normal
    (scrape : Nat → FirecrawlExtractionMode → Option PassResult)
    (p : Nat) (st : SpeakerLoopState) (r : PassResult)
    (hse : st.shouldEnterSpeakerMode = true)
    (hr : scrape p .speakerDirectory = some r) :
    speakerPassStep scrape (fun _ => false) p st =
      (if p ≥ MIN_PASSES_BEFORE_PLATEAU_STOP ∧
          (foldInsertIfAbsent speakerAppearanceKey st.uniqueAppearanceMap
            r.appearances).length > 0 ∧
          (if (foldInsertIfAbsent speakerAppearanceKey st.uniqueAppearanceMap
                r.appearances).length - st.uniqueAppearanceMap.length = 0
            then st.consecutiveNoGrowthPasses + 1 else 0)
            ≥ SPEAKER_NO_GROWTH_STOP_PASSES
      then .stop (strategyOutputOfState
        ⟨foldInsertIfAbsent speakerAppearanceKey st.uniqueAppearanceMap r.appearances,
          foldInsertIfAbsent (fun s => s.url) st.sessionRowsByUrl r.sessions,
          st.artifacts ++ [(p, true)],
          (if (foldInsertIfAbsent speakerAppearanceKey st.uniqueAppearanceMap
                r.appearances).length - st.uniqueAppearanceMap.length = 0
            then st.consecutiveNoGrowthPasses + 1 else 0),
          st.failedPasses, true⟩ "plateau_no_growth".toList)
      else .next
        ⟨foldInsertIfAbsent speakerAppearanceKey st.uniqueAppearanceMap r.appearances,
          foldInsertIfAbsent (fun s => s.url) st.sessionRowsByUrl r.sessions,
          st.artifacts ++ [(p, true)],
          (if (foldInsertIfAbsent speakerAppearanceKey st.uniqueAppearanceMap
                r.appearances).length - st.uniqueAppearanceMap.length = 0
            then st.consecutiveNoGrowthPasses + 1 else 0),
          st.failedPasses, true⟩) := by
  unfold speakerPassStep
  simp only [hse, Bool.true_eq_false, ite_false, if_neg]
  simp [hse, hr]

theorem speakerPassStep_next
    (scrape : Nat → FirecrawlExtractionMode → Option PassResult)
    (p : Nat) (st : SpeakerLoopState) (r : PassResult)
    (hse : st.shouldEnterSpeakerMode = true)
    (hr : scrape p .speakerDirectory = some r)
    (hstop : ¬ (p ≥ MIN_PASSES_BEFORE_PLATEAU_STOP ∧
        (foldInsertIfAbsent speakerAppearanceKey st.uniqueAppearanceMap
          r.appearances).length > 0 ∧
        (if (foldInsertIfAbsent speakerAppearanceKey st.uniqueAppearanceMap
              r.appearances).length - st.uniqueAppearanceMap.length = 0
          then st.consecutiveNoGrowthPasses + 1 else 0)
          ≥ SPEAKER_NO_GROWTH_STOP_PASSES)) :
    speakerPassStep scrape (fun _ => false) p st = .next
      ⟨foldInsertIfAbsent speakerAppearanceKey st.uniqueAppearanceMap r.appearances,
        foldInsertIfAbsent (fun s => s.url) st.sessionRowsByUrl r.sessions,
        st.artifacts ++ [(p, true)],
        (if (foldInsertIfAbsent speakerAppearanceKey st.uniqueAppearanceMap
              r.appearances).length - st.uniqueAppearanceMap.length = 0
          then st.consecutiveNoGrowthPasses + 1 else 0),
        st.failedPasses, true⟩ := by
  rw [speakerPassStep_normal scrape p st r hse hr, if_neg hstop]

theorem speakerPassStep_plateau
    (scrape : Nat → FirecrawlExtractionMode → Option PassResult)
    (p : Nat) (st : SpeakerLoopState) (r : PassResult)
    (hse : st.shouldEnterSpeakerMode = true)
    (hr : scrape p .speakerDirectory = some r)
    (hstop : p ≥ MIN_PASSES_BEFORE_PLATEAU_STOP ∧
        (foldInsertIfAbsent speakerAppearanceKey st.uniqueAppearanceMap
          r.appearances).length > 0 ∧
        (if (foldInsertIfAbsent speakerAppearanceKey st.uniqueAppearanceMap
              r.appearances).length - st.uniqueAppearanceMap.length = 0
          then st.consecutiveNoGrowthPasses + 1 else 0)
          ≥ SPEAKER_NO_GROWTH_STOP_PASSES) :
    speakerPassStep scrape (fun _ => false) p st = .stop
      (strategyOutputOfState
        ⟨foldInsertIfAbsent speakerAppearanceKey st.uniqueAppearanceMap r.appearances,
          foldInsertIfAbsent (fun s => s.url) st.sessionRowsByUrl r.sessions,
          st.artifacts ++ [(p, true)],
          (if (foldInsertIfAbsent speakerAppearanceKey st.uniqueAppearanceMap
                r.appearances).length - st.uniqueAppearanceMap.length = 0
            then st.consecutiveNoGrowthPasses + 1 else 0),
          st.failedPasses, true⟩ "plateau_no_growth".toList) := by
  rw [speakerPassStep_normal scrape p st r hse hr, if_pos hstop]

/-- C5: when every pass succeeds, pass 3 still contributes at least one new
unique appearance key, and no pass from pass 4 on contributes any key outside
those of passes 1 to 3, the speaker-directory loop of
`runFirecrawlFallbackStrategy` stops at pass 5 with stop reason
`plateau_no_growth`, having executed exactly passes 1 through 5. -/
theorem plateau_stops_by_pass_five
    (scrape : Nat → FirecrawlExtractionMode → Option PassResult)
    (hsucc : ∀ p, p < 9 → 1 ≤ p → (scrape p .speakerDirectory).isSome = true)
    (hnew3 : ∃ k ∈ passAppearanceKeys (scrape 3 .speakerDirectory),
      ¬ k ∈ passAppearanceKeys (scrape 1 .speakerDirectory) ++
          passAppearanceKeys (scrape 2 .speakerDirectory))
    (hlate : ∀ p, p < 9 → 4 ≤ p →
      ∀ k ∈ passAppearanceKeys (scrape p .speakerDirectory),
        k ∈ passAppearanceKeys (scrape 1 .speakerDirectory) ++
            passAppearanceKeys (scrape 2 .speakerDirectory) ++
            passAppearanceKeys (scrape 3 .speakerDirectory)) :
    ∃ out, runFirecrawlFallbackStrategy (.speakerDirectory, false) scrape
        (fun _ => false) = some out ∧
      out.stopReason = "plateau_no_growth".toList ∧
      out.artifacts = [(1, true), (2, true), (3, true), (4, true), (5, true)] := by
  obtain ⟨r1, hr1⟩ := Option.isSome_iff_exists.mp (hsucc 1 (by omega) (by omega))
  obtain ⟨r2, hr2⟩ := Option.isSome_iff_exists.mp (hsucc 2 (by omega) (by omega))
  obtain ⟨r3, hr3⟩ := Option.isSome_iff_exists.mp (hsucc 3 (by omega) (by omega))
  obtain ⟨r4, hr4⟩ := Option.isSome_iff_exists.mp (hsucc 4 (by omega) (by omega))
  obtain ⟨r5, hr5⟩ := Option.isSome_iff_exists.mp (hsucc 5 (by omega) (by omega))
  set M1 := foldInsertIfAbsent speakerAppearanceKey
    ([] : JsMap Str SpeakerAppearanceExtractedRow) r1.appearances with hM1
  set M2 := foldInsertIfAbsent speakerAppearanceKey M1 r2.appearances with hM2
  set M3 := foldInsertIfAbsent speakerAppearanceKey M2 r3.appearances with hM3
  have hc2 : ∀ k, JsMap.contains M2 k = true ↔
      k ∈ r1.appearances.map speakerAppearanceKey ∨
      k ∈ r2.appearances.map speakerAppearanceKey := by
    intro k
    rw [hM2, foldInsert_contains, hM1, foldInsert_contains]
    simp [JsMap.contains, JsMap.get]
  have h3lt : M2.length < M3.length := by
    obtain ⟨k, hk3, hk12⟩ := hnew3
    rw [hr3] at hk3
    simp only [passAppearanceKeys] at hk3
    rw [hr1, hr2] at hk12
    simp only [passAppearanceKeys, List.mem_append, not_or] at hk12
    obtain ⟨a, ha, hak⟩ := List.mem_map.mp hk3
    rw [hM3]
    refine foldInsert_length_lt _ _ _ ⟨a, ha, ?_⟩
    rw [hak, hc2]
    rintro (h | h)
    · exact hk12.1 h
    · exact hk12.2 h
  have hc3 : ∀ k, JsMap.contains M3 k = true ↔
      k ∈ r1.appearances.map speakerAppearanceKey ∨
      k ∈ r2.appearances.map speakerAppearanceKey ∨
      k ∈ r3.appearances.map speakerAppearanceKey := by
    intro k
    rw [hM3, foldInsert_contains, hc2 k]
    tauto
  have hlate2 : ∀ p, p < 9 → 4 ≤ p → ∀ r, scrape p .speakerDirectory = some r →
      ∀ a ∈ r.appearances,
      JsMap.contains M3 (speakerAppearanceKey a) = true := by
    intro p hp hp4 r hr a ha
    rw [hc3]
    have hmem : speakerAppearanceKey a ∈
        passAppearanceKeys (scrape p .speakerDirectory) := by
      rw [hr]
      simp only [passAppearanceKeys]
      exact List.mem_map_of_mem _ ha
    have hin := hlate p hp hp4 _ hmem
    rw [hr1, hr2, hr3] at hin
    simp only [passAppearanceKeys, List.mem_append] at hin
    tauto
  have h4eq : foldInsertIfAbsent speakerAppearanceKey M3 r4.appearances = M3 :=
    foldInsert_eq_of_all_contains _ _ _ (hlate2 4 (by omega) (by omega) r4 hr4)
  have h5eq : foldInsertIfAbsent speakerAppearanceKey M3 r5.appearances = M3 :=
    foldInsert_eq_of_all_contains _ _ _ (hlate2 5 (by omega) (by omega) r5 hr5)
  have hm3pos : 0 < M3.length := Nat.lt_of_le_of_lt (Nat.zero_le _) h3lt
  have hne3 : ¬ (M3.length - M2.length = 0) := by omega
  have hrun : runFirecrawlFallbackStrategy (.speakerDirectory, false) scrape
      (fun _ => false) = speakerPassLoopGo scrape (fun _ => false) 8 1
      ⟨[], [], [], 0, 0, true⟩ := rfl
  rw [hrun]
  show ∃ out, speakerPassLoopGo scrape (fun _ => false) (7 + 1) 1
      ⟨[], [], [], 0, 0, true⟩ = some out ∧ _
  rw [speakerPassLoopGo]
  rw [speakerPassStep_next scrape 1 ⟨[], [], [], 0, 0, true⟩ r1 rfl hr1
    (fun h => absurd h.1 (by decide))]
  dsimp only
  simp only [List.nil_append, List.length_nil, Nat.sub_zero, Nat.reduceAdd]
  rw [← hM1]
  rw [show (7 : Nat) = 6 + 1 from rfl, speakerPassLoopGo]
  rw [speakerPassStep_next scrape 2 _ r2 rfl hr2
    (fun h => absurd h.1 (by decide))]
  dsimp only
  simp only [List.cons_append, List.nil_append, Nat.reduceAdd]
  rw [← hM2]
  rw [show (6 : Nat) = 5 + 1 from rfl, speakerPassLoopGo]
  rw [speakerPassStep_next scrape 3 _ r3 rfl hr3
    (fun h => absurd h.1 (by decide))]
  dsimp only
  simp only [List.cons_append, List.nil_append, Nat.reduceAdd]
  rw [← hM3]
  rw [if_neg hne3]
  rw [show (5 : Nat) = 4 + 1 from rfl, speakerPassLoopGo]
  rw [speakerPassStep_next scrape 4 _ r4 rfl hr4
    (by
      dsimp only
      rw [h4eq]
      simp [SPEAKER_NO_GROWTH_STOP_PASSES])]
  dsimp only
  simp only [List.cons_append, List.nil_append, Nat.reduceAdd]
  rw [h4eq, Nat.sub_self, if_pos rfl]
  rw [show (4 : Nat) = 3 + 1 from rfl, speakerPassLoopGo]
  rw [speakerPassStep_plateau scrape 5 _ r5 rfl hr5
    (by
      dsimp only
      rw [h5eq]
      refine ⟨by decide, hm3pos, ?_⟩
      rw [Nat.sub_self]
      decide)]
  dsimp only
  refine ⟨_, rfl, rfl, ?_⟩
  simp [strategyOutputOfState]

/-- Witness: a concrete oracle yielding a fresh speaker only on pass 3. -/
theorem plateau_stops_by_pass_five_witness :
    ∃ out, runFirecrawlFallbackStrategy (.speakerDirectory, false)
        plateauScrapeOracle (fun _ => false) = some out ∧
      out.stopReason = "plateau_no_growth".toList ∧
      out.artifacts = [(1, true), (2, true), (3, true), (4, true), (5, true)] :=
  plateau_stops_by_pass_five plateauScrapeOracle (by decide) (by decide)
    (by decide)

/-! ## Claim C8: idempotence of the persist step -/
theorem get_set_cases {κ ν : Type} [DecidableEq κ] (m : JsMap κ ν)
    (key key' : κ) (val w : ν)
    (h : JsMap.get (JsMap.set m key val) key' = some w) :
    (key' = key ∧ w = val) ∨ (key' ≠ key ∧ JsMap.get m key' = some w) := by
  by_cases hk : key' = key
  · subst hk
    rw [JsMap.get_set_self] at h
    exact Or.inl ⟨rfl, (Option.some_inj.mp h).symm⟩
  · rw [JsMap.get_set_ne _ _ _ _ (fun e => hk e.symm)] at h
    exact Or.inr ⟨hk, h⟩

theorem contains_iff_mem_keys {κ ν : Type} [DecidableEq κ]
    (m : JsMap κ ν) (k : κ) :
    JsMap.contains m k = true ↔ k ∈ m.map Prod.fst := by
  induction m with
  | nil => simp [JsMap.contains, JsMap.get]
  | cons kv rest ih =>
    obtain ⟨k0, v0⟩ := kv
    by_cases hk : k0 = k
    · subst hk
      simp [JsMap.contains, JsMap.get_cons]
    · simp only [JsMap.contains, JsMap.get_cons, if_neg hk, List.map_cons,
        List.mem_cons]
      rw [← JsMap.contains]
      rw [ih]
      constructor
      · exact Or.inr
      · rintro (h | h)
        · exact absurd h.symm hk
        · exact h

theorem find?_append_none {α : Type} (l1 l2 : List α) (p : α → Bool)
    (h : l1.find? p = none) : (l1 ++ l2).find? p = l2.find? p := by
  induction l1 with
  | nil => simp
  | cons a rest ih =>
    cases hp : p a with
    | true => rw [List.find?_cons_of_pos _ hp] at h; exact absurd h (by simp)
    | false =>
      rw [List.find?_cons_of_neg _ (by simp [hp])] at h
      rw [List.cons_append, List.find?_cons_of_neg _ (by simp [hp])]
      exact ih h

theorem find?_append_some {α : Type} (l1 l2 : List α) (p : α → Bool) (a : α)
    (h : l1.find? p = some a) : (l1 ++ l2).find? p = some a := by
  induction l1 with
  | nil => simp [List.find?] at h
  | cons b rest ih =>
    cases hp : p b with
    | true =>
      rw [List.find?_cons_of_pos _ hp] at h
      rw [List.cons_append, List.find?_cons_of_pos _ hp]
      exact h
    | false =>
      rw [List.find?_cons_of_neg _ (by simp [hp])] at h
      rw [List.cons_append, List.find?_cons_of_neg _ (by simp [hp])]
      exact ih h

theorem find?_id_of_nodup (l : List DbOrganizationRow) (o : DbOrganizationRow)
    (hnd : (l.map (fun x => x.id)).Nodup) (ho : o ∈ l) :
    l.find? (fun x => decide (x.id = o.id)) = some o := by
  induction l with
  | nil => simp at ho
  | cons b rest ih =>
    simp only [List.map_cons, List.nodup_cons] at hnd
    rcases List.mem_cons.mp ho with rfl | ho'
    · rw [List.find?_cons_of_pos _ (by simp)]
    · cases hp : decide (b.id = o.id) with
      | true =>
        have hbo : b.id = o.id := of_decide_eq_true hp
        exact absurd (hbo ▸ (List.mem_map_of_mem (fun x => x.id) ho')) hnd.1
      | false =>
        rw [List.find?_cons_of_neg _ (by simp [of_decide_eq_false hp])]
        exact ih hnd.2 ho'

theorem find?_id_map (l : List DbOrganizationRow)
    (f : DbOrganizationRow → DbOrganizationRow)
    (hf : ∀ x, (f x).id = x.id) (oid : Nat) :
    (l.map f).find? (fun x => decide (x.id = oid)) =
      (l.find? (fun x => decide (x.id = oid))).map f := by
  induction l with
  | nil => simp
  | cons b rest ih =>
    rw [List.map_cons]
    by_cases hb : b.id = oid
    · rw [List.find?_cons_of_pos _ (by simp [hf, hb]),
        List.find?_cons_of_pos _ (by simp [hb])]
      simp
    · rw [List.find?_cons_of_neg _ (by simp [hf, hb]),
        List.find?_cons_of_neg _ (by simp [hb])]
      exact ih

theorem joinOrg_eq_FindNN (orgs : List DbOrganizationRow) (sp : DbSpeakerRow) :
    joinOrgNormalizedName orgs sp =
      match sp.organizationId with
      | none => none
      | some oid => FindNN orgs oid := by
  unfold joinOrgNormalizedName FindNN
  cases sp.organizationId <;> rfl

theorem joinOrg_stable (orgs1 orgs2 : List DbOrganizationRow)
    (sp : DbSpeakerRow) (bound : Nat)
    (h : ∀ oid, oid < bound → FindNN orgs2 oid = FindNN orgs1 oid)
    (hsp : ∀ oid, sp.organizationId = some oid → oid < bound) :
    joinOrgNormalizedName orgs2 sp = joinOrgNormalizedName orgs1 sp := by
  rw [joinOrg_eq_FindNN, joinOrg_eq_FindNN]
  cases ho : sp.organizationId with
  | none => rfl
  | some oid => exact h oid (hsp oid ho)

theorem normalizeUrlValue_ne_nil (v : Option Str) (p : Str)
    (h : normalizeUrlValue v = some p) : p ≠ [] := by
  unfold normalizeUrlValue at h
  cases v with
  | none => simp at h
  | some s =>
    dsimp only at h
    cases ht : normalizeTextValue (some s) with
    | none => rw [ht] at h; simp at h
    | some t =>
      rw [ht] at h
      dsimp only at h
      cases hp : parseUrl t with
      | none => rw [hp] at h; simp at h
      | some u =>
        rw [hp] at h
        simp only [Option.some_inj] at h
        rw [← h]
        exact urlToString_ne_nil _

theorem normalizeTextValue_of_identity (v : Option Str)
    (h : normalizeIdentityValue v ≠ []) :
    ∃ raw, normalizeTextValue v = some raw := by
  cases v with
  | none => exact absurd rfl h
  | some s =>
    unfold normalizeIdentityValue at h
    by_cases ht : trimStr s = []
    · rw [show normalizeTextValue (some s) = none from by
        simp [normalizeTextValue, ht]] at h
      exact absurd rfl h
    · exact ⟨trimStr s, by simp [normalizeTextValue, ht]⟩

theorem wfOrgs_update_name (db : Db) (r : Str × Str) (hwf : WfOrgs db) :
    WfOrgs { db with organizations := db.organizations.map (fun o =>
      if o.normalizedName = r.2 then { o with name := r.1 } else o) } := by
  constructor
  · simp only [List.map_map]
    have hcomp : ((fun o => o.id) ∘ (fun o : DbOrganizationRow =>
        if o.normalizedName = r.2 then { o with name := r.1 } else o)) =
        (fun o : DbOrganizationRow => o.id) :=
      funext (fun o => by dsimp only [Function.comp]; split <;> rfl)
    rw [hcomp]
    exact hwf.1
  · intro o ho
    obtain ⟨x, hx, rfl⟩ := List.mem_map.mp ho
    have hb := hwf.2 x hx
    dsimp only
    split <;> exact hb

theorem wfOrgs_append (db : Db) (r : Str × Str) (hwf : WfOrgs db) :
    WfOrgs { db with
      organizations := db.organizations ++ [⟨db.nextId, r.1, r.2⟩],
      nextId := db.nextId + 1 } := by
  constructor
  · rw [List.map_append]
    refine List.Nodup.append hwf.1 (by simp) ?_
    intro a ha hb
    simp only [List.map_cons, List.map_nil, List.mem_singleton] at hb
    obtain ⟨x, hx, hxa⟩ := List.mem_map.mp ha
    have := hwf.2 x hx
    omega
  · intro o ho
    rcases List.mem_append.mp ho with h1 | h1
    · exact Nat.lt_succ_of_lt (hwf.2 o h1)
    · simp only [List.mem_singleton] at h1
      rw [h1]
      exact Nat.lt_succ_self _

theorem upsertOrganizationsGo_frame (l : List (Str × Str)) :
    ∀ db : Db, (upsertOrganizationsGo l db).1.speakers = db.speakers ∧
      (upsertOrganizationsGo l db).1.sessions = db.sessions ∧
      (upsertOrganizationsGo l db).1.sessionSpeakers = db.sessionSpeakers ∧
      db.nextId ≤ (upsertOrganizationsGo l db).1.nextId := by
  induction l with
  | nil => intro db; exact ⟨rfl, rfl, rfl, Nat.le_refl _⟩
  | cons r rest ih =>
    intro db
    unfold upsertOrganizationsGo
    cases hf : db.organizations.find? (fun o => decide (o.normalizedName = r.2)) with
    | some found =>
      dsimp only
      exact ih _
    | none =>
      dsimp only
      refine ⟨(ih _).1, (ih _).2.1, (ih _).2.2.1, Nat.le_trans (Nat.le_succ _) ?_⟩
      exact (ih { db with
        organizations := db.organizations ++ [⟨db.nextId, r.1, r.2⟩],
        nextId := db.nextId + 1 }).2.2.2

theorem upsertOrganizationsGo_wf (l : List (Str × Str)) :
    ∀ db : Db, WfOrgs db → WfOrgs (upsertOrganizationsGo l db).1 := by
  induction l with
  | nil => intro db h; exact h
  | cons r rest ih =>
    intro db h
    unfold upsertOrganizationsGo
    cases hf : db.organizations.find? (fun o => decide (o.normalizedName = r.2)) with
    | some found =>
      dsimp only
      exact ih _ (wfOrgs_update_name db r h)
    | none =>
      dsimp only
      exact ih _ (wfOrgs_append db r h)

theorem upsertOrganizationsGo_stable (l : List (Str × Str)) :
    ∀ db : Db, ∀ oid, oid < db.nextId →
      FindNN (upsertOrganizationsGo l db).1.organizations oid =
        FindNN db.organizations oid := by
  induction l with
  | nil => intro db oid _; rfl
  | cons r rest ih =>
    intro db oid hoid
    unfold upsertOrganizationsGo
    cases hf : db.organizations.find? (fun o => decide (o.normalizedName = r.2)) with
    | some found =>
      dsimp only
      rw [ih { db with organizations := db.organizations.map (fun o =>
        if o.normalizedName = r.2 then { o with name := r.1 } else o) } oid hoid]
      unfold FindNN
      rw [find?_id_map _ _ (fun x => by split <;> rfl) oid]
      rw [Option.map_map]
      cases hfind : db.organizations.find? (fun x => decide (x.id = oid)) with
      | none => rfl
      | some x =>
        refine congrArg some ?_
        dsimp only [Function.comp]
        split <;> rfl
    | none =>
      dsimp only
      rw [ih { db with
        organizations := db.organizations ++ [⟨db.nextId, r.1, r.2⟩],
        nextId := db.nextId + 1 } oid (Nat.lt_succ_of_lt hoid)]
      dsimp only
      unfold FindNN
      cases hfind : db.organizations.find? (fun x => decide (x.id = oid)) with
      | some x => rw [find?_append_some _ _ _ _ hfind]
      | none =>
        rw [find?_append_none _ _ _ hfind]
        rw [List.find?_cons_of_neg _ (by simp; omega)]
        rfl

theorem upsertOrganizationsGo_names (l : List (Str × Str)) :
    ∀ db : Db, (upsertOrganizationsGo l db).2.map (fun o => o.normalizedName) =
      l.map Prod.snd := by
  induction l with
  | nil => intro db; rfl
  | cons r rest ih =>
    intro db
    unfold upsertOrganizationsGo
    cases hf : db.organizations.find? (fun o => decide (o.normalizedName = r.2)) with
    | some found =>
      dsimp only
      rw [List.map_cons, ih]
      have hp := List.find?_some hf
      have heq : found.normalizedName = r.2 := of_decide_eq_true hp
      rw [show ({ found with name := r.1 } : DbOrganizationRow).normalizedName =
        found.normalizedName from rfl, heq]
      rfl
    | none =>
      dsimp only
      rw [List.map_cons, ih]
      rfl

theorem upsertOrganizationsGo_rows (l : List (Str × Str)) :
    ∀ db : Db, WfOrgs db →
      ∀ o ∈ (upsertOrganizationsGo l db).2,
        o.id < (upsertOrganizationsGo l db).1.nextId ∧
        FindNN (upsertOrganizationsGo l db).1.organizations o.id =
          some o.normalizedName := by
  induction l with
  | nil => intro db _ o ho; simp [upsertOrganizationsGo] at ho
  | cons r rest ih =>
    intro db hwf o ho
    unfold upsertOrganizationsGo at ho ⊢
    cases hf : db.organizations.find? (fun x => decide (x.normalizedName = r.2)) with
    | some found =>
      rw [hf] at ho
      dsimp only at ho ⊢
      have hfound_mem := List.mem_of_find?_eq_some hf
      rcases List.mem_cons.mp ho with rfl | ho2
      · constructor
        · exact Nat.lt_of_lt_of_le (hwf.2 found hfound_mem)
            (upsertOrganizationsGo_frame rest { db with
              organizations := db.organizations.map (fun o =>
                if o.normalizedName = r.2 then { o with name := r.1 }
                else o) }).2.2.2
        · have h1 := upsertOrganizationsGo_stable rest { db with
            organizations := db.organizations.map (fun o =>
              if o.normalizedName = r.2 then { o with name := r.1 } else o) }
            found.id (hwf.2 found hfound_mem)
          have h2 : FindNN (db.organizations.map (fun o =>
              if o.normalizedName = r.2 then { o with name := r.1 } else o))
              found.id = some found.normalizedName := by
            unfold FindNN
            rw [find?_id_map _ _ (fun x => by split <;> rfl) found.id,
              find?_id_of_nodup db.organizations found hwf.1 hfound_mem]
            dsimp only [Option.map, Option.map_map]
            refine congrArg some ?_
            split <;> rfl
          exact h1.trans h2
      · exact ih _ (wfOrgs_update_name db r hwf) o ho2
    | none =>
      rw [hf] at ho
      dsimp only at ho ⊢
      rcases List.mem_cons.mp ho with rfl | ho2
      · constructor
        · exact Nat.lt_of_lt_of_le (Nat.lt_succ_self _)
            (upsertOrganizationsGo_frame rest { db with
              organizations := db.organizations ++ [⟨db.nextId, r.1, r.2⟩],
              nextId := db.nextId + 1 }).2.2.2
        · have h1 := upsertOrganizationsGo_stable rest { db with
            organizations := db.organizations ++ [⟨db.nextId, r.1, r.2⟩],
            nextId := db.nextId + 1 } db.nextId (Nat.lt_succ_self _)
          have h2 : FindNN (db.organizations ++ [⟨db.nextId, r.1, r.2⟩])
              db.nextId = some r.2 := by
            unfold FindNN
            rw [find?_append_none _ _ _ (List.find?_eq_none.mpr
              (fun x hx => by simp; have := hwf.2 x hx; omega))]
            rw [List.find?_cons_of_pos _ (by simp)]
            rfl
          exact h1.trans h2
      · exact ih _ (wfOrgs_append db r hwf) o ho2

theorem get_buildByProfileUrl_aux (rows : List DbSpeakerRow) :
    ∀ (m0 : JsMap Str DbSpeakerRow) (p : Str) (sp : DbSpeakerRow),
      JsMap.get (rows.foldl (fun m sp =>
        match sp.profileUrl with
        | some p => if p = [] then m else JsMap.set m p sp
        | none => m) m0) p = some sp →
      JsMap.get m0 p = some sp ∨ (sp ∈ rows ∧ sp.profileUrl = some p ∧ p ≠ []) := by
  induction rows with
  | nil => intro m0 p sp h; exact Or.inl h
  | cons r rest ih =>
    intro m0 p sp h
    rw [List.foldl_cons] at h
    rcases ih _ p sp h with h1 | h1
    · cases hq : r.profileUrl with
      | none => rw [hq] at h1; exact Or.inl h1
      | some q =>
        rw [hq] at h1
        dsimp only at h1
        by_cases hqe : q = []
        · rw [if_pos hqe] at h1; exact Or.inl h1
        · rw [if_neg hqe] at h1
          rcases get_set_cases _ _ _ _ _ h1 with ⟨rfl, rfl⟩ | ⟨hne, hget⟩
          · exact Or.inr ⟨List.mem_cons_self _ _, hq, hqe⟩
          · exact Or.inl hget
    · exact Or.inr ⟨List.mem_cons_of_mem _ h1.1, h1.2⟩

theorem get_buildByProfileUrl (rows : List DbSpeakerRow) (p : Str)
    (sp : DbSpeakerRow) (h : JsMap.get (buildByProfileUrl rows) p = some sp) :
    sp ∈ rows ∧ sp.profileUrl = some p ∧ p ≠ [] := by
  unfold buildByProfileUrl at h
  rcases get_buildByProfileUrl_aux rows [] p sp h with h1 | h1
  · exact absurd h1 (by simp [JsMap.get])
  · exact h1

theorem contains_fold_pro_mono (rows : List DbSpeakerRow) :
    ∀ (m0 : JsMap Str DbSpeakerRow) (p : Str),
      JsMap.contains m0 p = true →
      JsMap.contains (rows.foldl (fun m sp =>
        match sp.profileUrl with
        | some p => if p = [] then m else JsMap.set m p sp
        | none => m) m0) p = true := by
  induction rows with
  | nil => intro m0 p h; exact h
  | cons r rest ih =>
    intro m0 p h
    rw [List.foldl_cons]
    apply ih
    cases hq : r.profileUrl with
    | none => exact h
    | some q =>
      dsimp only
      by_cases hqe : q = []
      · rw [if_pos hqe]; exact h
      · rw [if_neg hqe]
        exact (JsMap.contains_set _ _ _ _).mpr (Or.inr h)

theorem contains_fold_pro_of (rows : List DbSpeakerRow) :
    ∀ (m0 : JsMap Str DbSpeakerRow) (sp : DbSpeakerRow) (p : Str),
      sp ∈ rows → sp.profileUrl = some p → p ≠ [] →
      JsMap.contains (rows.foldl (fun m sp =>
        match sp.profileUrl with
        | some p => if p = [] then m else JsMap.set m p sp
        | none => m) m0) p = true := by
  induction rows with
  | nil => intro m0 sp p h; simp at h
  | cons r rest ih =>
    intro m0 sp p hmem hp hne
    rw [List.foldl_cons]
    rcases List.mem_cons.mp hmem with rfl | h2
    · apply contains_fold_pro_mono
      rw [hp]
      dsimp only
      rw [if_neg hne]
      exact (JsMap.contains_set _ _ _ _).mpr (Or.inl rfl)
    · exact ih _ sp p h2 hp hne

theorem contains_buildByProfileUrl_of (rows : List DbSpeakerRow)
    (sp : DbSpeakerRow) (p : Str) (hmem : sp ∈ rows)
    (hp : sp.profileUrl = some p) (hne : p ≠ []) :
    JsMap.contains (buildByProfileUrl rows) p = true := by
  unfold buildByProfileUrl
  exact contains_fold_pro_of rows [] sp p hmem hp hne

theorem get_buildByNameOrg_aux (orgs : List DbOrganizationRow)
    (rows : List DbSpeakerRow) :
    ∀ (m0 : JsMap (Str × Str) DbSpeakerRow) (k : Str × Str) (sp : DbSpeakerRow),
      JsMap.get (rows.foldl (fun m sp =>
        JsMap.set m (sp.normalizedName, (joinOrgNormalizedName orgs sp).getD []) sp)
        m0) k = some sp →
      JsMap.get m0 k = some sp ∨
        (sp ∈ rows ∧
          k = (sp.normalizedName, (joinOrgNormalizedName orgs sp).getD [])) := by
  induction rows with
  | nil => intro m0 k sp h; exact Or.inl h
  | cons r rest ih =>
    intro m0 k sp h
    rw [List.foldl_cons] at h
    rcases ih _ k sp h with h1 | h1
    · rcases get_set_cases _ _ _ _ _ h1 with ⟨hk, rfl⟩ | ⟨hne, hget⟩
      · exact Or.inr ⟨List.mem_cons_self _ _, hk⟩
      · exact Or.inl hget
    · exact Or.inr ⟨List.mem_cons_of_mem _ h1.1, h1.2⟩

theorem get_buildByNameOrg (orgs : List DbOrganizationRow)
    (rows : List DbSpeakerRow) (k : Str × Str) (sp : DbSpeakerRow)
    (h : JsMap.get (buildByNameOrg orgs rows) k = some sp) :
    sp ∈ rows ∧ k = (sp.normalizedName, (joinOrgNormalizedName orgs sp).getD []) := by
  unfold buildByNameOrg at h
  rcases get_buildByNameOrg_aux orgs rows [] k sp h with h1 | h1
  · exact absurd h1 (by simp [JsMap.get])
  · exact h1

theorem contains_fold_nameorg_mono (orgs : List DbOrganizationRow)
    (rows : List DbSpeakerRow) :
    ∀ (m0 : JsMap (Str × Str) DbSpeakerRow) (k : Str × Str),
      JsMap.contains m0 k = true →
      JsMap.contains (rows.foldl (fun m sp =>
        JsMap.set m (sp.normalizedName, (joinOrgNormalizedName orgs sp).getD []) sp)
        m0) k = true := by
  induction rows with
  | nil => intro m0 k h; exact h
  | cons r rest ih =>
    intro m0 k h
    rw [List.foldl_cons]
    exact ih _ _ ((JsMap.contains_set _ _ _ _).mpr (Or.inr h))

theorem contains_fold_nameorg_of (orgs : List DbOrganizationRow)
    (rows : List DbSpeakerRow) :
    ∀ (m0 : JsMap (Str × Str) DbSpeakerRow) (sp : DbSpeakerRow),
      sp ∈ rows →
      JsMap.contains (rows.foldl (fun m sp =>
        JsMap.set m (sp.normalizedName, (joinOrgNormalizedName orgs sp).getD []) sp)
        m0) (sp.normalizedName, (joinOrgNormalizedName orgs sp).getD []) = true := by
  induction rows with
  | nil => intro m0 sp h; simp at h
  | cons r rest ih =>
    intro m0 sp hmem
    rw [List.foldl_cons]
    rcases List.mem_cons.mp hmem with rfl | h2
    · exact contains_fold_nameorg_mono orgs rest _ _
        ((JsMap.contains_set _ _ _ _).mpr (Or.inl rfl))
    · exact ih _ sp h2

theorem contains_buildByNameOrg_of (orgs : List DbOrganizationRow)
    (rows : List DbSpeakerRow) (sp : DbSpeakerRow) (hmem : sp ∈ rows) :
    JsMap.contains (buildByNameOrg orgs rows)
      (sp.normalizedName, (joinOrgNormalizedName orgs sp).getD []) = true := by
  unfold buildByNameOrg
  exact contains_fold_nameorg_of orgs rows [] sp hmem

theorem contains_sessionIdByUrlOf_aux (rows : List DbSessionRow) :
    ∀ (m0 : JsMap Str Nat) (k : Str),
      JsMap.contains (rows.foldl (fun m row => JsMap.set m row.url row.id) m0) k
        = true ↔
      JsMap.contains m0 k = true ∨ k ∈ rows.map (fun r => r.url) := by
  induction rows with
  | nil => intro m0 k; simp
  | cons r rest ih =>
    intro m0 k
    rw [List.foldl_cons, ih, JsMap.contains_set]
    simp only [List.map_cons, List.mem_cons]
    tauto

theorem contains_sessionIdByUrlOf (rows : List DbSessionRow) (k : Str) :
    JsMap.contains (sessionIdByUrlOf rows) k = true ↔
      k ∈ rows.map (fun r => r.url) := by
  unfold sessionIdByUrlOf
  rw [contains_sessionIdByUrlOf_aux]
  simp [JsMap.contains, JsMap.get]

theorem upsertSessionsGo_frame (e : Str) (l : List SessionExtractedRow) :
    ∀ db : Db, (upsertSessionsGo e l db).1.organizations = db.organizations ∧
      (upsertSessionsGo e l db).1.speakers = db.speakers ∧
      (upsertSessionsGo e l db).1.sessionSpeakers = db.sessionSpeakers ∧
      db.nextId ≤ (upsertSessionsGo e l db).1.nextId := by
  induction l with
  | nil => intro db; exact ⟨rfl, rfl, rfl, Nat.le_refl _⟩
  | cons r rest ih =>
    intro db
    unfold upsertSessionsGo
    cases hf : db.sessions.find? (fun s => decide (s.eventId = e ∧ s.url = r.url)) with
    | some found =>
      dsimp only
      exact ih _
    | none =>
      dsimp only
      refine ⟨(ih _).1, (ih _).2.1, (ih _).2.2.1, Nat.le_trans (Nat.le_succ _) ?_⟩
      exact (ih { db with
        sessions := db.sessions ++ [⟨db.nextId, e, r.title, r.url⟩],
        nextId := db.nextId + 1 }).2.2.2

theorem upsertSessionsGo_urls (e : Str) (l : List SessionExtractedRow) :
    ∀ db : Db, (upsertSessionsGo e l db).2.map (fun r => r.url) =
      l.map (fun r => r.url) := by
  induction l with
  | nil => intro db; rfl
  | cons r rest ih =>
    intro db
    unfold upsertSessionsGo
    cases hf : db.sessions.find? (fun s => decide (s.eventId = e ∧ s.url = r.url)) with
    | some found =>
      dsimp only
      rw [List.map_cons, ih]
      have hp := List.find?_some hf
      have heq : found.eventId = e ∧ found.url = r.url := of_decide_eq_true hp
      rw [show ({ found with title := r.title } : DbSessionRow).url =
        found.url from rfl, heq.2]
      rfl
    | none =>
      dsimp only
      rw [List.map_cons, ih]
      rfl

theorem persistStage1_frame (e : Str) (sess : List SessionExtractedRow) (db : Db) :
    (persistStage1 e sess db).1.organizations = db.organizations ∧
    (persistStage1 e sess db).1.speakers = db.speakers ∧
    (persistStage1 e sess db).1.sessionSpeakers = db.sessionSpeakers ∧
    db.nextId ≤ (persistStage1 e sess db).1.nextId := by
  unfold persistStage1
  dsimp only
  split
  · exact upsertSessionsGo_frame e _ db
  · exact ⟨rfl, rfl, rfl, Nat.le_refl _⟩

theorem persistStage1_urls (e : Str) (sess : List SessionExtractedRow) (db : Db) :
    (persistStage1 e sess db).2.map (fun r => r.url) =
      (normalizedSessionsOf sess).map (fun s => s.url) := by
  unfold persistStage1
  dsimp only
  split
  · exact upsertSessionsGo_urls e _ db
  · rename_i h
    have hz : (normalizedSessionsOf sess).length = 0 := by omega
    rw [List.eq_nil_of_length_eq_zero hz]
    rfl

theorem contains_fold_orgpairs_step (apps : List SpeakerAppearanceExtractedRow) :
    ∀ (m0 : JsMap Str Str) (k : Str),
      (JsMap.contains m0 k = true ∨
        (k ≠ [] ∧ ∃ a ∈ apps, normalizeIdentityValue a.organization = k)) →
      JsMap.contains (apps.foldl (fun m appearance =>
        match normalizeTextValue appearance.organization with
        | some rawOrg =>
          if normalizeIdentityValue appearance.organization ≠ [] ∧
              ¬ JsMap.contains m
                (normalizeIdentityValue appearance.organization) = true then
            JsMap.set m (normalizeIdentityValue appearance.organization) rawOrg
          else m
        | none => m) m0) k = true := by
  induction apps with
  | nil =>
    intro m0 k h
    rcases h with h | h
    · exact h
    · obtain ⟨hk, a, ha, hak⟩ := h
      simp at ha
  | cons b rest ih =>
    intro m0 k h
    rw [List.foldl_cons]
    have hstep : ∀ k0, JsMap.contains m0 k0 = true →
        JsMap.contains ((fun m appearance =>
          match normalizeTextValue appearance.organization with
          | some rawOrg =>
            if normalizeIdentityValue appearance.organization ≠ [] ∧
                ¬ JsMap.contains m
                  (normalizeIdentityValue appearance.organization) = true then
              JsMap.set m (normalizeIdentityValue appearance.organization) rawOrg
            else m
          | none => m) m0 b) k0 = true := by
      intro k0 h0
      dsimp only
      cases normalizeTextValue b.organization with
      | none => exact h0
      | some raw =>
        dsimp only
        split
        · exact (JsMap.contains_set _ _ _ _).mpr (Or.inr h0)
        · exact h0
    rcases h with h | ⟨hk, a, ha, hak⟩
    · exact ih _ _ (Or.inl (hstep k h))
    · rcases List.mem_cons.mp ha with rfl | ha2
      · subst hak
        apply ih
        left
        dsimp only
        obtain ⟨raw, hraw⟩ := normalizeTextValue_of_identity a.organization hk
        rw [hraw]
        dsimp only
        by_cases hc : JsMap.contains m0 (normalizeIdentityValue a.organization) = true
        · rw [if_neg (by simp [hc])]
          exact hc
        · rw [if_pos ⟨hk, by simp [hc]⟩]
          exact (JsMap.contains_set _ _ _ _).mpr (Or.inl rfl)
      · exact ih _ _ (Or.inr ⟨hk, a, ha2, hak⟩)

theorem contains_normalizedOrgPairsOf (apps : List SpeakerAppearanceExtractedRow)
    (a : SpeakerAppearanceExtractedRow) (ha : a ∈ apps)
    (hne : normalizeIdentityValue a.organization ≠ []) :
    JsMap.contains (normalizedOrgPairsOf apps)
      (normalizeIdentityValue a.organization) = true := by
  unfold normalizedOrgPairsOf
  exact contains_fold_orgpairs_step apps [] _ (Or.inr ⟨hne, a, ha, rfl⟩)

theorem get_fold_setNN_aux (l : List DbOrganizationRow) :
    ∀ (m0 : JsMap Str DbOrganizationRow) (k : Str) (o : DbOrganizationRow),
      JsMap.get (l.foldl (fun m x => JsMap.set m x.normalizedName x) m0) k
        = some o →
      (o ∈ l ∧ o.normalizedName = k) ∨ JsMap.get m0 k = some o := by
  induction l with
  | nil => intro m0 k o h; exact Or.inr h
  | cons b rest ih =>
    intro m0 k o h
    rw [List.foldl_cons] at h
    rcases ih _ k o h with h1 | h1
    · exact Or.inl ⟨List.mem_cons_of_mem _ h1.1, h1.2⟩
    · rcases get_set_cases _ _ _ _ _ h1 with ⟨hk, rfl⟩ | ⟨hne, hget⟩
      · exact Or.inl ⟨List.mem_cons_self _ _, hk.symm⟩
      · exact Or.inr hget

theorem contains_fold_setNN (l : List DbOrganizationRow) :
    ∀ (m0 : JsMap Str DbOrganizationRow) (k : Str),
      JsMap.contains (l.foldl (fun m x => JsMap.set m x.normalizedName x) m0) k
        = true ↔
      JsMap.contains m0 k = true ∨ ∃ o ∈ l, o.normalizedName = k := by
  induction l with
  | nil => intro m0 k; simp
  | cons b rest ih =>
    intro m0 k
    rw [List.foldl_cons, ih, JsMap.contains_set]
    constructor
    · rintro ((h | h) | h)
      · exact Or.inr ⟨b, List.mem_cons_self _ _, h.symm⟩
      · exact Or.inl h
      · obtain ⟨o, ho, hk⟩ := h
        exact Or.inr ⟨o, List.mem_cons_of_mem _ ho, hk⟩
    · rintro (h | ⟨o, ho, hk⟩)
      · exact Or.inl (Or.inr h)
      · rcases List.mem_cons.mp ho with rfl | ho2
        · exact Or.inl (Or.inl hk.symm)
        · exact Or.inr ⟨o, ho2, hk⟩

theorem persistStage2_frame (apps : List SpeakerAppearanceExtractedRow) (db : Db) :
    (persistStage2 apps db).1.speakers = db.speakers ∧
    (persistStage2 apps db).1.sessions = db.sessions ∧
    (persistStage2 apps db).1.sessionSpeakers = db.sessionSpeakers ∧
    db.nextId ≤ (persistStage2 apps db).1.nextId := by
  unfold persistStage2
  dsimp only
  split
  · exact upsertOrganizationsGo_frame _ db
  · exact ⟨rfl, rfl, rfl, Nat.le_refl _⟩

theorem persistStage2_wf (apps : List SpeakerAppearanceExtractedRow) (db : Db)
    (h : WfOrgs db) : WfOrgs (persistStage2 apps db).1 := by
  unfold persistStage2
  dsimp only
  split
  · exact upsertOrganizationsGo_wf _ db h
  · exact h

theorem persistStage2_stable (apps : List SpeakerAppearanceExtractedRow) (db : Db) :
    ∀ oid, oid < db.nextId →
      FindNN (persistStage2 apps db).1.organizations oid =
        FindNN db.organizations oid := by
  unfold persistStage2
  dsimp only
  intro oid hoid
  split
  · exact upsertOrganizationsGo_stable _ db oid hoid
  · rfl

theorem persistStage2_contains (apps : List SpeakerAppearanceExtractedRow)
    (db : Db) (a : SpeakerAppearanceExtractedRow) (ha : a ∈ apps)
    (hne : normalizeIdentityValue a.organization ≠ []) :
    JsMap.contains (persistStage2 apps db).2
      (normalizeIdentityValue a.organization) = true := by
  have hkey := contains_normalizedOrgPairsOf apps a ha hne
  have hkeys : normalizeIdentityValue a.organization ∈
      (normalizedOrgPairsOf apps).map Prod.fst :=
    (contains_iff_mem_keys _ _).mp hkey
  unfold persistStage2
  dsimp only
  rw [contains_fold_setNN]
  cases hc : JsMap.contains ((db.organizations.filter (fun o =>
      decide (o.normalizedName ∈ (normalizedOrgPairsOf apps).map Prod.fst))).foldl
      (fun m o => JsMap.set m o.normalizedName o) [])
      (normalizeIdentityValue a.organization) with
  | true => exact Or.inl rfl
  | false =>
    right
    have hmiss : normalizeIdentityValue a.organization ∈
        ((normalizedOrgPairsOf apps).map Prod.fst).filter (fun k =>
          ¬ JsMap.contains ((db.organizations.filter (fun o =>
            decide (o.normalizedName ∈ (normalizedOrgPairsOf apps).map Prod.fst))).foldl
            (fun m o => JsMap.set m o.normalizedName o) []) k = true) :=
      List.mem_filter.mpr ⟨hkeys, by simp [hc]⟩
    have hpair : ((JsMap.get (normalizedOrgPairsOf apps)
          (normalizeIdentityValue a.organization)).getD
          (normalizeIdentityValue a.organization),
        normalizeIdentityValue a.organization) ∈
        (((normalizedOrgPairsOf apps).map Prod.fst).filter (fun k =>
          ¬ JsMap.contains ((db.organizations.filter (fun o =>
            decide (o.normalizedName ∈ (normalizedOrgPairsOf apps).map Prod.fst))).foldl
            (fun m o => JsMap.set m o.normalizedName o) []) k = true)).map (fun k =>
          ((JsMap.get (normalizedOrgPairsOf apps) k).getD k, k)) :=
      List.mem_map_of_mem _ hmiss
    rw [if_pos (List.length_pos.mpr (List.ne_nil_of_mem hpair))]
    have hnames := upsertOrganizationsGo_names
      ((((normalizedOrgPairsOf apps).map Prod.fst).filter (fun k =>
        ¬ JsMap.contains ((db.organizations.filter (fun o =>
          decide (o.normalizedName ∈ (normalizedOrgPairsOf apps).map Prod.fst))).foldl
          (fun m o => JsMap.set m o.normalizedName o) []) k = true)).map (fun k =>
        ((JsMap.get (normalizedOrgPairsOf apps) k).getD k, k))) db
    have hksnd : normalizeIdentityValue a.organization ∈
        (upsertOrganizationsGo
          ((((normalizedOrgPairsOf apps).map Prod.fst).filter (fun k =>
            ¬ JsMap.contains ((db.organizations.filter (fun o =>
              decide (o.normalizedName ∈ (normalizedOrgPairsOf apps).map Prod.fst))).foldl
              (fun m o => JsMap.set m o.normalizedName o) []) k = true)).map (fun k =>
            ((JsMap.get (normalizedOrgPairsOf apps) k).getD k, k))) db).2.map
          (fun o => o.normalizedName) := by
      rw [hnames]
      exact List.mem_map.mpr ⟨_, hpair, rfl⟩
    obtain ⟨o, ho, hon⟩ := List.mem_map.mp hksnd
    exact ⟨o, ho, hon⟩

theorem persistStage2_get (apps : List SpeakerAppearanceExtractedRow) (db : Db)
    (hwf : WfOrgs db) (k : Str) (o : DbOrganizationRow)
    (hget : JsMap.get (persistStage2 apps db).2 k = some o) :
    o.normalizedName = k ∧ o.id < (persistStage2 apps db).1.nextId ∧
    FindNN (persistStage2 apps db).1.organizations o.id =
      some o.normalizedName := by
  unfold persistStage2 at hget ⊢
  dsimp only at hget ⊢
  rcases get_fold_setNN_aux _ _ _ _ hget with ⟨ho2, hnn⟩ | hmap0
  · split at ho2
    · rename_i hlen
      rw [if_pos hlen]
      exact ⟨hnn, (upsertOrganizationsGo_rows _ db hwf o ho2).1,
        (upsertOrganizationsGo_rows _ db hwf o ho2).2⟩
    · simp at ho2
  · rcases get_fold_setNN_aux _ _ _ _ hmap0 with ⟨hoe, hnn⟩ | hnil
    · have hmemdb : o ∈ db.organizations := (List.mem_filter.mp hoe).1
      have hid : o.id < db.nextId := hwf.2 o hmemdb
      have hfind : FindNN db.organizations o.id = some o.normalizedName := by
        unfold FindNN
        rw [find?_id_of_nodup db.organizations o hwf.1 hmemdb]
        rfl
      refine ⟨hnn, ?_, ?_⟩
      · split
        · exact Nat.lt_of_lt_of_le hid (upsertOrganizationsGo_frame _ db).2.2.2
        · exact hid
      · split
        · rw [upsertOrganizationsGo_stable _ db o.id hid]
          exact hfind
        · exact hfind
    · exact absurd hnil (by simp [JsMap.get])

theorem keyWitness_mono (e : Str) (orgsF : List DbOrganizationRow)
    (s1 s2 : List DbSpeakerRow) (hsub : ∀ sp ∈ s1, sp ∈ s2)
    (key : SpeakerIdentityKey) (h : keyWitness e orgsF s1 key) :
    keyWitness e orgsF s2 key := by
  cases key with
  | profile p =>
    obtain ⟨sp, hmem, hrest⟩ := h
    exact ⟨sp, hsub sp hmem, hrest⟩
  | nameorg nm og =>
    obtain ⟨sp, hmem, hrest⟩ := h
    exact ⟨sp, hsub sp hmem, hrest⟩

theorem joinOrg_of_orgMap (orgMap : JsMap Str DbOrganizationRow)
    (orgsF : List DbOrganizationRow) (og : Str)
    (horgMap : ∀ k o, k ≠ [] → JsMap.get orgMap k = some o →
      o.normalizedName = k ∧ FindNN orgsF o.id = some o.normalizedName)
    (hcomp : og ≠ [] → JsMap.contains orgMap og = true)
    (sp : DbSpeakerRow)
    (hsp : sp.organizationId =
      if og ≠ [] ∧ JsMap.contains orgMap og = true
      then (JsMap.get orgMap og).map (fun o => o.id) else none) :
    (joinOrgNormalizedName orgsF sp).getD [] = og := by
  rw [joinOrg_eq_FindNN]
  by_cases hog : og = []
  · subst hog
    rw [hsp, if_neg (by simp)]
    rfl
  · have hc := hcomp hog
    rw [hsp, if_pos ⟨hog, hc⟩]
    obtain ⟨o, ho⟩ := (JsMap.contains_iff_get _ _).mp hc
    rw [ho]
    dsimp only [Option.map]
    obtain ⟨hnn, hfind⟩ := horgMap og o hog ho
    rw [hfind, hnn]
    rfl

theorem persistAppearanceStep_inv
    (e : Str) (m : JsMap Str Nat) (orgMap : JsMap Str DbOrganizationRow)
    (orgsF : List DbOrganizationRow) (st : PersistSpeakerState)
    (a : SpeakerAppearanceExtractedRow)
    (horgMap : ∀ k o, k ≠ [] → JsMap.get orgMap k = some o →
      o.normalizedName = k ∧ FindNN orgsF o.id = some o.normalizedName)
    (hcomp : normalizeIdentityValue a.organization ≠ [] →
      JsMap.contains orgMap (normalizeIdentityValue a.organization) = true)
    (hinv : StepInv e orgsF st) :
    StepInv e orgsF (persistAppearanceStep e m orgMap st a) ∧
    (∀ sp ∈ st.db.speakers,
      sp ∈ (persistAppearanceStep e m orgMap st a).db.speakers) ∧
    (appearanceEligible m a →
      JsMap.contains (persistAppearanceStep e m orgMap st a).speakerIdByIdentity
        (lookupKeyOf a) = true) ∧
    (∀ key, JsMap.contains st.speakerIdByIdentity key = true →
      JsMap.contains (persistAppearanceStep e m orgMap st a).speakerIdByIdentity
        key = true) := by
  unfold persistAppearanceStep lookupKeyOf
  cases h1 : normalizeUrlValue (some a.sessionUrl) with
  | none =>
    refine ⟨hinv, fun sp h => h, ?_, fun key h => h⟩
    rintro ⟨nsu, sid, cn, hnsu, _⟩
    rw [h1] at hnsu
    exact absurd hnsu (by simp)
  | some nsu =>
    try dsimp only
    cases h2 : JsMap.get m nsu with
    | none =>
      refine ⟨hinv, fun sp h => h, ?_, fun key h => h⟩
      rintro ⟨nsu2, sid, cn, hnsu, hsid, _⟩
      rw [h1] at hnsu
      have hns : nsu2 = nsu := by
        have := hnsu.symm
        simpa using this
      rw [hns, h2] at hsid
      exact absurd hsid (by simp)
    | some sessionId =>
      try dsimp only
      cases h3 : normalizeTextValue (some a.name) with
      | none =>
        refine ⟨hinv, fun sp h => h, ?_, fun key h => h⟩
        rintro ⟨nsu2, sid, cn, hnsu, hsid, hcn, _⟩
        rw [h3] at hcn
        exact absurd hcn (by simp)
      | some canonicalName =>
        try dsimp only
        by_cases h4 : normalizeIdentityValue (some a.name) = []
        · rw [if_pos h4]
          refine ⟨hinv, fun sp h => h, ?_, fun key h => h⟩
          rintro ⟨nsu2, sid, cn, hnsu, hsid, hcn, hne⟩
          exact absurd h4 hne
        · rw [if_neg h4]
          try dsimp only
          cases hpro : normalizeUrlValue a.profileUrl with
          | some p =>
            try dsimp only
            have hpne : p ≠ [] := normalizeUrlValue_ne_nil _ _ hpro
            cases h5 : JsMap.get st.speakerIdByIdentity
                (SpeakerIdentityKey.profile p) with
            | some speakerId =>
              try dsimp only
              refine ⟨⟨hinv.pro, hinv.nameorg, hinv.idmap⟩,
                fun sp h => h, ?_, fun key h => h⟩
              intro _
              unfold JsMap.contains
              rw [h5]
              rfl
            | none =>
              try dsimp only
              cases h6 : JsMap.get st.byProfileUrl p with
              | some speaker =>
                try dsimp only
                refine ⟨⟨hinv.pro, hinv.nameorg, ?_⟩, fun sp h => h, ?_, ?_⟩
                · intro key i hget
                  rcases get_set_cases _ _ _ _ _ hget with ⟨rfl, _⟩ | ⟨hne, hold⟩
                  · obtain ⟨hm, he, hp2, hq⟩ := hinv.pro p speaker h6
                    exact ⟨speaker, hm, he, hp2, hq⟩
                  · exact hinv.idmap key i hold
                · intro _
                  exact (JsMap.contains_set _ _ _ _).mpr (Or.inl rfl)
                · intro key h
                  exact (JsMap.contains_set _ _ _ _).mpr (Or.inr h)
              | none =>
                try dsimp only
                rw [if_neg hpne]
                have horg : ∀ sp : DbSpeakerRow, sp.organizationId =
                    (if normalizeIdentityValue a.organization ≠ [] ∧
                        JsMap.contains orgMap
                          (normalizeIdentityValue a.organization) = true
                      then (JsMap.get orgMap
                        (normalizeIdentityValue a.organization)).map (fun o => o.id)
                      else none) →
                    (joinOrgNormalizedName orgsF sp).getD [] =
                      normalizeIdentityValue a.organization :=
                  fun sp hsp => joinOrg_of_orgMap orgMap orgsF _ horgMap hcomp sp hsp
                refine ⟨⟨?_, ?_, ?_⟩, ?_, ?_, ?_⟩
                · intro q sp hget
                  rcases get_set_cases _ _ _ _ _ hget with ⟨rfl, rfl⟩ | ⟨hne, hold⟩
                  · exact ⟨List.mem_append.mpr (Or.inr (List.mem_singleton_self _)), rfl, rfl, hpne⟩
                  · obtain ⟨hm, he, hp2, hq⟩ := hinv.pro q sp hold
                    exact ⟨List.mem_append_left _ hm, he, hp2, hq⟩
                · intro nm og sp hget
                  rcases get_set_cases _ _ _ _ _ hget with ⟨hk, rfl⟩ | ⟨hne, hold⟩
                  · rw [Prod.mk.injEq] at hk
                    obtain ⟨hnm, hog⟩ := hk
                    subst hnm
                    subst hog
                    exact ⟨List.mem_append.mpr (Or.inr (List.mem_singleton_self _)),
                      rfl, rfl, horg _ rfl⟩
                  · obtain ⟨hm, he, hnm, hog⟩ := hinv.nameorg nm og sp hold
                    exact ⟨List.mem_append_left _ hm, he, hnm, hog⟩
                · intro key i hget
                  rcases get_set_cases _ _ _ _ _ hget with ⟨rfl, _⟩ | ⟨hne, hold⟩
                  · exact ⟨_, List.mem_append.mpr (Or.inr (List.mem_singleton_self _)), rfl, rfl, hpne⟩
                  · exact keyWitness_mono e orgsF _ _
                      (fun sp h => List.mem_append_left _ h) key
                      (hinv.idmap key i hold)
                · exact fun sp h => List.mem_append_left _ h
                · intro _
                  exact (JsMap.contains_set _ _ _ _).mpr (Or.inl rfl)
                · intro key h
                  exact (JsMap.contains_set _ _ _ _).mpr (Or.inr h)
          | none =>
            try dsimp only
            cases h5 : JsMap.get st.speakerIdByIdentity
                (SpeakerIdentityKey.nameorg (normalizeIdentityValue (some a.name))
                  (normalizeIdentityValue a.organization)) with
            | some speakerId =>
              try dsimp only
              refine ⟨⟨hinv.pro, hinv.nameorg, hinv.idmap⟩,
                fun sp h => h, ?_, fun key h => h⟩
              intro _
              unfold JsMap.contains
              rw [h5]
              rfl
            | none =>
              try dsimp only
              cases h6 : JsMap.get st.byNameOrg
                  (normalizeIdentityValue (some a.name),
                    normalizeIdentityValue a.organization) with
              | some speaker =>
                try dsimp only
                refine ⟨⟨hinv.pro, hinv.nameorg, ?_⟩, fun sp h => h, ?_, ?_⟩
                · intro key i hget
                  rcases get_set_cases _ _ _ _ _ hget with ⟨rfl, _⟩ | ⟨hne, hold⟩
                  · obtain ⟨hm, he, hnm, hog⟩ := hinv.nameorg _ _ speaker h6
                    exact ⟨speaker, hm, he, hnm, hog⟩
                  · exact hinv.idmap key i hold
                · intro _
                  exact (JsMap.contains_set _ _ _ _).mpr (Or.inl rfl)
                · intro key h
                  exact (JsMap.contains_set _ _ _ _).mpr (Or.inr h)
              | none =>
                try dsimp only
                have horg : ∀ sp : DbSpeakerRow, sp.organizationId =
                    (if normalizeIdentityValue a.organization ≠ [] ∧
                        JsMap.contains orgMap
                          (normalizeIdentityValue a.organization) = true
                      then (JsMap.get orgMap
                        (normalizeIdentityValue a.organization)).map (fun o => o.id)
                      else none) →
                    (joinOrgNormalizedName orgsF sp).getD [] =
                      normalizeIdentityValue a.organization :=
                  fun sp hsp => joinOrg_of_orgMap orgMap orgsF _ horgMap hcomp sp hsp
                refine ⟨⟨?_, ?_, ?_⟩, ?_, ?_, ?_⟩
                · intro q sp hget
                  obtain ⟨hm, he, hp2, hq⟩ := hinv.pro q sp hget
                  exact ⟨List.mem_append_left _ hm, he, hp2, hq⟩
                · intro nm og sp hget
                  rcases get_set_cases _ _ _ _ _ hget with ⟨hk, rfl⟩ | ⟨hne, hold⟩
                  · rw [Prod.mk.injEq] at hk
                    obtain ⟨hnm, hog⟩ := hk
                    subst hnm
                    subst hog
                    exact ⟨List.mem_append.mpr (Or.inr (List.mem_singleton_self _)),
                      rfl, rfl, horg _ rfl⟩
                  · obtain ⟨hm, he, hnm, hog⟩ := hinv.nameorg nm og sp hold
                    exact ⟨List.mem_append_left _ hm, he, hnm, hog⟩
                · intro key i hget
                  rcases get_set_cases _ _ _ _ _ hget with ⟨rfl, _⟩ | ⟨hne, hold⟩
                  · exact ⟨_, List.mem_append.mpr (Or.inr (List.mem_singleton_self _)), rfl, rfl,
                      horg _ rfl⟩
                  · exact keyWitness_mono e orgsF _ _
                      (fun sp h => List.mem_append_left _ h) key
                      (hinv.idmap key i hold)
                · exact fun sp h => List.mem_append_left _ h
                · intro _
                  exact (JsMap.contains_set _ _ _ _).mpr (Or.inl rfl)
                · intro key h
                  exact (JsMap.contains_set _ _ _ _).mpr (Or.inr h)

theorem persistAppearanceStep_frame (e : Str) (m : JsMap Str Nat)
    (orgMap : JsMap Str DbOrganizationRow) (st : PersistSpeakerState)
    (a : SpeakerAppearanceExtractedRow) :
    (persistAppearanceStep e m orgMap st a).db.organizations =
      st.db.organizations ∧
    (persistAppearanceStep e m orgMap st a).db.sessions = st.db.sessions ∧
    (persistAppearanceStep e m orgMap st a).db.sessionSpeakers =
      st.db.sessionSpeakers ∧
    st.db.nextId ≤ (persistAppearanceStep e m orgMap st a).db.nextId ∧
    (∀ sp ∈ st.db.speakers,
      sp ∈ (persistAppearanceStep e m orgMap st a).db.speakers) ∧
    (∀ key, JsMap.contains st.speakerIdByIdentity key = true →
      JsMap.contains (persistAppearanceStep e m orgMap st a).speakerIdByIdentity
        key = true) := by
  unfold persistAppearanceStep
  cases h1 : normalizeUrlValue (some a.sessionUrl) with
  | none => exact ⟨rfl, rfl, rfl, Nat.le_refl _, fun sp h => h, fun key h => h⟩
  | some nsu =>
    try dsimp only
    cases h2 : JsMap.get m nsu with
    | none => exact ⟨rfl, rfl, rfl, Nat.le_refl _, fun sp h => h, fun key h => h⟩
    | some sessionId =>
      try dsimp only
      cases h3 : normalizeTextValue (some a.name) with
      | none => exact ⟨rfl, rfl, rfl, Nat.le_refl _, fun sp h => h, fun key h => h⟩
      | some canonicalName =>
        try dsimp only
        by_cases h4 : normalizeIdentityValue (some a.name) = []
        · rw [if_pos h4]
          exact ⟨rfl, rfl, rfl, Nat.le_refl _, fun sp h => h, fun key h => h⟩
        · rw [if_neg h4]
          try dsimp only
          cases hpro : normalizeUrlValue a.profileUrl with
          | some p =>
            try dsimp only
            cases h5 : JsMap.get st.speakerIdByIdentity
                (SpeakerIdentityKey.profile p) with
            | some speakerId =>
              exact ⟨rfl, rfl, rfl, Nat.le_refl _, fun sp h => h, fun key h => h⟩
            | none =>
              try dsimp only
              cases h6 : JsMap.get st.byProfileUrl p with
              | some speaker =>
                exact ⟨rfl, rfl, rfl, Nat.le_refl _, fun sp h => h,
                  fun key h => (JsMap.contains_set _ _ _ _).mpr (Or.inr h)⟩
              | none =>
                exact ⟨rfl, rfl, rfl, Nat.le_succ _,
                  fun sp h => List.mem_append_left _ h,
                  fun key h => (JsMap.contains_set _ _ _ _).mpr (Or.inr h)⟩
          | none =>
            try dsimp only
            cases h5 : JsMap.get st.speakerIdByIdentity
                (SpeakerIdentityKey.nameorg (normalizeIdentityValue (some a.name))
                  (normalizeIdentityValue a.organization)) with
            | some speakerId =>
              exact ⟨rfl, rfl, rfl, Nat.le_refl _, fun sp h => h, fun key h => h⟩
            | none =>
              try dsimp only
              cases h6 : JsMap.get st.byNameOrg
                  (normalizeIdentityValue (some a.name),
                    normalizeIdentityValue a.organization) with
              | some speaker =>
                exact ⟨rfl, rfl, rfl, Nat.le_refl _, fun sp h => h,
                  fun key h => (JsMap.contains_set _ _ _ _).mpr (Or.inr h)⟩
              | none =>
                exact ⟨rfl, rfl, rfl, Nat.le_succ _,
                  fun sp h => List.mem_append_left _ h,
                  fun key h => (JsMap.contains_set _ _ _ _).mpr (Or.inr h)⟩

theorem persistFold_frame (e : Str) (m : JsMap Str Nat)
    (orgMap : JsMap Str DbOrganizationRow)
    (apps : List SpeakerAppearanceExtractedRow) :
    ∀ st : PersistSpeakerState,
      (apps.foldl (persistAppearanceStep e m orgMap) st).db.organizations =
        st.db.organizations ∧
      (apps.foldl (persistAppearanceStep e m orgMap) st).db.sessions =
        st.db.sessions ∧
      (apps.foldl (persistAppearanceStep e m orgMap) st).db.sessionSpeakers =
        st.db.sessionSpeakers ∧
      st.db.nextId ≤ (apps.foldl (persistAppearanceStep e m orgMap) st).db.nextId ∧
      (∀ sp ∈ st.db.speakers,
        sp ∈ (apps.foldl (persistAppearanceStep e m orgMap) st).db.speakers) ∧
      (∀ key, JsMap.contains st.speakerIdByIdentity key = true →
        JsMap.contains
          (apps.foldl (persistAppearanceStep e m orgMap) st).speakerIdByIdentity
          key = true) := by
  induction apps with
  | nil =>
    intro st
    exact ⟨rfl, rfl, rfl, Nat.le_refl _, fun sp h => h, fun key h => h⟩
  | cons a rest ih =>
    intro st
    rw [List.foldl_cons]
    obtain ⟨f1, f2, f3, f4, f5, f6⟩ :=
      persistAppearanceStep_frame e m orgMap st a
    obtain ⟨g1, g2, g3, g4, g5, g6⟩ := ih (persistAppearanceStep e m orgMap st a)
    exact ⟨g1.trans f1, g2.trans f2, g3.trans f3, Nat.le_trans f4 g4,
      fun sp h => g5 sp (f5 sp h), fun key h => g6 key (f6 key h)⟩

theorem persistFold_inv
    (e : Str) (m : JsMap Str Nat) (orgMap : JsMap Str DbOrganizationRow)
    (orgsF : List DbOrganizationRow) (apps : List SpeakerAppearanceExtractedRow) :
    ∀ st : PersistSpeakerState, StepInv e orgsF st →
      (∀ k o, k ≠ [] → JsMap.get orgMap k = some o →
        o.normalizedName = k ∧ FindNN orgsF o.id = some o.normalizedName) →
      (∀ a ∈ apps, normalizeIdentityValue a.organization ≠ [] →
        JsMap.contains orgMap (normalizeIdentityValue a.organization) = true) →
      StepInv e orgsF (apps.foldl (persistAppearanceStep e m orgMap) st) ∧
      (∀ a ∈ apps, appearanceEligible m a →
        JsMap.contains
          (apps.foldl (persistAppearanceStep e m orgMap) st).speakerIdByIdentity
          (lookupKeyOf a) = true) := by
  induction apps with
  | nil =>
    intro st hinv _ _
    exact ⟨hinv, by simp⟩
  | cons a rest ih =>
    intro st hinv horgMap hcomp
    rw [List.foldl_cons]
    obtain ⟨hinv1, _, helig1, _⟩ :=
      persistAppearanceStep_inv e m orgMap orgsF st a horgMap
        (hcomp a (List.mem_cons_self _ _)) hinv
    obtain ⟨hinvF, heligF⟩ :=
      ih (persistAppearanceStep e m orgMap st a) hinv1 horgMap
        (fun b hb => hcomp b (List.mem_cons_of_mem _ hb))
    refine ⟨hinvF, ?_⟩
    intro b hb helig
    rcases List.mem_cons.mp hb with rfl | hb2
    · exact (persistFold_frame e m orgMap rest _).2.2.2.2.2 _ (helig1 helig)
    · exact heligF b hb2 helig

theorem persistAppearanceStep_noinsert
    (e : Str) (m : JsMap Str Nat) (orgMap : JsMap Str DbOrganizationRow)
    (st : PersistSpeakerState) (a : SpeakerAppearanceExtractedRow)
    (hmatch : appearanceEligible m a →
      (match lookupKeyOf a with
        | .profile p => JsMap.contains st.byProfileUrl p = true
        | .nameorg nm og => JsMap.contains st.byNameOrg (nm, og) = true)) :
    (persistAppearanceStep e m orgMap st a).db.speakers = st.db.speakers ∧
    (persistAppearanceStep e m orgMap st a).byProfileUrl = st.byProfileUrl ∧
    (persistAppearanceStep e m orgMap st a).byNameOrg = st.byNameOrg := by
  unfold persistAppearanceStep
  cases h1 : normalizeUrlValue (some a.sessionUrl) with
  | none => exact ⟨rfl, rfl, rfl⟩
  | some nsu =>
    try dsimp only
    cases h2 : JsMap.get m nsu with
    | none => exact ⟨rfl, rfl, rfl⟩
    | some sessionId =>
      try dsimp only
      cases h3 : normalizeTextValue (some a.name) with
      | none => exact ⟨rfl, rfl, rfl⟩
      | some canonicalName =>
        try dsimp only
        by_cases h4 : normalizeIdentityValue (some a.name) = []
        · rw [if_pos h4]
          exact ⟨rfl, rfl, rfl⟩
        · rw [if_neg h4]
          try dsimp only
          have hm := hmatch ⟨nsu, sessionId, canonicalName, h1, h2, h3, h4⟩
          unfold lookupKeyOf at hm
          cases hpro : normalizeUrlValue a.profileUrl with
          | some p =>
            rw [hpro] at hm
            dsimp only at hm
            try dsimp only
            cases h5 : JsMap.get st.speakerIdByIdentity
                (SpeakerIdentityKey.profile p) with
            | some speakerId => exact ⟨rfl, rfl, rfl⟩
            | none =>
              try dsimp only
              cases h6 : JsMap.get st.byProfileUrl p with
              | some speaker => exact ⟨rfl, rfl, rfl⟩
              | none =>
                unfold JsMap.contains at hm
                rw [h6] at hm
                exact absurd hm (by simp)
          | none =>
            rw [hpro] at hm
            dsimp only at hm
            try dsimp only
            cases h5 : JsMap.get st.speakerIdByIdentity
                (SpeakerIdentityKey.nameorg (normalizeIdentityValue (some a.name))
                  (normalizeIdentityValue a.organization)) with
            | some speakerId => exact ⟨rfl, rfl, rfl⟩
            | none =>
              try dsimp only
              cases h6 : JsMap.get st.byNameOrg
                  (normalizeIdentityValue (some a.name),
                    normalizeIdentityValue a.organization) with
              | some speaker => exact ⟨rfl, rfl, rfl⟩
              | none =>
                unfold JsMap.contains at hm
                rw [h6] at hm
                exact absurd hm (by simp)

theorem persistFold_noinsert
    (e : Str) (m : JsMap Str Nat) (orgMap : JsMap Str DbOrganizationRow)
    (apps : List SpeakerAppearanceExtractedRow) :
    ∀ st : PersistSpeakerState,
      (∀ a ∈ apps, appearanceEligible m a →
        (match lookupKeyOf a with
          | .profile p => JsMap.contains st.byProfileUrl p = true
          | .nameorg nm og => JsMap.contains st.byNameOrg (nm, og) = true)) →
      (apps.foldl (persistAppearanceStep e m orgMap) st).db.speakers =
        st.db.speakers := by
  induction apps with
  | nil => intro st _; rfl
  | cons a rest ih =>
    intro st hmatch
    rw [List.foldl_cons]
    obtain ⟨hsp, hbp, hbn⟩ := persistAppearanceStep_noinsert e m orgMap st a
      (hmatch a (List.mem_cons_self _ _))
    have hrest := ih (persistAppearanceStep e m orgMap st a) (fun b hb helig => by
      have h0 := hmatch b (List.mem_cons_of_mem _ hb) helig
      cases hlk : lookupKeyOf b with
      | profile p =>
        rw [hlk] at h0
        dsimp only at h0 ⊢
        rw [hbp]
        exact h0
      | nameorg nm og =>
        rw [hlk] at h0
        dsimp only at h0 ⊢
        rw [hbn]
        exact h0)
    rw [hrest, hsp]

theorem upsertSessionSpeakersGo_frame (l : List DbSessionSpeakerRow) :
    ∀ db : Db, (upsertSessionSpeakersGo l db).speakers = db.speakers ∧
      (upsertSessionSpeakersGo l db).organizations = db.organizations ∧
      (upsertSessionSpeakersGo l db).sessions = db.sessions ∧
      (upsertSessionSpeakersGo l db).nextId = db.nextId := by
  induction l with
  | nil => intro db; exact ⟨rfl, rfl, rfl, rfl⟩
  | cons r rest ih =>
    intro db
    unfold upsertSessionSpeakersGo
    dsimp only
    split
    · exact ih _
    · exact ih _

theorem appearanceEligible_transfer (m1 m2 : JsMap Str Nat)
    (a : SpeakerAppearanceExtractedRow)
    (h : ∀ k, JsMap.contains m2 k = true ↔ JsMap.contains m1 k = true)
    (he : appearanceEligible m2 a) : appearanceEligible m1 a := by
  obtain ⟨nsu, sid, cn, h1, h2, h3, h4⟩ := he
  have hc : JsMap.contains m1 nsu = true :=
    (h nsu).mp (by simp [JsMap.contains, h2])
  obtain ⟨sid2, h2b⟩ := (JsMap.contains_iff_get _ _).mp hc
  exact ⟨nsu, sid2, cn, h1, h2b, h3, h4⟩

theorem persistStage3_eq (e : Str) (m : JsMap Str Nat)
    (om : JsMap Str DbOrganizationRow)
    (apps : List SpeakerAppearanceExtractedRow) (db2 : Db) :
    persistStage3 e m om apps db2 =
      apps.foldl (persistAppearanceStep e m om)
        ⟨db2, [],
          buildByProfileUrl (db2.speakers.filter (fun sp => decide (sp.eventId = e))),
          buildByNameOrg db2.organizations
            (db2.speakers.filter (fun sp => decide (sp.eventId = e))), []⟩ := rfl

theorem persistStage3_orgs (e : Str) (m : JsMap Str Nat)
    (om : JsMap Str DbOrganizationRow)
    (apps : List SpeakerAppearanceExtractedRow) (db2 : Db) :
    (persistStage3 e m om apps db2).db.organizations = db2.organizations := by
  rw [persistStage3_eq]
  exact (persistFold_frame e m om apps _).1

theorem persistStage3_nextId (e : Str) (m : JsMap Str Nat)
    (om : JsMap Str DbOrganizationRow)
    (apps : List SpeakerAppearanceExtractedRow) (db2 : Db) :
    db2.nextId ≤ (persistStage3 e m om apps db2).db.nextId := by
  rw [persistStage3_eq]
  exact (persistFold_frame e m om apps
    ⟨db2, [],
      buildByProfileUrl (db2.speakers.filter (fun sp => decide (sp.eventId = e))),
      buildByNameOrg db2.organizations
        (db2.speakers.filter (fun sp => decide (sp.eventId = e))),
      []⟩).2.2.2.1

theorem persist_db_speakers (db0 : Db) (e : Str)
    (sess : List SessionExtractedRow)
    (apps : List SpeakerAppearanceExtractedRow) :
    (persistExtractedConferenceDataInDb db0 e sess apps).1.speakers =
      (persistStage3 e (sessionIdByUrlOf (persistStage1 e sess db0).2)
        (persistStage2 apps (persistStage1 e sess db0).1).2 apps
        (persistStage2 apps (persistStage1 e sess db0).1).1).db.speakers := by
  unfold persistExtractedConferenceDataInDb
  dsimp only
  split
  · exact (upsertSessionSpeakersGo_frame _ _).1
  · rfl

theorem persist_db_organizations (db0 : Db) (e : Str)
    (sess : List SessionExtractedRow)
    (apps : List SpeakerAppearanceExtractedRow) :
    (persistExtractedConferenceDataInDb db0 e sess apps).1.organizations =
      (persistStage2 apps (persistStage1 e sess db0).1).1.organizations := by
  unfold persistExtractedConferenceDataInDb
  dsimp only
  split
  · exact ((upsertSessionSpeakersGo_frame _ _).2.1).trans
      (persistStage3_orgs _ _ _ _ _)
  · exact persistStage3_orgs _ _ _ _ _

theorem persist_nextId_ge (db0 : Db) (e : Str)
    (sess : List SessionExtractedRow)
    (apps : List SpeakerAppearanceExtractedRow) :
    (persistStage2 apps (persistStage1 e sess db0).1).1.nextId ≤
      (persistExtractedConferenceDataInDb db0 e sess apps).1.nextId := by
  unfold persistExtractedConferenceDataInDb
  dsimp only
  split
  · exact Nat.le_trans (persistStage3_nextId _ _ _ _ _)
      (Nat.le_of_eq ((upsertSessionSpeakersGo_frame _ _).2.2.2).symm)
  · exact persistStage3_nextId _ _ _ _ _

theorem persist_usf (db0 : Db) (e : Str) (sess : List SessionExtractedRow)
    (apps : List SpeakerAppearanceExtractedRow) :
    (persistExtractedConferenceDataInDb db0 e sess apps).2.uniqueSpeakersFound =
      ((persistExtractedConferenceDataInDb db0 e sess apps).1.speakers.filter
        (fun sp => decide (sp.eventId = e))).length := rfl

theorem persist_first_run_witnesses
    (db0 : Db) (e : Str) (sess : List SessionExtractedRow)
    (apps : List SpeakerAppearanceExtractedRow)
    (orgsF : List DbOrganizationRow)
    (hwf : WfOrgs db0)
    (hrefs : ∀ sp ∈ db0.speakers, ∀ oid, sp.organizationId = some oid →
      oid < db0.nextId)
    (hstable : ∀ oid,
      oid < (persistExtractedConferenceDataInDb db0 e sess apps).1.nextId →
      FindNN orgsF oid =
        FindNN (persistExtractedConferenceDataInDb db0 e sess apps).1.organizations
          oid) :
    ∀ a ∈ apps,
      appearanceEligible (sessionIdByUrlOf (persistStage1 e sess db0).2) a →
      keyWitness e orgsF
        (persistExtractedConferenceDataInDb db0 e sess apps).1.speakers
        (lookupKeyOf a) := by
  have hs1 := persistStage1_frame e sess db0
  have hwf1 : WfOrgs (persistStage1 e sess db0).1 := by
    refine ⟨?_, ?_⟩
    · rw [hs1.1]
      exact hwf.1
    · intro o ho
      rw [hs1.1] at ho
      exact Nat.lt_of_lt_of_le (hwf.2 o ho) hs1.2.2.2
  have hs2 := persistStage2_frame apps (persistStage1 e sess db0).1
  have hnext01 : db0.nextId ≤
      (persistStage2 apps (persistStage1 e sess db0).1).1.nextId :=
    Nat.le_trans hs1.2.2.2 hs2.2.2.2
  have horgs_eq := persist_db_organizations db0 e sess apps
  have hnext2p := persist_nextId_ge db0 e sess apps
  have hstable2 : ∀ oid,
      oid < (persistStage2 apps (persistStage1 e sess db0).1).1.nextId →
      FindNN orgsF oid =
        FindNN (persistStage2 apps (persistStage1 e sess db0).1).1.organizations
          oid := by
    intro oid hoid
    rw [← horgs_eq]
    exact hstable oid (Nat.lt_of_lt_of_le hoid hnext2p)
  have hOM : ∀ k o, k ≠ [] →
      JsMap.get (persistStage2 apps (persistStage1 e sess db0).1).2 k = some o →
      o.normalizedName = k ∧ FindNN orgsF o.id = some o.normalizedName := by
    intro k o hk hget
    obtain ⟨hnn, hid, hfind⟩ :=
      persistStage2_get apps (persistStage1 e sess db0).1 hwf1 k o hget
    exact ⟨hnn, (hstable2 o.id hid).trans hfind⟩
  have hC : ∀ b ∈ apps, normalizeIdentityValue b.organization ≠ [] →
      JsMap.contains (persistStage2 apps (persistStage1 e sess db0).1).2
        (normalizeIdentityValue b.organization) = true :=
    fun b hb hbn => persistStage2_contains apps (persistStage1 e sess db0).1 b hb hbn
  have hsp02 : (persistStage2 apps (persistStage1 e sess db0).1).1.speakers =
      db0.speakers := hs2.1.trans hs1.2.1
  have hjoin_stable : ∀ sp ∈ db0.speakers,
      joinOrgNormalizedName orgsF sp =
        joinOrgNormalizedName
          (persistStage2 apps (persistStage1 e sess db0).1).1.organizations sp := by
    intro sp hsp
    refine joinOrg_stable _ _ sp db0.nextId ?_ ?_
    · intro oid hoid
      exact hstable2 oid (Nat.lt_of_lt_of_le hoid hnext01)
    · exact fun oid h => hrefs sp hsp oid h
  have hinv0 : StepInv e orgsF
      ⟨(persistStage2 apps (persistStage1 e sess db0).1).1, [],
        buildByProfileUrl
          ((persistStage2 apps (persistStage1 e sess db0).1).1.speakers.filter
            (fun sp => decide (sp.eventId = e))),
        buildByNameOrg
          (persistStage2 apps (persistStage1 e sess db0).1).1.organizations
          ((persistStage2 apps (persistStage1 e sess db0).1).1.speakers.filter
            (fun sp => decide (sp.eventId = e))), []⟩ := by
    refine ⟨?_, ?_, ?_⟩
    · intro p sp hget
      have h := get_buildByProfileUrl _ p sp hget
      have hm := List.mem_filter.mp h.1
      exact ⟨hm.1, of_decide_eq_true hm.2, h.2.1, h.2.2⟩
    · intro nm og sp hget
      have h := get_buildByNameOrg _ _ _ sp hget
      have hm := List.mem_filter.mp h.1
      have hsp0 : sp ∈ db0.speakers := hsp02 ▸ hm.1
      rw [Prod.mk.injEq] at h
      refine ⟨hm.1, of_decide_eq_true hm.2, h.2.1.symm, ?_⟩
      rw [hjoin_stable sp hsp0]
      exact h.2.2.symm
    · intro key i hget
      exact absurd hget (by simp [JsMap.get])
  intro a ha helig
  rw [persist_db_speakers, persistStage3_eq]
  obtain ⟨hinvF, heligF⟩ := persistFold_inv e
    (sessionIdByUrlOf (persistStage1 e sess db0).2)
    (persistStage2 apps (persistStage1 e sess db0).1).2 orgsF apps
    ⟨(persistStage2 apps (persistStage1 e sess db0).1).1, [],
      buildByProfileUrl
        ((persistStage2 apps (persistStage1 e sess db0).1).1.speakers.filter
          (fun sp => decide (sp.eventId = e))),
      buildByNameOrg
        (persistStage2 apps (persistStage1 e sess db0).1).1.organizations
        ((persistStage2 apps (persistStage1 e sess db0).1).1.speakers.filter
          (fun sp => decide (sp.eventId = e))), []⟩
    hinv0 hOM hC
  obtain ⟨i, hi⟩ := (JsMap.contains_iff_get _ _).mp (heligF a ha helig)
  exact hinvF.idmap _ i hi

/-- C8: against the database state left by a first `persistExtractedConferenceDataInDb`
run, a second run with the same sessions and speaker appearances creates no new
speaker rows, so the `uniqueSpeakersFound` it reports cannot exceed the value
reported by the first run.  `db0` is assumed wellformed: organization ids are
distinct and
below the id generator, and speaker organization references are below it too. -/
theorem persist_second_run_no_new_speakers
    (db0 db1 : Db) (e : Str) (sess : List SessionExtractedRow)
    (apps : List SpeakerAppearanceExtractedRow)
    (hwf : WfOrgs db0)
    (hrefs : ∀ sp ∈ db0.speakers, ∀ oid, sp.organizationId = some oid →
      oid < db0.nextId)
    (hdb1 : db1 = (persistExtractedConferenceDataInDb db0 e sess apps).1) :
    (persistExtractedConferenceDataInDb db1 e sess apps).1.speakers =
      db1.speakers ∧
    (persistExtractedConferenceDataInDb db1 e sess apps).2.uniqueSpeakersFound ≤
      (persistExtractedConferenceDataInDb db0 e sess apps).2.uniqueSpeakersFound := by
  have hs1b := persistStage1_frame e sess db1
  have hs2b := persistStage2_frame apps (persistStage1 e sess db1).1
  have hsp2 : (persistStage2 apps (persistStage1 e sess db1).1).1.speakers =
      db1.speakers := hs2b.1.trans hs1b.2.1
  have hstab2b := persistStage2_stable apps (persistStage1 e sess db1).1
  have hstable : ∀ oid,
      oid < (persistExtractedConferenceDataInDb db0 e sess apps).1.nextId →
      FindNN (persistStage2 apps (persistStage1 e sess db1).1).1.organizations oid =
        FindNN (persistExtractedConferenceDataInDb db0 e sess apps).1.organizations
          oid := by
    intro oid hoid
    rw [← hdb1] at hoid
    have h1 : oid < (persistStage1 e sess db1).1.nextId :=
      Nat.lt_of_lt_of_le hoid hs1b.2.2.2
    rw [hstab2b oid h1, hs1b.1, hdb1]
  have hwit := persist_first_run_witnesses db0 e sess apps
    (persistStage2 apps (persistStage1 e sess db1).1).1.organizations
    hwf hrefs hstable
  rw [← hdb1] at hwit
  have hurl : ∀ k,
      JsMap.contains (sessionIdByUrlOf (persistStage1 e sess db1).2) k = true ↔
      JsMap.contains (sessionIdByUrlOf (persistStage1 e sess db0).2) k = true := by
    intro k
    rw [contains_sessionIdByUrlOf, contains_sessionIdByUrlOf,
      persistStage1_urls, persistStage1_urls]
  have hmatch : ∀ a ∈ apps,
      appearanceEligible (sessionIdByUrlOf (persistStage1 e sess db1).2) a →
      (match lookupKeyOf a with
        | .profile p => JsMap.contains
            (buildByProfileUrl
              ((persistStage2 apps (persistStage1 e sess db1).1).1.speakers.filter
                (fun sp => decide (sp.eventId = e)))) p = true
        | .nameorg nm og => JsMap.contains
            (buildByNameOrg
              (persistStage2 apps (persistStage1 e sess db1).1).1.organizations
              ((persistStage2 apps (persistStage1 e sess db1).1).1.speakers.filter
                (fun sp => decide (sp.eventId = e)))) (nm, og) = true) := by
    intro a ha helig2
    have helig1 := appearanceEligible_transfer _ _ a hurl helig2
    have hw := hwit a ha helig1
    cases hlk : lookupKeyOf a with
    | profile p =>
      rw [hlk] at hw
      dsimp only
      obtain ⟨sp, hm, he, hp, hpne⟩ := hw
      have hmem2 : sp ∈ (persistStage2 apps (persistStage1 e sess db1).1).1.speakers := by
        rw [hsp2]
        exact hm
      exact contains_buildByProfileUrl_of _ sp p
        (List.mem_filter.mpr ⟨hmem2, decide_eq_true he⟩) hp hpne
    | nameorg nm og =>
      rw [hlk] at hw
      dsimp only
      obtain ⟨sp, hm, he, hnm, hog⟩ := hw
      have hmem2 : sp ∈ (persistStage2 apps (persistStage1 e sess db1).1).1.speakers := by
        rw [hsp2]
        exact hm
      have hc := contains_buildByNameOrg_of
        (persistStage2 apps (persistStage1 e sess db1).1).1.organizations
        ((persistStage2 apps (persistStage1 e sess db1).1).1.speakers.filter
          (fun sp => decide (sp.eventId = e))) sp
        (List.mem_filter.mpr ⟨hmem2, decide_eq_true he⟩)
      rw [hnm, hog] at hc
      exact hc
  have hA : (persistExtractedConferenceDataInDb db1 e sess apps).1.speakers =
      db1.speakers := by
    rw [persist_db_speakers db1 e sess apps, persistStage3_eq]
    rw [persistFold_noinsert e (sessionIdByUrlOf (persistStage1 e sess db1).2)
      (persistStage2 apps (persistStage1 e sess db1).1).2 apps
      ⟨(persistStage2 apps (persistStage1 e sess db1).1).1, [],
        buildByProfileUrl
          ((persistStage2 apps (persistStage1 e sess db1).1).1.speakers.filter
            (fun sp => decide (sp.eventId = e))),
        buildByNameOrg
          (persistStage2 apps (persistStage1 e sess db1).1).1.organizations
          ((persistStage2 apps (persistStage1 e sess db1).1).1.speakers.filter
            (fun sp => decide (sp.eventId = e))), []⟩
      hmatch]
    exact hsp2
  refine ⟨hA, ?_⟩
  rw [persist_usf db1 e sess apps, persist_usf db0 e sess apps, hA, ← hdb1]

/-- Witness: the idempotence law evaluated on an initially empty database. -/
theorem persist_second_run_no_new_speakers_witness :
    (persistExtractedConferenceDataInDb
      (persistExtractedConferenceDataInDb ⟨[], [], [], [], 0⟩ "e1".toList
        [⟨"Talk".toList, "https://conf.example/talks/1".toList⟩]
        [⟨"Jane Doe".toList, some "Acme Corp".toList, none, none,
          some "chair".toList, "https://conf.example/talks/1".toList⟩]).1
      "e1".toList
      [⟨"Talk".toList, "https://conf.example/talks/1".toList⟩]
      [⟨"Jane Doe".toList, some "Acme Corp".toList, none, none,
        some "chair".toList, "https://conf.example/talks/1".toList⟩]).1.speakers =
      (persistExtractedConferenceDataInDb ⟨[], [], [], [], 0⟩ "e1".toList
        [⟨"Talk".toList, "https://conf.example/talks/1".toList⟩]
        [⟨"Jane Doe".toList, some "Acme Corp".toList, none, none,
          some "chair".toList, "https://conf.example/talks/1".toList⟩]).1.speakers ∧
    (persistExtractedConferenceDataInDb
      (persistExtractedConferenceDataInDb ⟨[], [], [], [], 0⟩ "e1".toList
        [⟨"Talk".toList, "https://conf.example/talks/1".toList⟩]
        [⟨"Jane Doe".toList, some "Acme Corp".toList, none, none,
          some "chair".toList, "https://conf.example/talks/1".toList⟩]).1
      "e1".toList
      [⟨"Talk".toList, "https://conf.example/talks/1".toList⟩]
      [⟨"Jane Doe".toList, some "Acme Corp".toList, none, none,
        some "chair".toList,
        "https://conf.example/talks/1".toList⟩]).2.uniqueSpeakersFound ≤
      (persistExtractedConferenceDataInDb ⟨[], [], [], [], 0⟩ "e1".toList
        [⟨"Talk".toList, "https://conf.example/talks/1".toList⟩]
        [⟨"Jane Doe".toList, some "Acme Corp".toList, none, none,
          some "chair".toList,
          "https://conf.example/talks/1".toList⟩]).2.uniqueSpeakersFound :=
  persist_second_run_no_new_speakers ⟨[], [], [], [], 0⟩ _ "e1".toList
    [⟨"Talk".toList, "https://conf.example/talks/1".toList⟩]
    [⟨"Jane Doe".toList, some "Acme Corp".toList, none, none,
      some "chair".toList, "https://conf.example/talks/1".toList⟩]
    ⟨by decide, by simp⟩ (by simp) rfl

end EventScraper
